import Mathlib

/-!
# TinyCanvas: pixel buffer and rasteriser

A shallow embedding of `src/canvas.cpp`, `src/types.h`, the undo/redo history of
`src/editor.cpp` and the start-up size of `src/main.cpp`.

* C++ `int` values are embedded as `Int`.  In `resize`, the constructor, `rectPoints` and
  `circlePoints` every `int` computation that can leave the 32-bit range for `int` arguments
  is reduced by `wrap32`, the value the two's-complement machine leaves (the length
  `newW * newH` of the allocation, the loop counters `x++` and `y++` of `rectPoints`, the
  coordinate sums and the updates of `err` in `circlePoints`).  Elsewhere (`linePoints`,
  `floodFill`, the index `y * width_ + x` of an in-bounds cell) the values are exact, which
  describes the runs in which no `int` computation overflows; likewise `(int)snap.size()` is
  the length itself (vector sizes are taken to fit in `int`).
* `uint8_t` colour channels are embedded as `Fin 256`.
* `std::vector<Color>` is embedded as `List Color`; an index outside the storage (undefined
  behaviour in C++) reads `Color.sentinel` and writes nothing.  A vector constructed with a
  negative `int` length throws `std::length_error`; `resize` and the constructor then return
  `none`.
* The unbounded loops (`while (true)` in `linePoints`, `while (!q.empty())` in `floodFill`)
  and the two `for` loops of `rectPoints`, which do not end when the bound is the largest
  `int`, are embedded with an explicit iteration budget and return `none` when it is
  exhausted.
* The loop `while (x >= y)` of `circlePoints` is embedded by well-founded recursion on
  `x - y + 1`, and the counted `for` loops of `resize` by folds over `List.range`.
* `class Editor` (`src/editor.cpp`) is embedded by its canvas and its two history stacks.
* The size computation at the start of `main` (`src/main.cpp`) takes `argc` and the two
  values returned by `atoi` as arguments.
* `floodFillLog` is `floodFill` with a ghost log of the queue pushes; it computes the same
  buffer (`floodFillLog_fst`).
-/

namespace TinyCanvas

/-- The value that an `int` computation with exact result `n` leaves in a 32-bit
two's-complement `int`: `n` reduced modulo `2^32` into `-2147483648 .. 2147483647`. -/
def wrap32 (n : Int) : Int := (n + 2147483648) % 4294967296 - 2147483648

/-- Four 8-bit channels, `struct Color` of `types.h`. -/
structure Color where
  r : Fin 256
  g : Fin 256
  b : Fin 256
  a : Fin 256
deriving DecidableEq, Repr

/-- The value `{0, 0, 0, 0}` returned by `getPixel` outside the grid. -/
def Color.sentinel : Color := ⟨0, 0, 0, 0⟩

/-- The value `Color(255, 255, 255, 255)` used to initialise storage. -/
def Color.white : Color := ⟨255, 255, 255, 255⟩

/-- An integer grid coordinate, `struct Point` of `types.h`. -/
structure Point where
  x : Int
  y : Int
deriving DecidableEq, Repr

/-- The private fields `width_`, `height_`, `pixels_` of `class Canvas`. -/
structure Canvas where
  width : Int
  height : Int
  pixels : List Color
deriving DecidableEq, Repr

namespace Canvas

/-- Length invariant of the data model: the storage holds `width * height` colours. -/
def WF (c : Canvas) : Prop := (c.pixels.length : Int) = c.width * c.height

instance (c : Canvas) : Decidable c.WF := by
  unfold WF; infer_instance

/-- Row-major storage index `y * width_ + x`. -/
def index (c : Canvas) (x y : Int) : Nat := (y * c.width + x).toNat

/-- Embedding of `Canvas::inBounds`. -/
def inBounds (c : Canvas) (x y : Int) : Bool :=
  decide (x ≥ 0) && decide (x < c.width) && decide (y ≥ 0) && decide (y < c.height)

/-- Embedding of `Canvas::getPixel`. -/
def getPixel (c : Canvas) (x y : Int) : Color :=
  if !c.inBounds x y then Color.sentinel
  else c.pixels.getD (c.index x y) Color.sentinel

/-- Embedding of `Canvas::setPixel`. -/
def setPixel (c : Canvas) (x y : Int) (v : Color) : Canvas :=
  if c.inBounds x y then { c with pixels := c.pixels.set (c.index x y) v }
  else c

/-- Embedding of `Canvas::snapshot`. -/
def snapshot (c : Canvas) : List Color := c.pixels

/-- Embedding of `Canvas::restore`. -/
def restore (c : Canvas) (snap : List Color) : Canvas :=
  if (snap.length : Int) = c.width * c.height then { c with pixels := snap }
  else c

/-- The copy `newPixels[y * newW + x] = pixels_[y * width_ + x]` of one cell in `resize`.
In the two loops `0 ≤ x < copyW` and `0 ≤ y < copyH`, so the first index is below
`newW * newH` and the second below `width_ * height_`: both are exact whenever these two
products fit in `int`. -/
def resizeCell (c : Canvas) (newW : Int) (y : Int) (acc : List Color) (x : Int) : List Color :=
  acc.set (y * newW + x).toNat (c.pixels.getD (y * c.width + x).toNat Color.sentinel)

/-- The inner loop `for (int x = 0; x < copyW; x++)` of `resize`, for one row `y`. -/
def resizeRow (c : Canvas) (newW copyW : Int) (acc : List Color) (y : Int) : List Color :=
  (List.range copyW.toNat).foldl (fun a (x : Nat) => resizeCell c newW y a (x : Int)) acc

/-- Embedding of `Canvas::resize`.  The length of the allocation
`std::vector<Color> newPixels(newW * newH, ...)` is the `int` product `newW * newH`, which
wraps to 32 bits, converted to `size_t`; a negative `int` becomes a length above `max_size()`
and the constructor throws `std::length_error`, which is the result `none`. -/
def resize (c : Canvas) (newW newH : Int) : Option Canvas :=
  if wrap32 (newW * newH) < 0 then none
  else
    let newPixels := List.replicate (wrap32 (newW * newH)).toNat Color.white
    let copyW := min c.width newW
    let copyH := min c.height newH
    let filled := (List.range copyH.toNat).foldl
      (fun a (y : Nat) => resizeRow c newW copyW a (y : Int)) newPixels
    some { width := newW, height := newH, pixels := filled }

/-- One test of the inner `for` loop of `floodFill`: the neighbour `n` is repainted and pushed
on the queue when it is in bounds and still holds the target colour. -/
def floodVisit (target newColor : Color) (st : Canvas × List Point) (n : Point) :
    Canvas × List Point :=
  if st.1.inBounds n.x n.y && decide (st.1.getPixel n.x n.y = target) then
    (st.1.setPixel n.x n.y newColor, st.2 ++ [n])
  else st

/-- The offsets `dx[i], dy[i]` for `i = 0, 1, 2, 3` in `floodFill`. -/
def floodOffsets : List (Int × Int) := [(0, 1), (0, -1), (1, 0), (-1, 0)]

/-- The body of `while (!q.empty())` after `p` was popped: the four neighbours in order. -/
def floodExpand (target newColor : Color) (c : Canvas) (q : List Point) (p : Point) :
    Canvas × List Point :=
  floodOffsets.foldl
    (fun st d => floodVisit target newColor st ⟨p.x + d.1, p.y + d.2⟩) (c, q)

/-- The loop `while (!q.empty())` of `floodFill`; one unit of `fuel` per test of the loop
condition, `none` when the budget runs out before the queue is empty. -/
def floodLoop (target newColor : Color) : Nat → Canvas → List Point → Option Canvas
  | 0, _, _ => none
  | _ + 1, c, [] => some c
  | fuel + 1, c, p :: q =>
    floodLoop target newColor fuel (floodExpand target newColor c q p).1
      (floodExpand target newColor c q p).2

/-- Embedding of `Canvas::floodFill`, with the iteration budget of its queue loop. -/
def floodFill (fuel : Nat) (c : Canvas) (x y : Int) (newColor : Color) : Option Canvas :=
  if !c.inBounds x y then some c
  else
    let target := c.getPixel x y
    if target = newColor then some c
    else floodLoop target newColor fuel (c.setPixel x y newColor) [⟨x, y⟩]

/-- The cells reachable from the seed `(sx, sy)` by north/south/east/west steps through
in-bounds cells of `b` holding the colour `target`. -/
inductive Reach (b : Canvas) (target : Color) (sx sy : Int) : Int → Int → Prop
  | seed : b.inBounds sx sy = true → b.getPixel sx sy = target → Reach b target sx sy sx sy
  | step {x y : Int} (d : Int × Int) : Reach b target sx sy x y → d ∈ floodOffsets →
      b.inBounds (x + d.1) (y + d.2) = true → b.getPixel (x + d.1) (y + d.2) = target →
      Reach b target sx sy (x + d.1) (y + d.2)

/-- Every neighbour of `(x, y)` that belongs to the region is already repainted. -/
def Closed (b : Canvas) (t n : Color) (sx sy : Int) (c : Canvas) (x y : Int) : Prop :=
  ∀ d ∈ floodOffsets, Reach b t sx sy (x + d.1) (y + d.2) →
    c.getPixel (x + d.1) (y + d.2) = n

/-- Loop invariant of `floodFill` relating the current buffer `c` and queue `q` to the
buffer `b` at entry. -/
structure FloodInv (b : Canvas) (t n : Color) (sx sy : Int) (c : Canvas) (q : List Point) :
    Prop where
  width_eq : c.width = b.width
  height_eq : c.height = b.height
  wf : c.WF
  frame : ∀ x y, c.getPixel x y = b.getPixel x y ∨ (Reach b t sx sy x y ∧ c.getPixel x y = n)
  seed : c.getPixel sx sy = n
  queue : ∀ p ∈ q, Reach b t sx sy p.x p.y

end Canvas

/-- The loop `while (true)` of `linePoints`: `x0`, `y0`, `err` are the loop variables, the
other arguments stay fixed.  One unit of `fuel` per iteration, `none` when it runs out. -/
def lineLoop (x1 y1 dx dy sx sy : Int) : Nat → Int → Int → Int → Option (List Point)
  | 0, _, _, _ => none
  | fuel + 1, x0, y0, err =>
    if x0 = x1 ∧ y0 = y1 then some [⟨x0, y0⟩]
    else
      let e2 := 2 * err
      let err1 := if e2 > -dy then err - dy else err
      let x0n := if e2 > -dy then x0 + sx else x0
      let err2 := if e2 < dx then err1 + dx else err1
      let y0n := if e2 < dx then y0 + sy else y0
      (lineLoop x1 y1 dx dy sx sy fuel x0n y0n err2).map (fun rest => ⟨x0, y0⟩ :: rest)

/-- Embedding of `Canvas::linePoints`, with the iteration budget of its loop. -/
def linePoints (fuel : Nat) (x0 y0 x1 y1 : Int) : Option (List Point) :=
  let dx := |x1 - x0|
  let dy := |y1 - y0|
  let sx : Int := if x0 < x1 then 1 else -1
  let sy : Int := if y0 < y1 then 1 else -1
  let err := dx - dy
  lineLoop x1 y1 dx dy sx sy fuel x0 y0 err

/-- The first loop `for (int x = x0; x <= x1; x++)` of `rectPoints`: `x` is the loop variable
and `pts` the vector built so far; `x++` wraps at the end of the `int` range.  One unit of
`fuel` per test of the loop condition, `none` when it runs out. -/
def rectRows (x1 y0 y1 : Int) : Nat → Int → List Point → Option (List Point)
  | 0, _, _ => none
  | fuel + 1, x, pts =>
    if x ≤ x1 then rectRows x1 y0 y1 fuel (wrap32 (x + 1)) (pts ++ [⟨x, y0⟩, ⟨x, y1⟩])
    else some pts

/-- The second loop `for (int y = y0 + 1; y < y1; y++)` of `rectPoints`, in the same way. -/
def rectCols (x0 x1 y1 : Int) : Nat → Int → List Point → Option (List Point)
  | 0, _, _ => none
  | fuel + 1, y, pts =>
    if y < y1 then rectCols x0 x1 y1 fuel (wrap32 (y + 1)) (pts ++ [⟨x0, y⟩, ⟨x1, y⟩])
    else some pts

/-- Embedding of `Canvas::rectPoints`: the two conditional swaps, then the two loops, each
with the iteration budget `fuel`; the second loop starts at the `int` value of `y0 + 1`. -/
def rectPoints (fuel : Nat) (x0 y0 x1 y1 : Int) : Option (List Point) :=
  let xa := if x0 > x1 then x1 else x0
  let xb := if x0 > x1 then x0 else x1
  let ya := if y0 > y1 then y1 else y0
  let yb := if y0 > y1 then y0 else y1
  (rectRows xb ya yb fuel xa []).bind
    (fun pts => rectCols xa xb yb fuel (wrap32 (ya + 1)) pts)

/-- Corners for which neither loop counter of `rectPoints` leaves the range of `int`: the
four coordinates are `int` values, `x0` and `x1` are below `2147483647` (the first loop ends
with `x = max(x0,x1) + 1`), and `y0`, `y1` are not both `2147483647` (the second loop starts
at `y = min(y0,y1) + 1`). -/
def RectFits (x0 y0 x1 y1 : Int) : Prop :=
  -2147483648 ≤ x0 ∧ x0 < 2147483647 ∧ -2147483648 ≤ x1 ∧ x1 < 2147483647 ∧
  -2147483648 ≤ y0 ∧ y0 ≤ 2147483647 ∧ -2147483648 ≤ y1 ∧ y1 ≤ 2147483647 ∧
  min y0 y1 < 2147483647

instance (x0 y0 x1 y1 : Int) : Decidable (RectFits x0 y0 x1 y1) := by
  unfold RectFits; infer_instance

/-- The outline of the rectangle with normalised corners `x0 ≤ x1`, `y0 ≤ y1` as a sequence,
used in the proofs about `rectPoints`: the cells `(x, y0)`, `(x, y1)` for `x = x0, ..., x1`,
then the cells `(x0, y)`, `(x1, y)` for `y = y0 + 1, ..., y1 - 1`. -/
def rectOutline (x0 y0 x1 y1 : Int) : List Point :=
  (List.range (x1 + 1 - x0).toNat).flatMap
      (fun k : Nat => [(⟨x0 + k, y0⟩ : Point), ⟨x0 + k, y1⟩]) ++
    (List.range (y1 - (y0 + 1)).toNat).flatMap
      (fun k : Nat => [(⟨x0, y0 + 1 + k⟩ : Point), ⟨x1, y0 + 1 + k⟩])

/-- The loop `while (x >= y)` of `circlePoints`, with loop variables `x`, `y`, `err`.  The
eight coordinate sums and the updates of `err` are `int` computations and wrap to 32 bits.
The counters are exact: in the loop body `0 ≤ y ≤ x ≤ radius`, so `x--` gives at least `-1`
and `y++` at most `radius + 1`, which leaves the range of `int` only from the state
`y = x = radius = 2147483647`; the loop does not reach it, because `x` is decremented as soon
as `err ≥ 0`, after about 46341 iterations. -/
def circleLoop (cx cy : Int) (x y err : Int) : List Point :=
  if x ≥ y then
    [⟨wrap32 (cx + x), wrap32 (cy + y)⟩, ⟨wrap32 (cx - x), wrap32 (cy + y)⟩,
     ⟨wrap32 (cx + x), wrap32 (cy - y)⟩, ⟨wrap32 (cx - x), wrap32 (cy - y)⟩,
     ⟨wrap32 (cx + y), wrap32 (cy + x)⟩, ⟨wrap32 (cx - y), wrap32 (cy + x)⟩,
     ⟨wrap32 (cx + y), wrap32 (cy - x)⟩, ⟨wrap32 (cx - y), wrap32 (cy - x)⟩] ++
    (if err < 0 then
      circleLoop cx cy x (y + 1) (wrap32 (err + wrap32 (wrap32 (2 * (y + 1)) + 1)))
     else
      circleLoop cx cy (x - 1) (y + 1)
        (wrap32 (err + wrap32 (wrap32 (2 * wrap32 (y + 1 - (x - 1))) + 1))))
  else []
termination_by (x - y + 1).toNat
decreasing_by
  all_goals simp_wf
  all_goals omega

/-- Embedding of `Canvas::circlePoints`. -/
def circlePoints (cx cy radius : Int) : List Point :=
  if radius ≤ 0 then [⟨cx, cy⟩]
  else circleLoop cx cy radius 0 (wrap32 (1 - radius))

/-- Closure of a point list under the eight reflections about the centre `(cx, cy)`. -/
def Sym8 (cx cy : Int) (l : List Point) : Prop :=
  ∀ a b : Int, (⟨cx + a, cy + b⟩ : Point) ∈ l →
    (⟨cx - a, cy + b⟩ : Point) ∈ l ∧ (⟨cx + a, cy - b⟩ : Point) ∈ l ∧
    (⟨cx - a, cy - b⟩ : Point) ∈ l ∧ (⟨cx + b, cy + a⟩ : Point) ∈ l ∧
    (⟨cx - b, cy + a⟩ : Point) ∈ l ∧ (⟨cx + b, cy - a⟩ : Point) ∈ l ∧
    (⟨cx - b, cy - a⟩ : Point) ∈ l

/-- The constant `MAX_UNDO` of `editor.h`. -/
def MAX_UNDO : Nat := 100

/-- The fields `canvas_`, `undoStack_`, `redoStack_` of `class Editor`; the back of each
vector is the end of the list. -/
structure Editor where
  canvas : Canvas
  undoStack : List (List Color)
  redoStack : List (List Color)

namespace Editor

/-- Embedding of `Editor::pushUndo`. -/
def pushUndo (e : Editor) : Editor :=
  let pushed := e.undoStack ++ [e.canvas.snapshot]
  { canvas := e.canvas
    undoStack := if pushed.length > MAX_UNDO then pushed.tail else pushed
    redoStack := [] }

/-- Embedding of `Editor::undo`. -/
def undo (e : Editor) : Editor :=
  match e.undoStack.getLast? with
  | none => e
  | some top =>
    { canvas := e.canvas.restore top
      undoStack := e.undoStack.dropLast
      redoStack := e.redoStack ++ [e.canvas.snapshot] }

/-- Embedding of `Editor::redo`. -/
def redo (e : Editor) : Editor :=
  match e.redoStack.getLast? with
  | none => e
  | some top =>
    { canvas := e.canvas.restore top
      undoStack := e.undoStack ++ [e.canvas.snapshot]
      redoStack := e.redoStack.dropLast }

/-- States of the editor history reachable from empty stacks by `pushUndo`, `undo`, `redo`,
with arbitrary replacements of the canvas (edits, `loadFile`) in between. -/
inductive Reachable : Editor → Prop
  | init (c : Canvas) : Reachable ⟨c, [], []⟩
  | edit {e : Editor} (c : Canvas) : Reachable e → Reachable { e with canvas := c }
  | push {e : Editor} : Reachable e → Reachable e.pushUndo
  | undo {e : Editor} : Reachable e → Reachable e.undo
  | redo {e : Editor} : Reachable e → Reachable e.redo

end Editor

namespace Canvas

/-- The neighbour test of `floodFill` with a ghost log: every `q.push` is also recorded in
the third component. -/
def floodVisitLog (target newColor : Color) (st : Canvas × List Point × List Point)
    (n : Point) : Canvas × List Point × List Point :=
  if st.1.inBounds n.x n.y && decide (st.1.getPixel n.x n.y = target) then
    (st.1.setPixel n.x n.y newColor, st.2.1 ++ [n], st.2.2 ++ [n])
  else st

/-- The body of the queue loop of `floodFill` with the ghost log of pushes. -/
def floodExpandLog (target newColor : Color) (c : Canvas) (q log : List Point) (p : Point) :
    Canvas × List Point × List Point :=
  floodOffsets.foldl
    (fun st d => floodVisitLog target newColor st ⟨p.x + d.1, p.y + d.2⟩) (c, q, log)

/-- The queue loop of `floodFill` with the ghost log of pushes; the result is the final
buffer together with every point pushed on the queue, in order. -/
def floodLoopLog (target newColor : Color) :
    Nat → Canvas → List Point → List Point → Option (Canvas × List Point)
  | 0, _, _, _ => none
  | _ + 1, c, [], log => some (c, log)
  | fuel + 1, c, p :: q, log =>
    floodLoopLog target newColor fuel (floodExpandLog target newColor c q log p).1
      (floodExpandLog target newColor c q log p).2.1
      (floodExpandLog target newColor c q log p).2.2

/-- The method `floodFill` with the ghost log of queue pushes (the seed is the first). -/
def floodFillLog (fuel : Nat) (c : Canvas) (x y : Int) (newColor : Color) :
    Option (Canvas × List Point) :=
  if !c.inBounds x y then some (c, [])
  else
    let target := c.getPixel x y
    if target = newColor then some (c, [])
    else floodLoopLog target newColor fuel (c.setPixel x y newColor) [⟨x, y⟩] [⟨x, y⟩]

/-- Invariant of the ghost log of `floodFill`: no point is logged twice, every logged cell is
in bounds and already repainted, and each push has consumed one cell of the target colour
(`K` is the constant sum of log length and remaining target-coloured cells). -/
def LogInv (t n : Color) (K : Nat) (c : Canvas) (log : List Point) : Prop :=
  c.WF ∧ log.Nodup ∧ (∀ p ∈ log, c.inBounds p.x p.y = true ∧ c.getPixel p.x p.y = n) ∧
    log.length + c.pixels.count t = K

end Canvas

/-- The canvas size computed at the start of `main` (`main.cpp`): `argc` is the argument
count and `a1`, `a2` are the values `atoi(argv[1])`, `atoi(argv[2])`. -/
def startupSize (argc : Int) (a1 a2 : Int) : Int × Int :=
  if argc ≥ 3 then
    let canvasW := if a1 < 1 ∨ a1 > 512 then 32 else a1
    let canvasH := if a2 < 1 ∨ a2 > 512 then 32 else a2
    (canvasW, canvasH)
  else (32, 32)

/-! ## 32-bit arithmetic -/

/-- An `int` computation whose exact result is in range leaves that result. -/
theorem wrap32_eq (n : Int) (h1 : -2147483648 ≤ n) (h2 : n ≤ 2147483647) : wrap32 n = n := by
  unfold wrap32; omega

/-- Every wrapped value is in the range of `int`. -/
theorem wrap32_range (n : Int) : -2147483648 ≤ wrap32 n ∧ wrap32 n ≤ 2147483647 := by
  unfold wrap32; omega

/-! ## Pixel access -/

namespace Canvas

theorem inBounds_iff (c : Canvas) (x y : Int) :
    c.inBounds x y = true ↔ 0 ≤ x ∧ x < c.width ∧ 0 ≤ y ∧ y < c.height := by
  simp [inBounds, and_assoc]

theorem index_lt_length {c : Canvas} (hwf : c.WF) {x y : Int} (h : c.inBounds x y = true) :
    c.index x y < c.pixels.length := by
  rw [inBounds_iff] at h
  obtain ⟨hx0, hxw, hy0, hyh⟩ := h
  have h1 : y * c.width + x < c.width * c.height := by nlinarith
  have h2 : 0 ≤ y * c.width + x := by nlinarith
  unfold WF at hwf
  unfold index
  omega

theorem index_inj {c : Canvas} {x y x' y' : Int} (h : c.inBounds x y = true)
    (h' : c.inBounds x' y' = true) (he : c.index x y = c.index x' y') : x = x' ∧ y = y' := by
  rw [inBounds_iff] at h h'
  obtain ⟨hx0, hxw, hy0, hyh⟩ := h
  obtain ⟨hx0', hxw', hy0', hyh'⟩ := h'
  have h2 : 0 ≤ y * c.width + x := by nlinarith
  have h2' : 0 ≤ y' * c.width + x' := by nlinarith
  have he' : y * c.width + x = y' * c.width + x' := by
    unfold index at he; omega
  have hy : y = y' := by
    rcases lt_trichotomy y y' with hlt | heq | hgt
    · exfalso; nlinarith
    · exact heq
    · exfalso; nlinarith
  subst hy
  exact ⟨by linarith, rfl⟩

@[simp] theorem setPixel_width (c : Canvas) (x y : Int) (v : Color) :
    (c.setPixel x y v).width = c.width := by
  unfold setPixel; split <;> rfl

@[simp] theorem setPixel_height (c : Canvas) (x y : Int) (v : Color) :
    (c.setPixel x y v).height = c.height := by
  unfold setPixel; split <;> rfl

@[simp] theorem setPixel_length (c : Canvas) (x y : Int) (v : Color) :
    (c.setPixel x y v).pixels.length = c.pixels.length := by
  unfold setPixel; split <;> simp

@[simp] theorem setPixel_inBounds (c : Canvas) (x y : Int) (v : Color) (x' y' : Int) :
    (c.setPixel x y v).inBounds x' y' = c.inBounds x' y' := by
  simp [inBounds]

@[simp] theorem setPixel_index (c : Canvas) (x y : Int) (v : Color) (x' y' : Int) :
    (c.setPixel x y v).index x' y' = c.index x' y' := by
  simp [index]

theorem setPixel_WF {c : Canvas} (hwf : c.WF) (x y : Int) (v : Color) :
    (c.setPixel x y v).WF := by
  unfold WF at *; simpa using hwf

theorem getPixel_setPixel_same {c : Canvas} (hwf : c.WF) {x y : Int}
    (h : c.inBounds x y = true) (v : Color) : (c.setPixel x y v).getPixel x y = v := by
  have hlt := index_lt_length hwf h
  unfold getPixel
  rw [setPixel_inBounds, setPixel_index]
  simp [h, setPixel, List.getD_eq_getElem?_getD, List.getElem?_set, hlt]

theorem getPixel_setPixel_other (c : Canvas) {x y x' y' : Int} (v : Color)
    (hne : ¬ (x' = x ∧ y' = y)) : (c.setPixel x y v).getPixel x' y' = c.getPixel x' y' := by
  unfold getPixel
  rw [setPixel_inBounds, setPixel_index]
  by_cases h' : c.inBounds x' y' = true
  · by_cases h : c.inBounds x y = true
    · have hidx : c.index x y ≠ c.index x' y' := by
        intro he
        obtain ⟨h1, h2⟩ := index_inj h h' he
        exact hne ⟨h1.symm, h2.symm⟩
      simp [h', h, setPixel, List.getD_eq_getElem?_getD, List.getElem?_set, hidx]
    · simp [setPixel, h]
  · simp [h']

theorem setPixel_outside (c : Canvas) {x y : Int} (h : c.inBounds x y = false) (v : Color) :
    c.setPixel x y v = c := by
  simp [setPixel, h]


/-- C1: on a buffer satisfying the length invariant, reading an in-bounds cell right after
writing the colour `v` to it returns exactly `v`. -/
theorem getPixel_after_setPixel (c : Canvas) (x y : Int) (v : Color) (hwf : c.WF)
    (hx0 : 0 ≤ x) (hxw : x < c.width) (hy0 : 0 ≤ y) (hyh : y < c.height) :
    (c.setPixel x y v).getPixel x y = v :=
  getPixel_setPixel_same hwf ((inBounds_iff c x y).2 ⟨hx0, hxw, hy0, hyh⟩) v

theorem getPixel_after_setPixel_witness :
    (⟨2, 2, [Color.white, Color.white, Color.white, Color.white]⟩ : Canvas).WF ∧
    ((⟨2, 2, [Color.white, Color.white, Color.white, Color.white]⟩ : Canvas).setPixel 1 1
      ⟨7, 8, 9, 10⟩).getPixel 1 1 = ⟨7, 8, 9, 10⟩ :=
  ⟨by decide, getPixel_after_setPixel _ 1 1 _ (by decide) (by decide) (by decide) (by decide)
    (by decide)⟩

/-- C2: `setPixel` touches one cell only: width, height and storage length are unchanged and
every coordinate pair other than `(x, y)` reads the same colour before and after. -/
theorem setPixel_frame (c : Canvas) (x y : Int) (v : Color) :
    (c.setPixel x y v).width = c.width ∧ (c.setPixel x y v).height = c.height ∧
    (c.setPixel x y v).pixels.length = c.pixels.length ∧
    ∀ x' y' : Int, (x', y') ≠ (x, y) →
      (c.setPixel x y v).getPixel x' y' = c.getPixel x' y' := by
  refine ⟨setPixel_width c x y v, setPixel_height c x y v, setPixel_length c x y v, ?_⟩
  intro x' y' hne
  apply getPixel_setPixel_other
  rintro ⟨h1, h2⟩
  exact hne (by rw [h1, h2])

/-- C3: outside the grid `getPixel` returns the sentinel `(0,0,0,0)` and `setPixel` returns
the buffer unchanged (width, height and every stored colour). -/
theorem out_of_bounds_access (c : Canvas) (x y : Int) (v : Color)
    (hout : x < 0 ∨ x ≥ c.width ∨ y < 0 ∨ y ≥ c.height) :
    c.getPixel x y = ⟨0, 0, 0, 0⟩ ∧ c.setPixel x y v = c := by
  have hb : c.inBounds x y = false := by
    rw [Bool.eq_false_iff]
    intro h
    rw [inBounds_iff] at h
    omega
  exact ⟨by simp [getPixel, hb, Color.sentinel], setPixel_outside c hb v⟩

theorem out_of_bounds_access_witness :
    ((⟨2, 1, [Color.white, Color.white]⟩ : Canvas).getPixel 2 0 = ⟨0, 0, 0, 0⟩ ∧
      (⟨2, 1, [Color.white, Color.white]⟩ : Canvas).setPixel 2 0 ⟨1, 2, 3, 4⟩ =
        ⟨2, 1, [Color.white, Color.white]⟩) :=
  out_of_bounds_access ⟨2, 1, [Color.white, Color.white]⟩ 2 0 ⟨1, 2, 3, 4⟩
    (Or.inr (Or.inl (by decide)))

/-! ## Snapshot and restore -/

/-- C6: restoring the snapshot just taken gives back the very same buffer. -/
theorem restore_snapshot (c : Canvas) : c.restore c.snapshot = c := by
  unfold restore snapshot
  split <;> rfl

end Canvas

/-! ## Resize -/

namespace Canvas

theorem getD_set_eq (l : List Color) (i j : Nat) (v d : Color) (hi : i < l.length) :
    (l.set i v).getD j d = if i = j then v else l.getD j d := by
  by_cases h : i = j
  · subst h; simp [List.getD_eq_getElem?_getD, List.getElem?_set, hi]
  · simp [List.getD_eq_getElem?_getD, List.getElem?_set, h]

theorem cell_lt {w h x y : Int} (hx0 : 0 ≤ x) (hxw : x < w) (hy0 : 0 ≤ y) (hyh : y < h) :
    (y * w + x).toNat < (w * h).toNat := by
  have h1 : y * w + x < w * h := by nlinarith
  have h2 : 0 ≤ y * w + x := by nlinarith
  omega

theorem cell_inj {w x y x' y' : Int} (hx0 : 0 ≤ x) (hxw : x < w) (hy0 : 0 ≤ y)
    (hx0' : 0 ≤ x') (hxw' : x' < w) (hy0' : 0 ≤ y')
    (he : (y * w + x).toNat = (y' * w + x').toNat) : x = x' ∧ y = y' := by
  have h2 : 0 ≤ y * w + x := by nlinarith
  have h2' : 0 ≤ y' * w + x' := by nlinarith
  have he' : y * w + x = y' * w + x' := by omega
  have hy : y = y' := by
    rcases lt_trichotomy y y' with hlt | heq | hgt
    · exfalso; nlinarith
    · exact heq
    · exfalso; nlinarith
  subst hy
  exact ⟨by linarith, rfl⟩

/-- Effect of the inner loop of `resize` on row `y` after `k` columns. -/
theorem resizeRow_spec (c : Canvas) (newW newH : Int) (y : Int) (hy0 : 0 ≤ y) (hyh : y < newH)
    (acc : List Color) (hacc : acc.length = (newW * newH).toNat) (k : Nat) (hk : (k : Int) ≤ newW) :
    (resizeRow c newW k acc y).length = (newW * newH).toNat ∧
    ∀ x' y' : Int, 0 ≤ x' → x' < newW → 0 ≤ y' → y' < newH →
      (resizeRow c newW k acc y).getD (y' * newW + x').toNat Color.sentinel =
        if y' = y ∧ x' < k then c.pixels.getD (y * c.width + x').toNat Color.sentinel
        else acc.getD (y' * newW + x').toNat Color.sentinel := by
  induction k with
  | zero =>
    refine ⟨by simpa [resizeRow] using hacc, ?_⟩
    intro x' y' hx0 _ _ _
    have h0 : ¬ (y' = y ∧ x' < ((0 : Nat) : Int)) := by
      rintro ⟨_, h⟩; simp at h; omega
    rw [if_neg h0]
    simp [resizeRow]
  | succ k ih =>
    have hk' : (k : Int) ≤ newW := by push_cast at hk; omega
    obtain ⟨hlen, hget⟩ := ih hk'
    have hstep : resizeRow c newW ((k + 1 : Nat) : Int) acc y =
        resizeCell c newW y (resizeRow c newW k acc y) (k : Int) := by
      simp [resizeRow, List.range_succ, List.foldl_append]
    rw [hstep]
    refine ⟨by simpa [resizeCell] using hlen, ?_⟩
    intro x' y' hx0 hxw hy0' hyh'
    have hklt : (k : Int) < newW := by push_cast at hk; omega
    have hidx : (y * newW + (k : Int)).toNat < (resizeRow c newW k acc y).length := by
      rw [hlen]; exact cell_lt (by omega) hklt hy0 hyh
    unfold resizeCell
    rw [getD_set_eq _ _ _ _ _ hidx, hget x' y' hx0 hxw hy0' hyh']
    by_cases hsame : (y * newW + (k : Int)).toNat = (y' * newW + x').toNat
    · obtain ⟨h1, h2⟩ := cell_inj (by omega) hklt hy0 hx0 hxw hy0' hsame
      subst h1 h2
      simp
    · have hne : ¬ (y' = y ∧ x' = (k : Int)) := by
        rintro ⟨h1, h2⟩; subst h1 h2; exact hsame rfl
      rw [if_neg hsame]
      by_cases hy : y' = y
      · have hxk : x' ≠ (k : Int) := fun h => hne ⟨hy, h⟩
        have : (x' < ((k + 1 : Nat) : Int)) ↔ x' < (k : Int) := by push_cast; omega
        simp only [hy, true_and, this]
      · simp [hy]

/-- Effect of the outer loop of `resize` after `m` rows. -/
theorem resizeRows_spec (c : Canvas) (newW newH copyW : Int) (hw : 0 ≤ newW)
    (hcw : copyW ≤ newW)
    (init : List Color) (hinit : init.length = (newW * newH).toNat) (m : Nat)
    (hm : (m : Int) ≤ newH) :
    ((List.range m).foldl (fun a (y : Nat) => resizeRow c newW copyW a (y : Int)) init).length
      = (newW * newH).toNat ∧
    ∀ x' y' : Int, 0 ≤ x' → x' < newW → 0 ≤ y' → y' < newH →
      ((List.range m).foldl (fun a (y : Nat) => resizeRow c newW copyW a (y : Int)) init).getD
          (y' * newW + x').toNat Color.sentinel =
        if y' < m ∧ x' < copyW then c.pixels.getD (y' * c.width + x').toNat Color.sentinel
        else init.getD (y' * newW + x').toNat Color.sentinel := by
  induction m with
  | zero =>
    refine ⟨by simpa using hinit, ?_⟩
    intro x' y' _ _ hy0 _
    have h0 : ¬ (y' < ((0 : Nat) : Int) ∧ x' < copyW) := by
      rintro ⟨h, _⟩; simp at h; omega
    rw [if_neg h0]
    simp
  | succ m ih =>
    have hm' : (m : Int) ≤ newH := by push_cast at hm; omega
    have hmlt : (m : Int) < newH := by push_cast at hm; omega
    obtain ⟨hlen, hget⟩ := ih hm'
    rw [List.range_succ, List.foldl_append]
    simp only [List.foldl_cons, List.foldl_nil]
    have hrow : resizeRow c newW copyW
        ((List.range m).foldl (fun a (y : Nat) => resizeRow c newW copyW a (y : Int)) init) (m : Int)
        = resizeRow c newW (copyW.toNat : Int)
        ((List.range m).foldl (fun a (y : Nat) => resizeRow c newW copyW a (y : Int)) init)
          (m : Int) := by
      simp only [resizeRow, Int.toNat_ofNat]
    rw [hrow]
    have hk : ((copyW.toNat : Nat) : Int) ≤ newW := by omega
    obtain ⟨hlen2, hget2⟩ :=
      resizeRow_spec c newW newH (m : Int) (by omega) hmlt _ hlen copyW.toNat hk
    refine ⟨hlen2, ?_⟩
    intro x' y' hx0 hxw hy0 hyh
    rw [hget2 x' y' hx0 hxw hy0 hyh, hget x' y' hx0 hxw hy0 hyh]
    have e1 : (x' < ((copyW.toNat : Nat) : Int)) ↔ x' < copyW := by omega
    have e2 : (y' < ((m + 1 : Nat) : Int)) ↔ (y' < (m : Int) ∨ y' = (m : Int)) := by
      push_cast; omega
    by_cases hy : y' = (m : Int)
    · subst hy
      split_ifs <;> first | rfl | (exfalso; omega)
    · split_ifs <;> first | rfl | (exfalso; omega)

/-- Cells of the buffer returned by `resize` for non-negative dimensions whose product fits
in `int`. -/
theorem resize_cells (c : Canvas) (newW newH : Int) (hw : 0 ≤ newW) (hh : 0 ≤ newH)
    (hfit : newW * newH ≤ 2147483647) :
    ∃ r : Canvas, c.resize newW newH = some r ∧ r.width = newW ∧ r.height = newH ∧
      ∀ x y : Int, 0 ≤ x → x < newW → 0 ≤ y → y < newH →
        r.getPixel x y =
          if x < min c.width newW ∧ y < min c.height newH then c.getPixel x y
          else ⟨255, 255, 255, 255⟩ := by
  have hprod : ¬ newW * newH < 0 := not_lt.mpr (mul_nonneg hw hh)
  have hwrap : wrap32 (newW * newH) = newW * newH :=
    wrap32_eq _ (le_trans (by decide) (mul_nonneg hw hh)) hfit
  obtain ⟨hlen, hget⟩ := resizeRows_spec c newW newH (min c.width newW) hw (min_le_right _ _)
    (List.replicate (newW * newH).toNat Color.white) (by simp) (min c.height newH).toNat
    (by have := min_le_right c.height newH; omega)
  refine ⟨_, by simp only [resize, hwrap, if_neg hprod]; rfl, rfl, rfl, ?_⟩
  intro x y hx0 hxw hy0 hyh
  have hin : inBounds ⟨newW, newH, (List.range (min c.height newH).toNat).foldl
      (fun a (y : Nat) => resizeRow c newW (min c.width newW) a (y : Int))
      (List.replicate (newW * newH).toNat Color.white)⟩ x y = true :=
    (inBounds_iff _ x y).2 ⟨hx0, hxw, hy0, hyh⟩
  have hcell := cell_lt hx0 hxw hy0 hyh
  simp only [getPixel, hin, Bool.not_true, Bool.false_eq_true, if_false, index]
  rw [hget x y hx0 hxw hy0 hyh]
  have e1 : (y < (((min c.height newH).toNat : Nat) : Int)) ↔ y < min c.height newH := by omega
  by_cases hcond : x < min c.width newW ∧ y < min c.height newH
  · have hcond' : y < (((min c.height newH).toNat : Nat) : Int) ∧ x < min c.width newW :=
      ⟨e1.2 hcond.2, hcond.1⟩
    have hinc : c.inBounds x y = true :=
      (inBounds_iff c x y).2 ⟨hx0, lt_of_lt_of_le hcond.1 (min_le_left _ _), hy0,
        lt_of_lt_of_le hcond.2 (min_le_left _ _)⟩
    rw [if_pos hcond', if_pos hcond]
    simp [hinc]
  · have hcond' : ¬ (y < (((min c.height newH).toNat : Nat) : Int) ∧ x < min c.width newW) :=
      fun h => hcond ⟨h.2, e1.1 h.1⟩
    rw [if_neg hcond', if_neg hcond]
    rw [List.getD_eq_getElem?_getD, List.getElem?_replicate, if_pos hcell]
    rfl

/-- C4 fails when the product of the new dimensions does not fit in `int`: on a 1x1 buffer
`resize(46341, 46341)` asks for `46341 * 46341 = 2147488281` cells, the `int` product is
`-2147479015`, the allocation throws and no buffer is returned. -/
theorem resize_contents_overflow_example :
    (⟨1, 1, [Color.white]⟩ : Canvas).WF ∧
    wrap32 (46341 * 46341) = -2147479015 ∧
    (⟨1, 1, [Color.white]⟩ : Canvas).resize 46341 46341 = none ∧
    ¬ ∃ r : Canvas, (⟨1, 1, [Color.white]⟩ : Canvas).resize 46341 46341 = some r ∧
      r.width = 46341 ∧ r.height = 46341 := by
  have h : (⟨1, 1, [Color.white]⟩ : Canvas).resize 46341 46341 = none := by decide
  refine ⟨by decide, by decide, h, ?_⟩
  rintro ⟨r, hr, _⟩
  rw [h] at hr
  exact Option.noConfusion hr

/-- C4 (amended): for `newW, newH ≥ 0` with `newW * newH ≤ 2147483647`, `resize` succeeds, the
new width and height are `newW` and `newH`, each new cell inside the top-left overlap
`min(W,newW) x min(H,newH)` holds the old colour and every other new cell is opaque white
`(255,255,255,255)`. -/
theorem resize_contents (c : Canvas) (newW newH : Int) (_hwf : c.WF) (hw : 0 ≤ newW)
    (hh : 0 ≤ newH) (hfit : newW * newH ≤ 2147483647) :
    ∃ r : Canvas, c.resize newW newH = some r ∧ r.width = newW ∧ r.height = newH ∧
      ∀ x y : Int, 0 ≤ x → x < newW → 0 ≤ y → y < newH →
        r.getPixel x y =
          if x < min c.width newW ∧ y < min c.height newH then c.getPixel x y
          else ⟨255, 255, 255, 255⟩ :=
  resize_cells c newW newH hw hh hfit

theorem resize_contents_witness :
    (⟨2, 2, [⟨9, 9, 9, 9⟩, Color.white, Color.white, ⟨7, 7, 7, 7⟩]⟩ : Canvas).WF ∧
    ∃ r : Canvas,
      (⟨2, 2, [⟨9, 9, 9, 9⟩, Color.white, Color.white, ⟨7, 7, 7, 7⟩]⟩ : Canvas).resize 3 1
        = some r ∧ r.width = 3 ∧ r.height = 1 ∧
      ∀ x y : Int, 0 ≤ x → x < 3 → 0 ≤ y → y < 1 →
        r.getPixel x y =
          if x < min (2 : Int) 3 ∧ y < min (2 : Int) 1 then
            (⟨2, 2, [⟨9, 9, 9, 9⟩, Color.white, Color.white, ⟨7, 7, 7, 7⟩]⟩ : Canvas).getPixel x y
          else ⟨255, 255, 255, 255⟩ :=
  ⟨by decide, resize_contents _ 3 1 (by decide) (by decide) (by decide) (by decide)⟩

end Canvas

/-! ## Line rasterisation -/

/-- One unfolding of `lineLoop` away from the end point. -/
theorem lineLoop_succ (x1 y1 dx dy sx sy : Int) (fuel : Nat) (x0 y0 err : Int)
    (hne : ¬ (x0 = x1 ∧ y0 = y1)) :
    lineLoop x1 y1 dx dy sx sy (fuel + 1) x0 y0 err =
      (lineLoop x1 y1 dx dy sx sy fuel
        (if 2 * err > -dy then x0 + sx else x0)
        (if 2 * err < dx then y0 + sy else y0)
        (if 2 * err < dx then (if 2 * err > -dy then err - dy else err) + dx
          else (if 2 * err > -dy then err - dy else err))).map
        (fun rest => ⟨x0, y0⟩ :: rest) := by
  rw [lineLoop, if_neg hne]

/-- At the end point `lineLoop` returns that single point. -/
theorem lineLoop_end (x1 y1 dx dy sx sy : Int) (fuel : Nat) (err : Int) :
    lineLoop x1 y1 dx dy sx sy (fuel + 1) x1 y1 err = some [⟨x1, y1⟩] := by
  rw [lineLoop, if_pos ⟨rfl, rfl⟩]

/-- Lines with `dy ≤ dx`: with `n` steps left in `x` and `m` in `y`, the loop emits `n + 1`
points and stops on the end point. -/
theorem lineLoop_xmajor (x1 y1 dx dy sx sy : Int) (hsx : sx = 1 ∨ sx = -1) (hdy : 0 ≤ dy)
    (hle : dy ≤ dx) (hdx : 0 < dx) (n : Nat) :
    ∀ (m err : Int), err = dx - dy + n * dy - m * dx → -dy < 2 * err →
      2 * err < 3 * dx - 2 * dy →
      ∃ pts : List Point,
        (∀ fuel, n < fuel →
          lineLoop x1 y1 dx dy sx sy fuel (x1 - sx * n) (y1 - sy * m) err = some pts) ∧
        pts.length = n + 1 ∧ pts.head? = some ⟨x1 - sx * n, y1 - sy * m⟩ ∧
        pts.getLast? = some ⟨x1, y1⟩ := by
  induction n with
  | zero =>
    intro m err herr hlo hhi
    have hm : m = 0 := by
      rcases lt_trichotomy m 0 with h | h | h
      · exfalso
        have : m ≤ -1 := by omega
        nlinarith
      · exact h
      · exfalso
        have h1 : 1 ≤ m := by omega
        have h2 : 0 ≤ (m - 1) * dx := mul_nonneg (by omega) (le_of_lt hdx)
        simp only [Nat.cast_zero, zero_mul] at herr
        nlinarith
    subst hm
    refine ⟨[⟨x1, y1⟩], ?_, rfl, by simp, rfl⟩
    intro fuel hf
    obtain ⟨f, rfl⟩ : ∃ f, fuel = f + 1 := ⟨fuel - 1, by omega⟩
    simpa using lineLoop_end x1 y1 dx dy sx sy f err
  | succ n ih =>
    intro m err herr hlo hhi
    have hne : ¬ (x1 - sx * ((n + 1 : Nat) : Int) = x1 ∧ y1 - sy * m = y1) := by
      rintro ⟨h, _⟩
      push_cast at h
      rcases hsx with h1 | h1 <;> subst h1 <;> omega
    have hx : (2 * err > -dy) := hlo
    have hxn : x1 - sx * ((n + 1 : Nat) : Int) + sx = x1 - sx * (n : Int) := by
      push_cast; ring
    push_cast at herr
    by_cases hy : 2 * err < dx
    · obtain ⟨pts, hrun, hlen, hhead, hlast⟩ := ih (m - 1) (err - dy + dx)
        (by rw [herr]; ring) (by linarith) (by linarith)
      refine ⟨⟨x1 - sx * ((n + 1 : Nat) : Int), y1 - sy * m⟩ :: pts, ?_, by simp [hlen],
        by simp, ?_⟩
      · intro fuel hf
        obtain ⟨f, rfl⟩ : ∃ f, fuel = f + 1 := ⟨fuel - 1, by omega⟩
        rw [lineLoop_succ _ _ _ _ _ _ _ _ _ _ hne, if_pos hx, if_pos hy, if_pos hy, if_pos hx, hxn]
        have hym : y1 - sy * m + sy = y1 - sy * (m - 1) := by ring
        rw [hym, hrun f (by omega)]
        rfl
      · cases pts with
        | nil => simp at hlen
        | cons p ps => simpa using hlast
    · have hlt : dy < dx := by
        rcases lt_or_eq_of_le hle with h | h
        · exact h
        · exfalso; linarith
      obtain ⟨pts, hrun, hlen, hhead, hlast⟩ := ih m (err - dy)
        (by rw [herr]; ring) (by linarith) (by linarith)
      refine ⟨⟨x1 - sx * ((n + 1 : Nat) : Int), y1 - sy * m⟩ :: pts, ?_, by simp [hlen],
        by simp, ?_⟩
      · intro fuel hf
        obtain ⟨f, rfl⟩ : ∃ f, fuel = f + 1 := ⟨fuel - 1, by omega⟩
        rw [lineLoop_succ _ _ _ _ _ _ _ _ _ _ hne, if_pos hx, if_neg hy, if_neg hy, if_pos hx, hxn]
        rw [hrun f (by omega)]
        rfl
      · cases pts with
        | nil => simp at hlen
        | cons p ps => simpa using hlast

/-- Lines with `dx ≤ dy`: with `n` steps left in `y` and `m` in `x`, the loop emits `n + 1`
points and stops on the end point. -/
theorem lineLoop_ymajor (x1 y1 dx dy sx sy : Int) (hsy : sy = 1 ∨ sy = -1) (hdx : 0 ≤ dx)
    (hle : dx ≤ dy) (hdy : 0 < dy) (n : Nat) :
    ∀ (m err : Int), err = dx - dy + m * dy - n * dx → 2 * dx - 3 * dy < 2 * err →
      2 * err < dx →
      ∃ pts : List Point,
        (∀ fuel, n < fuel →
          lineLoop x1 y1 dx dy sx sy fuel (x1 - sx * m) (y1 - sy * n) err = some pts) ∧
        pts.length = n + 1 ∧ pts.head? = some ⟨x1 - sx * m, y1 - sy * n⟩ ∧
        pts.getLast? = some ⟨x1, y1⟩ := by
  induction n with
  | zero =>
    intro m err herr hlo hhi
    simp only [Nat.cast_zero, zero_mul] at herr
    have hm : m = 0 := by
      rcases lt_trichotomy m 0 with h | h | h
      · exfalso
        have h2 : 0 ≤ (-1 - m) * dy := mul_nonneg (by omega) (le_of_lt hdy)
        nlinarith
      · exact h
      · exfalso
        have h2 : 0 ≤ (m - 1) * dy := mul_nonneg (by omega) (le_of_lt hdy)
        nlinarith
    subst hm
    refine ⟨[⟨x1, y1⟩], ?_, rfl, by simp, rfl⟩
    intro fuel hf
    obtain ⟨f, rfl⟩ : ∃ f, fuel = f + 1 := ⟨fuel - 1, by omega⟩
    simpa using lineLoop_end x1 y1 dx dy sx sy f err
  | succ n ih =>
    intro m err herr hlo hhi
    have hne : ¬ (x1 - sx * m = x1 ∧ y1 - sy * ((n + 1 : Nat) : Int) = y1) := by
      rintro ⟨_, h⟩
      push_cast at h
      rcases hsy with h1 | h1 <;> subst h1 <;> omega
    have hy : 2 * err < dx := hhi
    have hyn : y1 - sy * ((n + 1 : Nat) : Int) + sy = y1 - sy * (n : Int) := by
      push_cast; ring
    push_cast at herr
    by_cases hx : 2 * err > -dy
    · obtain ⟨pts, hrun, hlen, hhead, hlast⟩ := ih (m - 1) (err - dy + dx)
        (by rw [herr]; ring) (by linarith) (by linarith)
      refine ⟨⟨x1 - sx * m, y1 - sy * ((n + 1 : Nat) : Int)⟩ :: pts, ?_, by simp [hlen],
        by simp, ?_⟩
      · intro fuel hf
        obtain ⟨f, rfl⟩ : ∃ f, fuel = f + 1 := ⟨fuel - 1, by omega⟩
        rw [lineLoop_succ _ _ _ _ _ _ _ _ _ _ hne, if_pos hx, if_pos hy, if_pos hy, if_pos hx, hyn]
        have hxm : x1 - sx * m + sx = x1 - sx * (m - 1) := by ring
        rw [hxm, hrun f (by omega)]
        rfl
      · cases pts with
        | nil => simp at hlen
        | cons p ps => simpa using hlast
    · have hlt : dx < dy := by
        rcases lt_or_eq_of_le hle with h | h
        · exact h
        · exfalso; linarith
      obtain ⟨pts, hrun, hlen, hhead, hlast⟩ := ih m (err + dx)
        (by rw [herr]; ring) (by linarith) (by linarith)
      refine ⟨⟨x1 - sx * m, y1 - sy * ((n + 1 : Nat) : Int)⟩ :: pts, ?_, by simp [hlen],
        by simp, ?_⟩
      · intro fuel hf
        obtain ⟨f, rfl⟩ : ∃ f, fuel = f + 1 := ⟨fuel - 1, by omega⟩
        rw [lineLoop_succ _ _ _ _ _ _ _ _ _ _ hne, if_neg hx, if_pos hy, if_pos hy, if_neg hx, hyn]
        rw [hrun f (by omega)]
        rfl
      · cases pts with
        | nil => simp at hlen
        | cons p ps => simpa using hlast

/-- C10: for all integer end points `linePoints` returns (for every budget above
`max(|x1-x0|, |y1-y0|)`) one sequence that starts at `(x0,y0)`, ends at `(x1,y1)` and has
exactly `max(|x1-x0|, |y1-y0|) + 1` points; for coinciding end points it is `[(x0,y0)]`. -/
theorem linePoints_endpoints (x0 y0 x1 y1 : Int) :
    ∃ pts : List Point,
      (∀ fuel : Nat, max |x1 - x0| |y1 - y0| < (fuel : Int) →
        linePoints fuel x0 y0 x1 y1 = some pts) ∧
      pts.head? = some ⟨x0, y0⟩ ∧ pts.getLast? = some ⟨x1, y1⟩ ∧
      (pts.length : Int) = max |x1 - x0| |y1 - y0| + 1 ∧
      (x0 = x1 ∧ y0 = y1 → pts = [⟨x0, y0⟩]) := by
  have hdx0 : 0 ≤ |x1 - x0| := abs_nonneg _
  have hdy0 : 0 ≤ |y1 - y0| := abs_nonneg _
  have hsx : ((if x0 < x1 then 1 else -1 : Int) = 1 ∨ (if x0 < x1 then 1 else -1 : Int) = -1) := by
    split <;> simp
  have hsy : ((if y0 < y1 then 1 else -1 : Int) = 1 ∨ (if y0 < y1 then 1 else -1 : Int) = -1) := by
    split <;> simp
  have hx0 : x1 - (if x0 < x1 then 1 else -1 : Int) * |x1 - x0| = x0 := by
    split
    · rw [abs_of_pos (by omega)]; ring
    · rw [abs_of_nonpos (by omega)]; ring
  have hy0 : y1 - (if y0 < y1 then 1 else -1 : Int) * |y1 - y0| = y0 := by
    split
    · rw [abs_of_pos (by omega)]; ring
    · rw [abs_of_nonpos (by omega)]; ring
  by_cases hmajor : |y1 - y0| ≤ |x1 - x0|
  · by_cases hpos : 0 < |x1 - x0|
    · obtain ⟨pts, hrun, hlen, hhead, hlast⟩ :=
        lineLoop_xmajor x1 y1 |x1 - x0| |y1 - y0| _ (if y0 < y1 then 1 else -1) hsx hdy0 hmajor
          hpos |x1 - x0|.toNat |y1 - y0| (|x1 - x0| - |y1 - y0|)
          (by rw [Int.toNat_of_nonneg hdx0]; ring) (by linarith) (by linarith)
      rw [Int.toNat_of_nonneg hdx0, hx0, hy0] at hrun hhead
      refine ⟨pts, ?_, hhead, hlast, ?_, ?_⟩
      · intro fuel hf
        rw [max_eq_left hmajor] at hf
        exact hrun fuel (by omega)
      · rw [max_eq_left hmajor, hlen]; push_cast; rw [Int.toNat_of_nonneg hdx0]
      · rintro ⟨h1, _⟩
        subst h1; simp at hpos
    · have hdx : |x1 - x0| = 0 := by omega
      have hdy : |y1 - y0| = 0 := by omega
      have ex : x0 = x1 := by have := abs_eq_zero.1 hdx; omega
      have ey : y0 = y1 := by have := abs_eq_zero.1 hdy; omega
      subst ex ey
      refine ⟨[⟨x0, y0⟩], ?_, rfl, rfl, by simp, fun _ => rfl⟩
      intro fuel hf
      obtain ⟨f, rfl⟩ : ∃ f, fuel = f + 1 := ⟨fuel - 1, by simp at hf; omega⟩
      exact lineLoop_end x0 y0 _ _ _ _ f _
  · have hlt : |x1 - x0| < |y1 - y0| := lt_of_not_le hmajor
    obtain ⟨pts, hrun, hlen, hhead, hlast⟩ :=
      lineLoop_ymajor x1 y1 |x1 - x0| |y1 - y0| (if x0 < x1 then 1 else -1) _ hsy hdx0
        (le_of_lt hlt) (by omega) |y1 - y0|.toNat |x1 - x0| (|x1 - x0| - |y1 - y0|)
        (by rw [Int.toNat_of_nonneg hdy0]; ring) (by linarith) (by linarith)
    rw [Int.toNat_of_nonneg hdy0, hx0, hy0] at hrun hhead
    refine ⟨pts, ?_, hhead, hlast, ?_, ?_⟩
    · intro fuel hf
      rw [max_eq_right (le_of_lt hlt)] at hf
      exact hrun fuel (by omega)
    · rw [max_eq_right (le_of_lt hlt), hlen]; push_cast; rw [Int.toNat_of_nonneg hdy0]
    · rintro ⟨_, h2⟩
      subst h2; simp at hlt
      have := abs_nonneg (x1 - x0); omega

/-! ## Flood fill -/

namespace Canvas

theorem getPixel_of_inBounds {c : Canvas} {x y : Int} (h : c.inBounds x y = true) :
    c.getPixel x y = c.pixels.getD (c.index x y) Color.sentinel := by
  simp [getPixel, h]

theorem inBounds_congr {c b : Canvas} (hw : c.width = b.width) (hh : c.height = b.height)
    (x y : Int) : c.inBounds x y = b.inBounds x y := by
  simp [inBounds, hw, hh]

/-- Repainting a cell that holds `t` with another colour removes one occurrence of `t`. -/
theorem count_setPixel {c : Canvas} (hwf : c.WF) {x y : Int} (h : c.inBounds x y = true)
    {t n : Color} (ht : c.getPixel x y = t) (hne : t ≠ n) :
    (c.setPixel x y n).pixels.count t + 1 = c.pixels.count t := by
  have hlt := index_lt_length hwf h
  rw [getPixel_of_inBounds h, List.getD_eq_getElem?_getD, List.getElem?_eq_getElem hlt] at ht
  simp only [Option.getD_some] at ht
  have hpos : 0 < c.pixels.count t := by
    rw [List.count_pos_iff]
    rw [← ht]
    exact List.getElem_mem hlt
  have hset : (c.setPixel x y n).pixels = c.pixels.set (c.index x y) n := by
    simp [setPixel, h]
  rw [hset, List.count_set _ _ _ _ hlt]
  have h1 : (c.pixels[c.index x y] == t) = true := by simp [ht]
  have h2 : (n == t) = false := by
    simp only [beq_eq_false_iff_ne, ne_eq]
    exact fun e => hne e.symm
  simp only [h1, h2, if_true, Bool.false_eq_true, if_false]
  omega

theorem Reach.inBounds {b : Canvas} {t : Color} {sx sy x y : Int}
    (h : Reach b t sx sy x y) : b.inBounds x y = true := by
  cases h with
  | seed h1 _ => exact h1
  | step d _ _ h1 _ => exact h1

theorem Reach.color {b : Canvas} {t : Color} {sx sy x y : Int}
    (h : Reach b t sx sy x y) : b.getPixel x y = t := by
  cases h with
  | seed _ h2 => exact h2
  | step d _ _ _ h2 => exact h2

/-- Effect of one neighbour test while the popped cell `p` is being expanded. -/
theorem floodVisit_spec {b : Canvas} {t n : Color} {sx sy : Int} (htn : t ≠ n)
    {c : Canvas} {q : List Point} (hinv : FloodInv b t n sx sy c q) (p : Point)
    (hp : Reach b t sx sy p.x p.y)
    (hclos : ∀ x y, Reach b t sx sy x y → c.getPixel x y = n →
      (⟨x, y⟩ : Point) ∈ q ∨ Closed b t n sx sy c x y ∨ (x = p.x ∧ y = p.y))
    (d : Int × Int) (hd : d ∈ floodOffsets) :
    FloodInv b t n sx sy (floodVisit t n (c, q) ⟨p.x + d.1, p.y + d.2⟩).1
      (floodVisit t n (c, q) ⟨p.x + d.1, p.y + d.2⟩).2 ∧
    (∀ x y, Reach b t sx sy x y →
      (floodVisit t n (c, q) ⟨p.x + d.1, p.y + d.2⟩).1.getPixel x y = n →
      (⟨x, y⟩ : Point) ∈ (floodVisit t n (c, q) ⟨p.x + d.1, p.y + d.2⟩).2 ∨
        Closed b t n sx sy (floodVisit t n (c, q) ⟨p.x + d.1, p.y + d.2⟩).1 x y ∨
        (x = p.x ∧ y = p.y)) ∧
    (∀ x y, c.getPixel x y = n →
      (floodVisit t n (c, q) ⟨p.x + d.1, p.y + d.2⟩).1.getPixel x y = n) ∧
    (Reach b t sx sy (p.x + d.1) (p.y + d.2) →
      (floodVisit t n (c, q) ⟨p.x + d.1, p.y + d.2⟩).1.getPixel (p.x + d.1) (p.y + d.2) = n) ∧
    (floodVisit t n (c, q) ⟨p.x + d.1, p.y + d.2⟩).2.length +
      (floodVisit t n (c, q) ⟨p.x + d.1, p.y + d.2⟩).1.pixels.count t =
        q.length + c.pixels.count t := by
  by_cases hv : c.inBounds (p.x + d.1) (p.y + d.2) = true ∧ c.getPixel (p.x + d.1) (p.y + d.2) = t
  · obtain ⟨hin, hcol⟩ := hv
    have hstate : floodVisit t n (c, q) ⟨p.x + d.1, p.y + d.2⟩ =
        (c.setPixel (p.x + d.1) (p.y + d.2) n, q ++ [⟨p.x + d.1, p.y + d.2⟩]) := by
      simp [floodVisit, hin, hcol]
    rw [hstate]
    simp only
    have hbin : b.inBounds (p.x + d.1) (p.y + d.2) = true := by
      rw [← inBounds_congr hinv.width_eq hinv.height_eq]; exact hin
    have hbcol : b.getPixel (p.x + d.1) (p.y + d.2) = t := by
      rcases hinv.frame (p.x + d.1) (p.y + d.2) with h | ⟨_, h⟩
      · rw [← h]; exact hcol
      · exact absurd (hcol.symm.trans h) htn
    have hreach : Reach b t sx sy (p.x + d.1) (p.y + d.2) := Reach.step d hp hd hbin hbcol
    have hsame : (c.setPixel (p.x + d.1) (p.y + d.2) n).getPixel (p.x + d.1) (p.y + d.2) = n :=
      getPixel_setPixel_same hinv.wf hin n
    have hmono : ∀ x y, c.getPixel x y = n →
        (c.setPixel (p.x + d.1) (p.y + d.2) n).getPixel x y = n := by
      intro x y h
      by_cases he : x = p.x + d.1 ∧ y = p.y + d.2
      · rw [he.1, he.2]; exact hsame
      · rw [getPixel_setPixel_other c n he]; exact h
    refine ⟨⟨by simpa using hinv.width_eq, by simpa using hinv.height_eq,
      setPixel_WF hinv.wf _ _ _, ?_, hmono _ _ hinv.seed, ?_⟩, ?_, hmono, fun _ => hsame, ?_⟩
    · intro x y
      by_cases he : x = p.x + d.1 ∧ y = p.y + d.2
      · right; rw [he.1, he.2]; exact ⟨hreach, hsame⟩
      · rw [getPixel_setPixel_other c n he]; exact hinv.frame x y
    · intro r hr
      rcases List.mem_append.1 hr with h | h
      · exact hinv.queue r h
      · rw [List.mem_singleton] at h; subst h; exact hreach
    · intro x y hr hpaint
      by_cases he : x = p.x + d.1 ∧ y = p.y + d.2
      · left; rw [he.1, he.2]; simp
      · rw [getPixel_setPixel_other c n he] at hpaint
        rcases hclos x y hr hpaint with h | h | h
        · left; exact List.mem_append_left _ h
        · right; left
          intro d' hd' hr'
          exact hmono _ _ (h d' hd' hr')
        · right; right; exact h
    · have := count_setPixel hinv.wf hin hcol htn
      simp only [List.length_append, List.length_singleton]
      omega
  · have hstate : floodVisit t n (c, q) ⟨p.x + d.1, p.y + d.2⟩ = (c, q) := by
      unfold floodVisit
      rw [if_neg]
      simpa using hv
    rw [hstate]
    refine ⟨hinv, hclos, fun _ _ h => h, ?_, rfl⟩
    intro hr
    have hbin := hr.inBounds
    have hbcol := hr.color
    rcases hinv.frame (p.x + d.1) (p.y + d.2) with h | ⟨_, h⟩
    · exfalso
      apply hv
      refine ⟨?_, by rw [h]; exact hbcol⟩
      rw [inBounds_congr hinv.width_eq hinv.height_eq]; exact hbin
    · exact h

/-- Effect of testing the neighbours `ds` of the popped cell `p` in order. -/
theorem floodVisits_spec {b : Canvas} {t n : Color} {sx sy : Int} (htn : t ≠ n) (p : Point)
    (hp : Reach b t sx sy p.x p.y) (ds : List (Int × Int)) :
    ∀ (c : Canvas) (q : List Point), (∀ d ∈ ds, d ∈ floodOffsets) →
      FloodInv b t n sx sy c q →
      (∀ x y, Reach b t sx sy x y → c.getPixel x y = n →
        (⟨x, y⟩ : Point) ∈ q ∨ Closed b t n sx sy c x y ∨ (x = p.x ∧ y = p.y)) →
      FloodInv b t n sx sy
        (ds.foldl (fun st d => floodVisit t n st ⟨p.x + d.1, p.y + d.2⟩) (c, q)).1
        (ds.foldl (fun st d => floodVisit t n st ⟨p.x + d.1, p.y + d.2⟩) (c, q)).2 ∧
      (∀ x y, Reach b t sx sy x y →
        (ds.foldl (fun st d => floodVisit t n st ⟨p.x + d.1, p.y + d.2⟩) (c, q)).1.getPixel x y
          = n →
        (⟨x, y⟩ : Point) ∈
            (ds.foldl (fun st d => floodVisit t n st ⟨p.x + d.1, p.y + d.2⟩) (c, q)).2 ∨
          Closed b t n sx sy
            (ds.foldl (fun st d => floodVisit t n st ⟨p.x + d.1, p.y + d.2⟩) (c, q)).1 x y ∨
          (x = p.x ∧ y = p.y)) ∧
      (∀ x y, c.getPixel x y = n →
        (ds.foldl (fun st d => floodVisit t n st ⟨p.x + d.1, p.y + d.2⟩) (c, q)).1.getPixel x y
          = n) ∧
      (∀ d ∈ ds, Reach b t sx sy (p.x + d.1) (p.y + d.2) →
        (ds.foldl (fun st d => floodVisit t n st ⟨p.x + d.1, p.y + d.2⟩) (c, q)).1.getPixel
          (p.x + d.1) (p.y + d.2) = n) ∧
      (ds.foldl (fun st d => floodVisit t n st ⟨p.x + d.1, p.y + d.2⟩) (c, q)).2.length +
        (ds.foldl (fun st d => floodVisit t n st ⟨p.x + d.1, p.y + d.2⟩)
          (c, q)).1.pixels.count t = q.length + c.pixels.count t := by
  induction ds with
  | nil =>
    intro c q _ hinv hclos
    exact ⟨hinv, hclos, fun _ _ h => h, fun d hd => absurd hd (List.not_mem_nil d), rfl⟩
  | cons d ds ih =>
    intro c q hds hinv hclos
    obtain ⟨hinv1, hclos1, hmono1, hdone1, hmeas1⟩ :=
      floodVisit_spec htn hinv p hp hclos d (hds d (List.mem_cons_self d ds))
    obtain ⟨hinv2, hclos2, hmono2, hdone2, hmeas2⟩ :=
      ih (floodVisit t n (c, q) ⟨p.x + d.1, p.y + d.2⟩).1
        (floodVisit t n (c, q) ⟨p.x + d.1, p.y + d.2⟩).2
        (fun d' hd' => hds d' (List.mem_cons_of_mem d hd')) hinv1 hclos1
    rw [List.foldl_cons]
    refine ⟨hinv2, hclos2, fun x y h => hmono2 x y (hmono1 x y h), ?_, hmeas2.trans hmeas1⟩
    intro d' hd' hr
    rcases List.mem_cons.1 hd' with h | h
    · subst h; exact hmono2 _ _ (hdone1 hr)
    · exact hdone2 d' h hr

/-- The queue loop of `floodFill` ends with the whole region repainted. -/
theorem floodLoop_spec {b : Canvas} {t n : Color} {sx sy : Int} (htn : t ≠ n) (k : Nat) :
    ∀ (c : Canvas) (q : List Point), FloodInv b t n sx sy c q →
      (∀ x y, Reach b t sx sy x y → c.getPixel x y = n →
        (⟨x, y⟩ : Point) ∈ q ∨ Closed b t n sx sy c x y) →
      q.length + c.pixels.count t ≤ k →
      ∃ r : Canvas, (∀ fuel, k < fuel → floodLoop t n fuel c q = some r) ∧
        FloodInv b t n sx sy r [] ∧
        (∀ x y, Reach b t sx sy x y → r.getPixel x y = n) := by
  induction k with
  | zero =>
    intro c q hinv hclos hk
    have hq : q = [] := List.length_eq_zero.1 (by omega)
    subst hq
    refine ⟨c, ?_, hinv, ?_⟩
    · intro fuel hf
      obtain ⟨f, rfl⟩ : ∃ f, fuel = f + 1 := ⟨fuel - 1, by omega⟩
      rfl
    · intro x y hr
      induction hr with
      | seed _ _ => exact hinv.seed
      | step d hr' hd _ _ ih =>
        rcases hclos _ _ hr' ih with h | h
        · exact absurd h (List.not_mem_nil _)
        · exact h d hd (Reach.step d hr' hd ‹_› ‹_›)
  | succ k ih =>
    intro c q hinv hclos hk
    cases q with
    | nil =>
      refine ⟨c, ?_, hinv, ?_⟩
      · intro fuel hf
        obtain ⟨f, rfl⟩ : ∃ f, fuel = f + 1 := ⟨fuel - 1, by omega⟩
        rfl
      · intro x y hr
        induction hr with
        | seed _ _ => exact hinv.seed
        | step d hr' hd _ _ ih =>
          rcases hclos _ _ hr' ih with h | h
          · exact absurd h (List.not_mem_nil _)
          · exact h d hd (Reach.step d hr' hd ‹_› ‹_›)
    | cons p q =>
      have hp : Reach b t sx sy p.x p.y := hinv.queue p (List.mem_cons_self p q)
      have hinv' : FloodInv b t n sx sy c q :=
        { hinv with queue := fun r hr => hinv.queue r (List.mem_cons_of_mem p hr) }
      have hclos' : ∀ x y, Reach b t sx sy x y → c.getPixel x y = n →
          (⟨x, y⟩ : Point) ∈ q ∨ Closed b t n sx sy c x y ∨ (x = p.x ∧ y = p.y) := by
        intro x y hr hpaint
        rcases hclos x y hr hpaint with h | h
        · rcases List.mem_cons.1 h with h1 | h1
          · right; right
            rw [← h1]; exact ⟨rfl, rfl⟩
          · left; exact h1
        · right; left; exact h
      obtain ⟨hinv2, hclos2, _, hdone2, hmeas2⟩ :=
        floodVisits_spec htn p hp floodOffsets c q (fun _ h => h) hinv' hclos'
      have hclos3 : ∀ x y, Reach b t sx sy x y →
          (floodExpand t n c q p).1.getPixel x y = n →
          (⟨x, y⟩ : Point) ∈ (floodExpand t n c q p).2 ∨
            Closed b t n sx sy (floodExpand t n c q p).1 x y := by
        intro x y hr hpaint
        rcases hclos2 x y hr hpaint with h | h | h
        · left; exact h
        · right; exact h
        · right
          rw [h.1, h.2]
          intro d hd hr'
          exact hdone2 d hd hr'
      have hmeas : (floodExpand t n c q p).2.length + (floodExpand t n c q p).1.pixels.count t
          ≤ k := by
        have : (floodExpand t n c q p).2.length + (floodExpand t n c q p).1.pixels.count t =
            q.length + c.pixels.count t := hmeas2
        simp only [List.length_cons] at hk
        omega
      obtain ⟨r, hrun, hrinv, hrall⟩ := ih _ _ hinv2 hclos3 hmeas
      refine ⟨r, ?_, hrinv, hrall⟩
      intro fuel hf
      obtain ⟨f, rfl⟩ : ∃ f, fuel = f + 1 := ⟨fuel - 1, by omega⟩
      rw [floodLoop]
      exact hrun f (by omega)

/-- Past the two guards, `floodFill` returns (for every budget above the storage length) one
buffer in which exactly the region of the seed is repainted. -/
theorem floodFill_core (b : Canvas) (sx sy : Int) (n : Color) (hwf : b.WF)
    (hin : b.inBounds sx sy = true) (hne : b.getPixel sx sy ≠ n) :
    ∃ r : Canvas, (∀ fuel, b.pixels.length < fuel → floodFill fuel b sx sy n = some r) ∧
      FloodInv b (b.getPixel sx sy) n sx sy r [] ∧
      (∀ x y, Reach b (b.getPixel sx sy) sx sy x y → r.getPixel x y = n) := by
  have hseed : Reach b (b.getPixel sx sy) sx sy sx sy := Reach.seed hin rfl
  have hsame : (b.setPixel sx sy n).getPixel sx sy = n := getPixel_setPixel_same hwf hin n
  have hinv : FloodInv b (b.getPixel sx sy) n sx sy (b.setPixel sx sy n) [⟨sx, sy⟩] := by
    refine ⟨by simp, by simp, setPixel_WF hwf _ _ _, ?_, hsame, ?_⟩
    · intro x y
      by_cases he : x = sx ∧ y = sy
      · right; rw [he.1, he.2]; exact ⟨hseed, hsame⟩
      · left; exact getPixel_setPixel_other b n he
    · intro p hp
      rw [List.mem_singleton] at hp
      subst hp
      exact hseed
  have hclos : ∀ x y, Reach b (b.getPixel sx sy) sx sy x y →
      (b.setPixel sx sy n).getPixel x y = n →
      (⟨x, y⟩ : Point) ∈ [(⟨sx, sy⟩ : Point)] ∨
        Closed b (b.getPixel sx sy) n sx sy (b.setPixel sx sy n) x y := by
    intro x y hr hpaint
    by_cases he : x = sx ∧ y = sy
    · left; rw [he.1, he.2]; simp
    · exfalso
      rw [getPixel_setPixel_other b n he, hr.color] at hpaint
      exact hne hpaint
  have hmeas : [(⟨sx, sy⟩ : Point)].length +
      (b.setPixel sx sy n).pixels.count (b.getPixel sx sy) ≤ b.pixels.length := by
    have h1 := count_setPixel hwf hin rfl hne
    have h2 := List.count_le_length (b.getPixel sx sy) b.pixels
    simp only [List.length_singleton]
    omega
  obtain ⟨r, hrun, hrinv, hrall⟩ := floodLoop_spec hne b.pixels.length _ _ hinv hclos hmeas
  refine ⟨r, ?_, hrinv, hrall⟩
  intro fuel hf
  simp only [floodFill, hin, Bool.not_true, Bool.false_eq_true, if_false, if_neg hne]
  exact hrun fuel hf

/-- C7: on a buffer satisfying the length invariant, with an in-bounds seed whose colour
`target` differs from `newColor`, `floodFill` returns a buffer of the same width and height
in which every cell of the 4-connected `target` region of the seed is `newColor` and every
other cell keeps its colour. -/
theorem floodFill_region (b : Canvas) (sx sy : Int) (newColor : Color) (hwf : b.WF)
    (hin : b.inBounds sx sy = true) (hne : b.getPixel sx sy ≠ newColor) :
    ∃ r : Canvas,
      (∀ fuel, b.pixels.length < fuel → floodFill fuel b sx sy newColor = some r) ∧
      r.width = b.width ∧ r.height = b.height ∧
      (∀ x y, Reach b (b.getPixel sx sy) sx sy x y → r.getPixel x y = newColor) ∧
      (∀ x y, ¬ Reach b (b.getPixel sx sy) sx sy x y → r.getPixel x y = b.getPixel x y) := by
  obtain ⟨r, hrun, hrinv, hrall⟩ := floodFill_core b sx sy newColor hwf hin hne
  refine ⟨r, hrun, hrinv.width_eq, hrinv.height_eq, hrall, ?_⟩
  intro x y hnr
  rcases hrinv.frame x y with h | ⟨h, _⟩
  · exact h
  · exact absurd h hnr

theorem floodFill_region_witness :
    (⟨2, 2, [Color.white, ⟨9, 9, 9, 9⟩, ⟨9, 9, 9, 9⟩, Color.white]⟩ : Canvas).WF ∧
    (⟨2, 2, [Color.white, ⟨9, 9, 9, 9⟩, ⟨9, 9, 9, 9⟩, Color.white]⟩ : Canvas).inBounds 0 0
      = true ∧
    floodFill 5 ⟨2, 2, [Color.white, ⟨9, 9, 9, 9⟩, ⟨9, 9, 9, 9⟩, Color.white]⟩ 0 0 ⟨1, 2, 3, 4⟩
      = some ⟨2, 2, [⟨1, 2, 3, 4⟩, ⟨9, 9, 9, 9⟩, ⟨9, 9, 9, 9⟩, Color.white]⟩ ∧
    ∃ r : Canvas,
      (∀ fuel, 4 < fuel →
        floodFill fuel ⟨2, 2, [Color.white, ⟨9, 9, 9, 9⟩, ⟨9, 9, 9, 9⟩, Color.white]⟩ 0 0
          ⟨1, 2, 3, 4⟩ = some r) ∧
      r.width = 2 ∧ r.height = 2 ∧
      (∀ x y, Reach ⟨2, 2, [Color.white, ⟨9, 9, 9, 9⟩, ⟨9, 9, 9, 9⟩, Color.white]⟩
          Color.white 0 0 x y → r.getPixel x y = ⟨1, 2, 3, 4⟩) ∧
      (∀ x y, ¬ Reach ⟨2, 2, [Color.white, ⟨9, 9, 9, 9⟩, ⟨9, 9, 9, 9⟩, Color.white]⟩
          Color.white 0 0 x y →
        r.getPixel x y =
          (⟨2, 2, [Color.white, ⟨9, 9, 9, 9⟩, ⟨9, 9, 9, 9⟩, Color.white]⟩ : Canvas).getPixel
            x y) :=
  ⟨by decide, by decide, by decide,
    floodFill_region ⟨2, 2, [Color.white, ⟨9, 9, 9, 9⟩, ⟨9, 9, 9, 9⟩, Color.white]⟩ 0 0
      ⟨1, 2, 3, 4⟩ (by decide) (by decide) (by decide)⟩

/-- In a buffer whose cells all hold `u`, every cell is in the region of every seed. -/
theorem reach_of_uniform (b : Canvas) (u : Color)
    (huni : ∀ x y, b.inBounds x y = true → b.getPixel x y = u) (sx sy : Int)
    (hin : b.inBounds sx sy = true) (x y : Int) (hxy : b.inBounds x y = true) :
    Reach b u sx sy x y := by
  have hseed : Reach b u sx sy sx sy := Reach.seed hin (huni _ _ hin)
  rw [inBounds_iff] at hin hxy
  have hright : ∀ k : Nat, sx + k < b.width → Reach b u sx sy (sx + k) sy := by
    intro k
    induction k with
    | zero => intro _; simpa using hseed
    | succ k ih =>
      intro hk
      push_cast at hk
      have hb : b.inBounds (sx + k + 1) sy = true := (inBounds_iff _ _ _).2 (by omega)
      have := Reach.step (1, 0) (ih (by omega)) (by simp [floodOffsets])
        (by simpa using hb) (by simpa using huni _ _ hb)
      simpa [add_assoc] using this
  have hleft : ∀ k : Nat, 0 ≤ sx - k → Reach b u sx sy (sx - k) sy := by
    intro k
    induction k with
    | zero => intro _; simpa using hseed
    | succ k ih =>
      intro hk
      push_cast at hk
      have hb : b.inBounds (sx - k + -1) sy = true := (inBounds_iff _ _ _).2 (by omega)
      have := Reach.step (-1, 0) (ih (by omega)) (by simp [floodOffsets])
        (by simpa using hb) (by simpa using huni _ _ hb)
      have e : sx - ((k + 1 : Nat) : Int) = sx - k + -1 := by push_cast; ring
      rw [e]
      simpa using this
  have hrow : Reach b u sx sy x sy := by
    rcases le_total sx x with h | h
    · have := hright (x - sx).toNat (by omega)
      rwa [Int.toNat_of_nonneg (by omega), add_sub_cancel] at this
    · have := hleft (sx - x).toNat (by omega)
      rwa [Int.toNat_of_nonneg (by omega), sub_sub_cancel] at this
  have hup : ∀ k : Nat, sy + k < b.height → Reach b u sx sy x (sy + k) := by
    intro k
    induction k with
    | zero => intro _; simpa using hrow
    | succ k ih =>
      intro hk
      push_cast at hk
      have hb : b.inBounds x (sy + k + 1) = true := (inBounds_iff _ _ _).2 (by omega)
      have := Reach.step (0, 1) (ih (by omega)) (by simp [floodOffsets])
        (by simpa using hb) (by simpa using huni _ _ hb)
      simpa [add_assoc] using this
  have hdown : ∀ k : Nat, 0 ≤ sy - k → Reach b u sx sy x (sy - k) := by
    intro k
    induction k with
    | zero => intro _; simpa using hrow
    | succ k ih =>
      intro hk
      push_cast at hk
      have hb : b.inBounds x (sy - k + -1) = true := (inBounds_iff _ _ _).2 (by omega)
      have := Reach.step (0, -1) (ih (by omega)) (by simp [floodOffsets])
        (by simpa using hb) (by simpa using huni _ _ hb)
      have e : sy - ((k + 1 : Nat) : Int) = sy - k + -1 := by push_cast; ring
      rw [e]
      simpa using this
  rcases le_total sy y with h | h
  · have := hup (y - sy).toNat (by omega)
    rwa [Int.toNat_of_nonneg (by omega), add_sub_cancel] at this
  · have := hdown (sy - y).toNat (by omega)
    rwa [Int.toNat_of_nonneg (by omega), sub_sub_cancel] at this

/-- C8: on a `W x H` buffer (length invariant; `W, H ≥ 1` follows from the in-bounds seed)
whose cells all hold one colour `u`, `floodFill` from any in-bounds seed with any `newColor`
returns a buffer of the same size in which every one of the `W * H` cells is `newColor`. -/
theorem floodFill_uniform (b : Canvas) (u : Color) (sx sy : Int) (newColor : Color)
    (hwf : b.WF)
    (huni : ∀ x y, b.inBounds x y = true → b.getPixel x y = u)
    (hin : b.inBounds sx sy = true) :
    ∃ r : Canvas,
      (∀ fuel, b.pixels.length < fuel → floodFill fuel b sx sy newColor = some r) ∧
      r.width = b.width ∧ r.height = b.height ∧ r.pixels.length = b.pixels.length ∧
      ∀ x y, 0 ≤ x → x < b.width → 0 ≤ y → y < b.height → r.getPixel x y = newColor := by
  by_cases hne : b.getPixel sx sy = newColor
  · refine ⟨b, ?_, rfl, rfl, rfl, ?_⟩
    · intro fuel _
      simp [floodFill, hin, hne]
    · intro x y hx0 hxw hy0 hyh
      have hb : b.inBounds x y = true := (inBounds_iff _ _ _).2 ⟨hx0, hxw, hy0, hyh⟩
      rw [huni x y hb, ← huni sx sy hin, hne]
  · obtain ⟨r, hrun, hrinv, hrall⟩ := floodFill_core b sx sy newColor hwf hin hne
    have hlen : r.pixels.length = b.pixels.length := by
      have h1 := hrinv.wf
      unfold WF at h1 hwf
      rw [hrinv.width_eq, hrinv.height_eq, ← hwf] at h1
      exact_mod_cast h1
    refine ⟨r, hrun, hrinv.width_eq, hrinv.height_eq, hlen, ?_⟩
    intro x y hx0 hxw hy0 hyh
    have hb : b.inBounds x y = true := (inBounds_iff _ _ _).2 ⟨hx0, hxw, hy0, hyh⟩
    apply hrall
    rw [huni sx sy hin]
    exact reach_of_uniform b u huni sx sy hin x y hb

theorem floodFill_uniform_witness :
    (⟨2, 1, [Color.white, Color.white]⟩ : Canvas).WF ∧
    ∃ r : Canvas,
      (∀ fuel, 2 < fuel →
        floodFill fuel ⟨2, 1, [Color.white, Color.white]⟩ 1 0 ⟨1, 2, 3, 4⟩ = some r) ∧
      r.width = 2 ∧ r.height = 1 ∧ r.pixels.length = 2 ∧
      ∀ x y, 0 ≤ x → x < (2 : Int) → 0 ≤ y → y < (1 : Int) → r.getPixel x y = ⟨1, 2, 3, 4⟩ :=
  ⟨by decide,
    floodFill_uniform ⟨2, 1, [Color.white, Color.white]⟩ Color.white 1 0 ⟨1, 2, 3, 4⟩
      (by decide)
      (by
        intro x y h
        rw [inBounds_iff] at h
        obtain ⟨h1, h2, h3, h4⟩ := h
        simp only at h2 h4
        have hy : y = 0 := by omega
        have hx : x = 0 ∨ x = 1 := by omega
        subst hy
        rcases hx with hx | hx <;> subst hx <;> decide)
      (by decide)⟩

/-- C9: `floodFill` returns the buffer unchanged, whatever the budget, when the seed is out
of bounds and when the seed is in bounds and already holds `newColor`. -/
theorem floodFill_guards (fuel : Nat) (c : Canvas) (x y : Int) (newColor : Color) :
    (c.inBounds x y = false → floodFill fuel c x y newColor = some c) ∧
    (c.inBounds x y = true → c.getPixel x y = newColor →
      floodFill fuel c x y newColor = some c) := by
  constructor
  · intro h
    simp [floodFill, h]
  · intro h1 h2
    simp [floodFill, h1, h2]

end Canvas

/-! ## Axis-aligned lines -/

theorem Point.eq_mk_iff (p : Point) (a b : Int) : p = ⟨a, b⟩ ↔ p.x = a ∧ p.y = b := by
  cases p; simp

theorem rectOutline_eq (x0 y0 x1 y1 : Int) :
    rectOutline x0 y0 x1 y1 =
      (List.range (x1 + 1 - x0).toNat).flatMap
          (fun k : Nat => [(⟨x0 + k, y0⟩ : Point), ⟨x0 + k, y1⟩]) ++
        (List.range (y1 - (y0 + 1)).toNat).flatMap
          (fun k : Nat => [(⟨x0, y0 + 1 + k⟩ : Point), ⟨x1, y0 + 1 + k⟩]) := rfl

theorem flatMap_range_succ (f : Nat → List Point) (n : Nat) :
    (List.range (n + 1)).flatMap f = f 0 ++ (List.range n).flatMap (fun k => f (k + 1)) := by
  rw [List.range_succ_eq_map, List.flatMap_cons, List.flatMap_map]

/-- The first loop of `rectPoints` returns when `x1` is below the largest `int`: from the
counter value `x` it pushes the cells of the `n = x1 + 1 - x` remaining columns. -/
theorem rectRows_run (x1 y0 y1 : Int) (hx1 : x1 < 2147483647) :
    ∀ (n fuel : Nat) (x : Int) (pts : List Point), -2147483648 ≤ x →
      (x1 + 1 - x).toNat = n → n < fuel →
      rectRows x1 y0 y1 fuel x pts =
        some (pts ++ (List.range n).flatMap
          (fun k : Nat => [(⟨x + k, y0⟩ : Point), ⟨x + k, y1⟩])) := by
  intro n
  induction n with
  | zero =>
    intro fuel x pts _ hn hf
    obtain ⟨f, rfl⟩ : ∃ f, fuel = f + 1 := ⟨fuel - 1, by omega⟩
    rw [rectRows, if_neg (by omega)]
    simp
  | succ n ih =>
    intro fuel x pts hx hn hf
    obtain ⟨f, rfl⟩ : ∃ f, fuel = f + 1 := ⟨fuel - 1, by omega⟩
    rw [rectRows, if_pos (by omega), wrap32_eq (x + 1) (by omega) (by omega),
      ih f (x + 1) _ (by omega) (by omega) (by omega), flatMap_range_succ]
    simp only [List.append_assoc, Nat.cast_add, Nat.cast_one, Nat.cast_zero, add_zero]
    congr 4
    funext k
    rw [show x + 1 + (k : Int) = x + ((k : Int) + 1) by ring]

/-- The second loop of `rectPoints` returns: from the counter value `y` it pushes the cells
of the `n = y1 - y` remaining rows. -/
theorem rectCols_run (x0 x1 y1 : Int) (hy1 : y1 ≤ 2147483647) :
    ∀ (n fuel : Nat) (y : Int) (pts : List Point), -2147483648 ≤ y →
      (y1 - y).toNat = n → n < fuel →
      rectCols x0 x1 y1 fuel y pts =
        some (pts ++ (List.range n).flatMap
          (fun k : Nat => [(⟨x0, y + k⟩ : Point), ⟨x1, y + k⟩])) := by
  intro n
  induction n with
  | zero =>
    intro fuel y pts _ hn hf
    obtain ⟨f, rfl⟩ : ∃ f, fuel = f + 1 := ⟨fuel - 1, by omega⟩
    rw [rectCols, if_neg (by omega)]
    simp
  | succ n ih =>
    intro fuel y pts hy hn hf
    obtain ⟨f, rfl⟩ : ∃ f, fuel = f + 1 := ⟨fuel - 1, by omega⟩
    rw [rectCols, if_pos (by omega), wrap32_eq (y + 1) (by omega) (by omega),
      ih f (y + 1) _ (by omega) (by omega) (by omega), flatMap_range_succ]
    simp only [List.append_assoc, Nat.cast_add, Nat.cast_one, Nat.cast_zero, add_zero]
    congr 4
    funext k
    rw [show y + 1 + (k : Int) = y + ((k : Int) + 1) by ring]

/-- With `x1` the largest `int` the condition `x <= x1` of the first loop holds for every
`int` value of the counter, and the loop does not return for any budget. -/
theorem rectRows_diverges (y0 y1 : Int) :
    ∀ (fuel : Nat) (x : Int) (pts : List Point), x ≤ 2147483647 →
      rectRows 2147483647 y0 y1 fuel x pts = none := by
  intro fuel
  induction fuel with
  | zero => intro x pts _; rfl
  | succ f ih =>
    intro x pts hx
    rw [rectRows, if_pos hx]
    exact ih _ _ (wrap32_range _).2

/-- The swaps of `rectPoints` put the smaller coordinate first. -/
theorem rectPoints_eq (fuel : Nat) (x0 y0 x1 y1 : Int) :
    rectPoints fuel x0 y0 x1 y1 =
      (rectRows (max x0 x1) (min y0 y1) (max y0 y1) fuel (min x0 x1) []).bind
        (fun pts => rectCols (min x0 x1) (max x0 x1) (max y0 y1) fuel
          (wrap32 (min y0 y1 + 1)) pts) := by
  have hxa : (if x0 > x1 then x1 else x0) = min x0 x1 := by
    split <;> [rw [min_eq_right (by omega)]; rw [min_eq_left (by omega)]]
  have hxb : (if x0 > x1 then x0 else x1) = max x0 x1 := by
    split <;> [rw [max_eq_left (by omega)]; rw [max_eq_right (by omega)]]
  have hya : (if y0 > y1 then y1 else y0) = min y0 y1 := by
    split <;> [rw [min_eq_right (by omega)]; rw [min_eq_left (by omega)]]
  have hyb : (if y0 > y1 then y0 else y1) = max y0 y1 := by
    split <;> [rw [max_eq_left (by omega)]; rw [max_eq_right (by omega)]]
  simp only [rectPoints, hxa, hxb, hya, hyb]

theorem rectFits_swap_x {x0 y0 x1 y1 : Int} (h : RectFits x0 y0 x1 y1) :
    RectFits x1 y0 x0 y1 := by
  obtain ⟨h1, h2, h3, h4, h5, h6, h7, h8, h9⟩ := h
  exact ⟨h3, h4, h1, h2, h5, h6, h7, h8, h9⟩

theorem rectFits_swap_y {x0 y0 x1 y1 : Int} (h : RectFits x0 y0 x1 y1) :
    RectFits x0 y1 x1 y0 := by
  obtain ⟨h1, h2, h3, h4, h5, h6, h7, h8, h9⟩ := h
  exact ⟨h1, h2, h3, h4, h7, h8, h5, h6, by rw [min_comm]; exact h9⟩

/-- For corners that keep the loop counters in the range of `int`, `rectPoints` returns the
outline of the normalised rectangle for every budget above `|x1 - x0| + |y1 - y0| + 1`. -/
theorem rectPoints_run (x0 y0 x1 y1 : Int) (hfit : RectFits x0 y0 x1 y1) (fuel : Nat)
    (hf : |x1 - x0| + |y1 - y0| + 1 < (fuel : Int)) :
    rectPoints fuel x0 y0 x1 y1 =
      some (rectOutline (min x0 x1) (min y0 y1) (max x0 x1) (max y0 y1)) := by
  obtain ⟨h1, h2, h3, h4, h5, h6, h7, h8, h9⟩ := hfit
  have hax : |x1 - x0| = max x0 x1 - min x0 x1 := by
    rcases le_total x0 x1 with h | h
    · rw [min_eq_left h, max_eq_right h, abs_of_nonneg (by omega)]
    · rw [min_eq_right h, max_eq_left h, abs_of_nonpos (by omega)]; ring
  have hay : |y1 - y0| = max y0 y1 - min y0 y1 := by
    rcases le_total y0 y1 with h | h
    · rw [min_eq_left h, max_eq_right h, abs_of_nonneg (by omega)]
    · rw [min_eq_right h, max_eq_left h, abs_of_nonpos (by omega)]; ring
  have hxlo : -2147483648 ≤ min x0 x1 := le_min h1 h3
  have hxhi : max x0 x1 < 2147483647 := max_lt h2 h4
  have hylo : -2147483648 ≤ min y0 y1 := le_min h5 h7
  have hyhi : max y0 y1 ≤ 2147483647 := max_le h6 h8
  have hxle : min x0 x1 ≤ max x0 x1 := le_trans (min_le_left _ _) (le_max_left _ _)
  have hyle : min y0 y1 ≤ max y0 y1 := le_trans (min_le_left _ _) (le_max_left _ _)
  rw [rectPoints_eq,
    rectRows_run (max x0 x1) (min y0 y1) (max y0 y1) hxhi _ fuel (min x0 x1) [] hxlo rfl
      (by omega),
    Option.some_bind, wrap32_eq (min y0 y1 + 1) (by omega) (by omega),
    rectCols_run (min x0 x1) (max x0 x1) (max y0 y1) hyhi _ fuel (min y0 y1 + 1) _
      (by omega) rfl (by omega)]
  rw [rectOutline_eq, List.nil_append]

/-- When `x0` or `x1` is the largest `int`, `rectPoints` does not return for any budget. -/
theorem rectPoints_diverges (x0 y0 x1 y1 : Int) (h0 : x0 ≤ 2147483647) (h1 : x1 ≤ 2147483647)
    (h : x0 = 2147483647 ∨ x1 = 2147483647) (fuel : Nat) :
    rectPoints fuel x0 y0 x1 y1 = none := by
  have hmax : max x0 x1 = 2147483647 := by
    rcases h with h | h
    · rw [h, max_eq_left (by omega)]
    · rw [h, max_eq_right (by omega)]
  rw [rectPoints_eq, hmax, rectRows_diverges _ _ fuel _ _ (by rw [← hmax]; exact min_le_of_left_le (le_max_left _ _))]
  rfl

/-- Membership in the outline sequence, for normalised corners. -/
theorem mem_rectOutline (x0 y0 x1 y1 : Int) (p : Point) :
    p ∈ rectOutline x0 y0 x1 y1 ↔
      (x0 ≤ p.x ∧ p.x ≤ x1 ∧ (p.y = y0 ∨ p.y = y1)) ∨
      (y0 < p.y ∧ p.y < y1 ∧ (p.x = x0 ∨ p.x = x1)) := by
  rw [rectOutline_eq]
  simp only [List.mem_append, List.mem_flatMap, List.mem_range, List.mem_cons,
    List.mem_singleton, List.not_mem_nil, or_false, Point.eq_mk_iff]
  constructor
  · rintro (⟨k, hk, h⟩ | ⟨k, hk, h⟩)
    · left
      rcases h with ⟨h1, h2⟩ | ⟨h1, h2⟩
      · exact ⟨by omega, by omega, Or.inl h2⟩
      · exact ⟨by omega, by omega, Or.inr h2⟩
    · right
      rcases h with ⟨h1, h2⟩ | ⟨h1, h2⟩
      · exact ⟨by omega, by omega, Or.inl h1⟩
      · exact ⟨by omega, by omega, Or.inr h1⟩
  · rintro (⟨h1, h2, h3⟩ | ⟨h1, h2, h3⟩)
    · left
      refine ⟨(p.x - x0).toNat, by omega, ?_⟩
      rcases h3 with h3 | h3
      · exact Or.inl ⟨by omega, h3⟩
      · exact Or.inr ⟨by omega, h3⟩
    · right
      refine ⟨(p.y - (y0 + 1)).toNat, by omega, ?_⟩
      rcases h3 with h3 | h3
      · exact Or.inl ⟨h3, by omega⟩
      · exact Or.inr ⟨h3, by omega⟩

/-- The outline of the normalised rectangle consists of the cells on its perimeter. -/
theorem mem_rectOutline_perimeter (x0 y0 x1 y1 : Int) (p : Point) :
    p ∈ rectOutline (min x0 x1) (min y0 y1) (max x0 x1) (max y0 y1) ↔
      (min x0 x1 ≤ p.x ∧ p.x ≤ max x0 x1 ∧ min y0 y1 ≤ p.y ∧ p.y ≤ max y0 y1 ∧
        (p.x = min x0 x1 ∨ p.x = max x0 x1 ∨ p.y = min y0 y1 ∨ p.y = max y0 y1)) := by
  rw [mem_rectOutline]
  have hx : min x0 x1 ≤ max x0 x1 := le_trans (min_le_left _ _) (le_max_left _ _)
  have hy : min y0 y1 ≤ max y0 y1 := le_trans (min_le_left _ _) (le_max_left _ _)
  constructor
  · rintro (⟨h1, h2, h3 | h3⟩ | ⟨h1, h2, h3 | h3⟩)
    · exact ⟨h1, h2, by omega, by omega, Or.inr (Or.inr (Or.inl h3))⟩
    · exact ⟨h1, h2, by omega, by omega, Or.inr (Or.inr (Or.inr h3))⟩
    · exact ⟨by omega, by omega, by omega, by omega, Or.inl h3⟩
    · exact ⟨by omega, by omega, by omega, by omega, Or.inr (Or.inl h3)⟩
  · rintro ⟨h1, h2, h3, h4, h5⟩
    by_cases hy0 : p.y = min y0 y1
    · exact Or.inl ⟨h1, h2, Or.inl hy0⟩
    · by_cases hy1 : p.y = max y0 y1
      · exact Or.inl ⟨h1, h2, Or.inr hy1⟩
      · right
        refine ⟨by omega, by omega, ?_⟩
        rcases h5 with h | h | h | h
        · exact Or.inl h
        · exact Or.inr h
        · exact absurd h hy0
        · exact absurd h hy1

/-- C12 fails when a corner has the largest `int` as its `x`: for the corners
`(2147483646, 0)` and `(2147483647, 0)` the condition `x <= x1` of the first loop holds for
every `int`, the counter wraps, and `rectPoints` returns no sequence for any budget. -/
theorem rectPoints_perimeter_overflow_example :
    (∀ fuel : Nat, rectPoints fuel 2147483646 0 2147483647 0 = none) ∧
    ¬ ∃ (fuel : Nat) (pts : List Point), rectPoints fuel 2147483646 0 2147483647 0 = some pts := by
  have h : ∀ fuel : Nat, rectPoints fuel 2147483646 0 2147483647 0 = none :=
    rectPoints_diverges 2147483646 0 2147483647 0 (by decide) (by decide) (Or.inr rfl)
  refine ⟨h, ?_⟩
  rintro ⟨fuel, pts, hp⟩
  rw [h fuel] at hp
  exact Option.noConfusion hp

/-- C12 (amended): for two opposite corners whose coordinates keep the loop counters in the
range of `int` (`RectFits`), given in any order, `rectPoints` returns a sequence; a point is
in it exactly when it lies on the perimeter of the normalised rectangle; the sequence is the
same for the four ways of naming the rectangle, and it is never empty. -/
theorem rectPoints_perimeter (x0 y0 x1 y1 : Int) (hfit : RectFits x0 y0 x1 y1) :
    ∃ pts : List Point,
      (∀ fuel : Nat, |x1 - x0| + |y1 - y0| + 1 < (fuel : Int) →
        rectPoints fuel x0 y0 x1 y1 = some pts ∧
        rectPoints fuel x1 y0 x0 y1 = some pts ∧
        rectPoints fuel x0 y1 x1 y0 = some pts ∧
        rectPoints fuel x1 y1 x0 y0 = some pts) ∧
      (∀ p : Point, p ∈ pts ↔
        (min x0 x1 ≤ p.x ∧ p.x ≤ max x0 x1 ∧ min y0 y1 ≤ p.y ∧ p.y ≤ max y0 y1 ∧
          (p.x = min x0 x1 ∨ p.x = max x0 x1 ∨ p.y = min y0 y1 ∨ p.y = max y0 y1))) ∧
      pts ≠ [] := by
  refine ⟨rectOutline (min x0 x1) (min y0 y1) (max x0 x1) (max y0 y1), ?_,
    mem_rectOutline_perimeter x0 y0 x1 y1, ?_⟩
  · intro fuel hf
    have hxs : |x0 - x1| = |x1 - x0| := abs_sub_comm _ _
    have hys : |y0 - y1| = |y1 - y0| := abs_sub_comm _ _
    refine ⟨rectPoints_run x0 y0 x1 y1 hfit fuel hf, ?_, ?_, ?_⟩
    · rw [rectPoints_run x1 y0 x0 y1 (rectFits_swap_x hfit) fuel (by rw [hxs]; exact hf),
        min_comm x1 x0, max_comm x1 x0]
    · rw [rectPoints_run x0 y1 x1 y0 (rectFits_swap_y hfit) fuel (by rw [hys]; exact hf),
        min_comm y1 y0, max_comm y1 y0]
    · rw [rectPoints_run x1 y1 x0 y0 (rectFits_swap_x (rectFits_swap_y hfit)) fuel
          (by rw [hxs, hys]; exact hf),
        min_comm x1 x0, max_comm x1 x0, min_comm y1 y0, max_comm y1 y0]
  · intro h
    have hmem : (⟨min x0 x1, min y0 y1⟩ : Point) ∈
        rectOutline (min x0 x1) (min y0 y1) (max x0 x1) (max y0 y1) := by
      rw [mem_rectOutline]
      left
      exact ⟨le_refl _, le_trans (min_le_left _ _) (le_max_left _ _), Or.inl rfl⟩
    rw [h] at hmem
    exact absurd hmem (List.not_mem_nil _)

theorem rectPoints_perimeter_witness :
    RectFits 5 2 3 2 ∧
    ∃ pts : List Point,
      (∀ fuel : Nat, |(3 : Int) - 5| + |(2 : Int) - 2| + 1 < (fuel : Int) →
        rectPoints fuel 5 2 3 2 = some pts ∧
        rectPoints fuel 3 2 5 2 = some pts ∧
        rectPoints fuel 5 2 3 2 = some pts ∧
        rectPoints fuel 3 2 5 2 = some pts) ∧
      (∀ p : Point, p ∈ pts ↔
        (min (5 : Int) 3 ≤ p.x ∧ p.x ≤ max (5 : Int) 3 ∧ min (2 : Int) 2 ≤ p.y ∧
          p.y ≤ max (2 : Int) 2 ∧
          (p.x = min (5 : Int) 3 ∨ p.x = max (5 : Int) 3 ∨ p.y = min (2 : Int) 2 ∨
            p.y = max (2 : Int) 2))) ∧
      pts ≠ [] :=
  ⟨by decide, rectPoints_perimeter 5 2 3 2 (by decide)⟩

/-- A loop pushing two points per iteration emits twice as many points as iterations. -/
theorem length_flatMap_pair (a b : Nat → Point) (l : List Nat) :
    (l.flatMap (fun k => [a k, b k])).length = 2 * l.length := by
  induction l with
  | nil => simp
  | cons k l ih => simp [List.flatMap_cons, ih]; omega

/-- Number of points of the outline sequence. -/
theorem length_rectOutline (x0 y0 x1 y1 : Int) :
    (rectOutline x0 y0 x1 y1).length =
      2 * (x1 + 1 - x0).toNat + 2 * (y1 - (y0 + 1)).toNat := by
  rw [rectOutline_eq, List.length_append, length_flatMap_pair, length_flatMap_pair,
    List.length_range, List.length_range]

/-- No point occurs twice in the outline sequence when the corners differ in both
coordinates. -/
theorem nodup_rectOutline (x0 y0 x1 y1 : Int) (hx : x0 < x1) (hy : y0 < y1) :
    (rectOutline x0 y0 x1 y1).Nodup := by
  rw [rectOutline_eq]
  apply List.Nodup.append
  · rw [List.nodup_flatMap]
    constructor
    · intro k _
      simp only [List.nodup_cons, List.mem_singleton, List.not_mem_nil, not_false_eq_true,
        List.nodup_nil, and_true, Point.eq_mk_iff]
      omega
    · apply (List.pairwise_lt_range _).imp
      intro i j hij
      simp only [Function.onFun, List.disjoint_left, List.mem_cons, List.mem_singleton,
        List.not_mem_nil, or_false]
      intro p hp hq
      rcases hp with hp | hp <;> rcases hq with hq | hq <;> rw [hp] at hq <;>
        simp only [Point.mk.injEq] at hq <;> omega
  · rw [List.nodup_flatMap]
    constructor
    · intro k _
      simp only [List.nodup_cons, List.mem_singleton, List.not_mem_nil, not_false_eq_true,
        List.nodup_nil, and_true, Point.eq_mk_iff]
      omega
    · apply (List.pairwise_lt_range _).imp
      intro i j hij
      simp only [Function.onFun, List.disjoint_left, List.mem_cons, List.mem_singleton,
        List.not_mem_nil, or_false]
      intro p hp hq
      rcases hp with hp | hp <;> rcases hq with hq | hq <;> rw [hp] at hq <;>
        simp only [Point.mk.injEq] at hq <;> omega
  · rw [List.disjoint_left]
    intro p hp hq
    simp only [List.mem_flatMap, List.mem_range, List.mem_cons, List.mem_singleton,
      List.not_mem_nil, or_false, Point.eq_mk_iff] at hp hq
    obtain ⟨i, hi, hp⟩ := hp
    obtain ⟨j, hj, hq⟩ := hq
    rcases hp with hp | hp <;> rcases hq with hq | hq <;> omega

/-- C13 fails when a corner has the largest `int` as its `x`: for the non-degenerate corners
`(2147483646, 0)` and `(2147483647, 1)` the first loop of `rectPoints` cannot end, and no
sequence of `2 * (1 + 1) = 4` points is returned, for any budget. -/
theorem rectPoints_nondegenerate_overflow_example :
    (2147483646 : Int) ≠ 2147483647 ∧ (0 : Int) ≠ 1 ∧
    (∀ fuel : Nat, rectPoints fuel 2147483646 0 2147483647 1 = none) ∧
    ¬ ∃ (fuel : Nat) (pts : List Point),
      rectPoints fuel 2147483646 0 2147483647 1 = some pts ∧ pts.length = 4 := by
  have h : ∀ fuel : Nat, rectPoints fuel 2147483646 0 2147483647 1 = none :=
    rectPoints_diverges 2147483646 0 2147483647 1 (by decide) (by decide) (Or.inr rfl)
  refine ⟨by decide, by decide, h, ?_⟩
  rintro ⟨fuel, pts, hp, _⟩
  rw [h fuel] at hp
  exact Option.noConfusion hp

/-- C13 (amended): for corners with `x0 ≠ x1` and `y0 ≠ y1` whose coordinates keep the loop
counters in the range of `int` (`RectFits`), `rectPoints` returns exactly
`2 * (|x1-x0| + |y1-y0|)` points, pairwise distinct, none strictly inside the rectangle; for
the corners `(0,0)`, `(2,2)` they are the 8 cells of the 3x3 square other than `(1,1)`. -/
theorem rectPoints_nondegenerate (x0 y0 x1 y1 : Int) (hfit : RectFits x0 y0 x1 y1)
    (hx : x0 ≠ x1) (hy : y0 ≠ y1) :
    (∃ pts : List Point,
      (∀ fuel : Nat, |x1 - x0| + |y1 - y0| + 1 < (fuel : Int) →
        rectPoints fuel x0 y0 x1 y1 = some pts) ∧
      (pts.length : Int) = 2 * (|x1 - x0| + |y1 - y0|) ∧
      pts.Nodup ∧
      (∀ p ∈ pts,
        ¬ (min x0 x1 < p.x ∧ p.x < max x0 x1 ∧ min y0 y1 < p.y ∧ p.y < max y0 y1))) ∧
    (∀ fuel : Nat, 5 < fuel → rectPoints fuel 0 0 2 2 =
      some [⟨0, 0⟩, ⟨0, 2⟩, ⟨1, 0⟩, ⟨1, 2⟩, ⟨2, 0⟩, ⟨2, 2⟩, ⟨0, 1⟩, ⟨2, 1⟩]) ∧
    (∀ p : Point,
      p ∈ ([⟨0, 0⟩, ⟨0, 2⟩, ⟨1, 0⟩, ⟨1, 2⟩, ⟨2, 0⟩, ⟨2, 2⟩, ⟨0, 1⟩, ⟨2, 1⟩] : List Point) ↔
      (0 ≤ p.x ∧ p.x ≤ 2 ∧ 0 ≤ p.y ∧ p.y ≤ 2 ∧ p ≠ ⟨1, 1⟩)) := by
  have hxlt : min x0 x1 < max x0 x1 := by
    rcases lt_or_gt_of_ne hx with h | h
    · rw [min_eq_left (le_of_lt h), max_eq_right (le_of_lt h)]; exact h
    · rw [min_eq_right (le_of_lt h), max_eq_left (le_of_lt h)]; exact h
  have hylt : min y0 y1 < max y0 y1 := by
    rcases lt_or_gt_of_ne hy with h | h
    · rw [min_eq_left (le_of_lt h), max_eq_right (le_of_lt h)]; exact h
    · rw [min_eq_right (le_of_lt h), max_eq_left (le_of_lt h)]; exact h
  have hax : |x1 - x0| = max x0 x1 - min x0 x1 := by
    rcases lt_or_gt_of_ne hx with h | h
    · rw [min_eq_left (le_of_lt h), max_eq_right (le_of_lt h), abs_of_pos (by omega)]
    · rw [min_eq_right (le_of_lt h), max_eq_left (le_of_lt h), abs_of_neg (by omega)]; ring
  have hay : |y1 - y0| = max y0 y1 - min y0 y1 := by
    rcases lt_or_gt_of_ne hy with h | h
    · rw [min_eq_left (le_of_lt h), max_eq_right (le_of_lt h), abs_of_pos (by omega)]
    · rw [min_eq_right (le_of_lt h), max_eq_left (le_of_lt h), abs_of_neg (by omega)]; ring
  have h22 : rectOutline (min 0 2) (min 0 2) (max 0 2) (max 0 2) =
      [⟨0, 0⟩, ⟨0, 2⟩, ⟨1, 0⟩, ⟨1, 2⟩, ⟨2, 0⟩, ⟨2, 2⟩, ⟨0, 1⟩, ⟨2, 1⟩] := by decide
  refine ⟨⟨rectOutline (min x0 x1) (min y0 y1) (max x0 x1) (max y0 y1),
    fun fuel hf => rectPoints_run x0 y0 x1 y1 hfit fuel hf, ?_,
    nodup_rectOutline _ _ _ _ hxlt hylt, ?_⟩, ?_, ?_⟩
  · rw [length_rectOutline, hax, hay]
    push_cast
    rw [Int.toNat_of_nonneg (by omega), Int.toNat_of_nonneg (by omega)]
    ring
  · intro p hp
    rw [mem_rectOutline] at hp
    rintro ⟨h1, h2, h3, h4⟩
    rcases hp with ⟨_, _, h | h⟩ | ⟨_, _, h | h⟩ <;> omega
  · intro fuel hf
    rw [rectPoints_run 0 0 2 2 (by decide) fuel (by simp; omega), h22]
  · intro p
    rw [← h22, mem_rectOutline, ne_eq, Point.eq_mk_iff]
    have e1 : min (0 : Int) 2 = 0 := by decide
    have e2 : max (0 : Int) 2 = 2 := by decide
    rw [e1, e2]
    constructor
    · rintro (⟨h1, h2, h | h⟩ | ⟨h1, h2, h | h⟩) <;>
        exact ⟨by omega, by omega, by omega, by omega, by omega⟩
    · rintro ⟨h1, h2, h3, h4, h5⟩
      by_cases hy0 : p.y = 0
      · exact Or.inl ⟨h1, h2, Or.inl hy0⟩
      · by_cases hy2 : p.y = 2
        · exact Or.inl ⟨h1, h2, Or.inr hy2⟩
        · right
          refine ⟨by omega, by omega, ?_⟩
          by_contra hcon
          apply h5
          constructor <;> omega

theorem rectPoints_nondegenerate_witness :
    RectFits 3 1 0 5 ∧ (3 : Int) ≠ 0 ∧ (1 : Int) ≠ 5 ∧
    ∃ pts : List Point,
      (∀ fuel : Nat, |(0 : Int) - 3| + |(5 : Int) - 1| + 1 < (fuel : Int) →
        rectPoints fuel 3 1 0 5 = some pts) ∧
      (pts.length : Int) = 2 * (|(0 : Int) - 3| + |(5 : Int) - 1|) ∧
      pts.Nodup ∧
      (∀ p ∈ pts,
        ¬ (min (3 : Int) 0 < p.x ∧ p.x < max (3 : Int) 0 ∧
          min (1 : Int) 5 < p.y ∧ p.y < max (1 : Int) 5)) :=
  ⟨by decide, by decide, by decide,
    (rectPoints_nondegenerate 3 1 0 5 (by decide) (by decide) (by decide)).1⟩

/-! ## Circle outline -/

/-- C14: for every centre and every radius that is zero or negative, `circlePoints` returns
exactly the one-element sequence holding the centre. -/
theorem circlePoints_degenerate (cx cy radius : Int) (h : radius ≤ 0) :
    circlePoints cx cy radius = [⟨cx, cy⟩] := by
  simp [circlePoints, h]

theorem circlePoints_degenerate_witness :
    circlePoints 4 7 0 = [⟨4, 7⟩] ∧ circlePoints 4 7 (-3) = [⟨4, 7⟩] :=
  ⟨circlePoints_degenerate 4 7 0 (by decide), circlePoints_degenerate 4 7 (-3) (by decide)⟩

/-! ## Undo and redo history -/

namespace Editor

theorem getLast?_tail_of_two_le {α : Type} (l : List α) (h : 2 ≤ l.length) :
    l.tail.getLast? = l.getLast? := by
  match l, h with
  | a :: b :: l, _ => simp

/-- The snapshot pushed by `pushUndo` is on top of the undo stack afterwards. -/
theorem pushUndo_top (e : Editor) : e.pushUndo.undoStack.getLast? = some e.canvas.pixels := by
  unfold pushUndo
  simp only [Canvas.snapshot]
  split
  · rename_i h
    rw [getLast?_tail_of_two_le _ (by unfold MAX_UNDO at h; omega)]
    simp
  · simp

theorem pushUndo_canvas (e : Editor) : e.pushUndo.canvas = e.canvas := rfl

theorem pushUndo_redoStack (e : Editor) : e.pushUndo.redoStack = [] := rfl

/-- C15: after `pushUndo` on an editor whose canvas satisfies the length invariant, whatever
the canvas is replaced by with the same width and height (any edits that keep the
dimensions, one `setPixel` for instance), `undo` brings back the pixels held at the
`pushUndo`, with the same width and height. -/
theorem undo_restores_pushed (e : Editor) (c' : Canvas) (hwf : e.canvas.WF)
    (hw : c'.width = e.canvas.width) (hh : c'.height = e.canvas.height) :
    (undo { e.pushUndo with canvas := c' }).canvas.pixels = e.canvas.pixels ∧
    (undo { e.pushUndo with canvas := c' }).canvas.width = e.canvas.width ∧
    (undo { e.pushUndo with canvas := c' }).canvas.height = e.canvas.height := by
  have htop := pushUndo_top e
  have hlen : (e.canvas.pixels.length : Int) = c'.width * c'.height := by
    rw [hw, hh]; exact hwf
  unfold undo
  simp only [htop]
  simp [Canvas.restore, hlen, hw, hh]

theorem undo_restores_pushed_witness :
    (undo { (pushUndo ⟨⟨2, 1, [Color.white, Color.white]⟩, [], []⟩) with
      canvas := (⟨2, 1, [Color.white, Color.white]⟩ : Canvas).setPixel 1 0 ⟨1, 2, 3, 4⟩ }
      ).canvas.pixels = [Color.white, Color.white] ∧
    (undo { (pushUndo ⟨⟨2, 1, [Color.white, Color.white]⟩, [], []⟩) with
      canvas := (⟨2, 1, [Color.white, Color.white]⟩ : Canvas).setPixel 1 0 ⟨1, 2, 3, 4⟩ }
      ).canvas.width = 2 ∧
    (undo { (pushUndo ⟨⟨2, 1, [Color.white, Color.white]⟩, [], []⟩) with
      canvas := (⟨2, 1, [Color.white, Color.white]⟩ : Canvas).setPixel 1 0 ⟨1, 2, 3, 4⟩ }
      ).canvas.height = 1 :=
  undo_restores_pushed ⟨⟨2, 1, [Color.white, Color.white]⟩, [], []⟩
    ((⟨2, 1, [Color.white, Color.white]⟩ : Canvas).setPixel 1 0 ⟨1, 2, 3, 4⟩)
    (by decide) (by decide) (by decide)

/-- C16: when the undo stack is non-empty, its top snapshot has `W * H` entries and the
canvas satisfies the length invariant, `undo` followed by `redo` gives back the same canvas,
undo stack and redo stack. -/
theorem redo_after_undo (e : Editor) (top : List Color)
    (htop : e.undoStack.getLast? = some top)
    (hlen : (top.length : Int) = e.canvas.width * e.canvas.height) (hwf : e.canvas.WF) :
    e.undo.redo = e := by
  have hundo : e.undo = { canvas := { e.canvas with pixels := top }
                          undoStack := e.undoStack.dropLast
                          redoStack := e.redoStack ++ [e.canvas.pixels] } := by
    unfold undo
    simp only [htop]
    simp [Canvas.restore, hlen, Canvas.snapshot]
  rw [hundo]
  have hwf' : (e.canvas.pixels.length : Int) = e.canvas.width * e.canvas.height := hwf
  have hlast : (e.redoStack ++ [e.canvas.pixels]).getLast? = some e.canvas.pixels := by simp
  have hstack : e.undoStack.dropLast ++ [top] = e.undoStack :=
    List.dropLast_append_getLast? top (by rw [htop]; exact rfl)
  unfold redo
  simp only [hlast]
  simp only [Canvas.restore, hwf', if_true, Canvas.snapshot, List.dropLast_concat, hstack]

theorem redo_after_undo_witness :
    (⟨1, 1, [Color.white]⟩ : Canvas).WF ∧
    redo (undo ⟨⟨1, 1, [Color.white]⟩, [[⟨5, 5, 5, 5⟩], [⟨9, 9, 9, 9⟩]], [[⟨7, 7, 7, 7⟩]]⟩) =
      ⟨⟨1, 1, [Color.white]⟩, [[⟨5, 5, 5, 5⟩], [⟨9, 9, 9, 9⟩]], [[⟨7, 7, 7, 7⟩]]⟩ :=
  ⟨by decide,
    redo_after_undo ⟨⟨1, 1, [Color.white]⟩, [[⟨5, 5, 5, 5⟩], [⟨9, 9, 9, 9⟩]], [[⟨7, 7, 7, 7⟩]]⟩
      [⟨9, 9, 9, 9⟩] rfl (by decide) (by decide)⟩

/-- C17: after `pushUndo` the redo stack is empty, and a `redo` that follows returns the
editor unchanged (canvas and both stacks). -/
theorem redo_after_pushUndo (e : Editor) :
    e.pushUndo.redoStack = [] ∧ e.pushUndo.redo = e.pushUndo := by
  refine ⟨rfl, ?_⟩
  unfold redo
  simp [pushUndo_redoStack]

/-- Stack contents after one more push onto a stack holding the last 100 snapshots. -/
theorem push_window {α : Type} (s : List α) (a : α) :
    (if (s.drop (s.length - 100) ++ [a]).length > 100
      then (s.drop (s.length - 100) ++ [a]).tail else s.drop (s.length - 100) ++ [a]) =
      (s ++ [a]).drop ((s ++ [a]).length - 100) := by
  by_cases h : s.length < 100
  · have h0 : s.length - 100 = 0 := by omega
    have h1 : (s ++ [a]).length - 100 = 0 := by simp; omega
    rw [h0, h1]
    simp only [List.drop_zero]
    rw [if_neg (by simp; omega)]
  · have hlen : (s.drop (s.length - 100) ++ [a]).length = 101 := by
      simp; omega
    rw [if_pos (by rw [hlen]; omega)]
    rw [← List.drop_one, List.drop_append_of_le_length (by simp; omega), List.drop_drop]
    have h1 : (s ++ [a]).length - 100 = s.length - 100 + 1 := by simp; omega
    rw [h1, List.drop_append_of_le_length (by omega)]

/-- Undo stack after a run of edits, each followed by `pushUndo`, from an empty stack. -/
theorem undoStack_pushes (e0 : Editor) (h0 : e0.undoStack = []) (edits : List Canvas) :
    (edits.foldl (fun e c => pushUndo { e with canvas := c }) e0).undoStack =
      (edits.map Canvas.snapshot).drop (edits.length - 100) := by
  induction edits using List.reverseRecOn with
  | nil => simpa using h0
  | append_singleton edits c ih =>
    rw [List.foldl_append, List.foldl_cons, List.foldl_nil]
    have hstep : ∀ e : Editor, (pushUndo { e with canvas := c }).undoStack =
        if (e.undoStack ++ [c.snapshot]).length > 100 then (e.undoStack ++ [c.snapshot]).tail
        else e.undoStack ++ [c.snapshot] := fun e => rfl
    rw [hstep, ih]
    have := push_window (edits.map Canvas.snapshot) c.snapshot
    simp only [List.length_map] at this
    rw [this]
    simp

theorem undo_undoStack (e : Editor) : e.undo.undoStack = e.undoStack.dropLast := by
  unfold undo
  split
  · rename_i h
    rw [List.getLast?_eq_none_iff] at h
    rw [h]; rfl
  · rfl

theorem undo_iterate_length (e : Editor) (k : Nat) :
    (undo^[k] e).undoStack.length = e.undoStack.length - k := by
  induction k with
  | zero => simp
  | succ k ih =>
    rw [Function.iterate_succ_apply', undo_undoStack, List.length_dropLast, ih]
    omega

theorem undo_of_empty (e : Editor) (h : e.undoStack = []) : e.undo = e := by
  unfold undo
  simp [h]

/-- C18: from an empty undo stack, after a run of `n` edits each followed by `pushUndo`, the
undo stack holds the last `min(n,100)` pushed snapshots in chronological order; when
`n ≥ 100`, each of 100 successive undos pops one snapshot and the 101st undo returns the
editor unchanged. -/
theorem history_bounded (e0 : Editor) (h0 : e0.undoStack = []) (edits : List Canvas) :
    (edits.foldl (fun e c => pushUndo { e with canvas := c }) e0).undoStack =
      (edits.map Canvas.snapshot).drop (edits.length - 100) ∧
    (edits.foldl (fun e c => pushUndo { e with canvas := c }) e0).undoStack.length =
      min edits.length 100 ∧
    (100 ≤ edits.length →
      (∀ k, k ≤ 100 →
        (undo^[k] (edits.foldl (fun e c => pushUndo { e with canvas := c }) e0)).undoStack.length
          = 100 - k) ∧
      undo (undo^[100] (edits.foldl (fun e c => pushUndo { e with canvas := c }) e0)) =
        undo^[100] (edits.foldl (fun e c => pushUndo { e with canvas := c }) e0)) := by
  have hstack := undoStack_pushes e0 h0 edits
  have hlen : (edits.foldl (fun e c => pushUndo { e with canvas := c }) e0).undoStack.length =
      min edits.length 100 := by
    rw [hstack]; simp; omega
  refine ⟨hstack, hlen, ?_⟩
  intro hn
  constructor
  · intro k _
    rw [undo_iterate_length, hlen]
    omega
  · apply undo_of_empty
    apply List.length_eq_zero.1
    rw [undo_iterate_length, hlen]
    omega

theorem history_bounded_witness :
    ((List.replicate 101 (⟨1, 1, [Color.white]⟩ : Canvas)).foldl
        (fun e c => pushUndo { e with canvas := c })
        ⟨⟨1, 1, [Color.white]⟩, [], []⟩).undoStack =
      ((List.replicate 101 (⟨1, 1, [Color.white]⟩ : Canvas)).map Canvas.snapshot).drop
        ((List.replicate 101 (⟨1, 1, [Color.white]⟩ : Canvas)).length - 100) ∧
    ((List.replicate 101 (⟨1, 1, [Color.white]⟩ : Canvas)).foldl
        (fun e c => pushUndo { e with canvas := c })
        ⟨⟨1, 1, [Color.white]⟩, [], []⟩).undoStack.length =
      min (List.replicate 101 (⟨1, 1, [Color.white]⟩ : Canvas)).length 100 ∧
    (100 ≤ (List.replicate 101 (⟨1, 1, [Color.white]⟩ : Canvas)).length →
      (∀ k, k ≤ 100 →
        (undo^[k] ((List.replicate 101 (⟨1, 1, [Color.white]⟩ : Canvas)).foldl
          (fun e c => pushUndo { e with canvas := c })
          ⟨⟨1, 1, [Color.white]⟩, [], []⟩)).undoStack.length = 100 - k) ∧
      undo (undo^[100] ((List.replicate 101 (⟨1, 1, [Color.white]⟩ : Canvas)).foldl
          (fun e c => pushUndo { e with canvas := c })
          ⟨⟨1, 1, [Color.white]⟩, [], []⟩)) =
        undo^[100] ((List.replicate 101 (⟨1, 1, [Color.white]⟩ : Canvas)).foldl
          (fun e c => pushUndo { e with canvas := c })
          ⟨⟨1, 1, [Color.white]⟩, [], []⟩)) :=
  history_bounded ⟨⟨1, 1, [Color.white]⟩, [], []⟩ rfl
    (List.replicate 101 (⟨1, 1, [Color.white]⟩ : Canvas))

end Editor

/-! ## Resize: failure and round trip -/

namespace Canvas

theorem resizeRow_length (c : Canvas) (newW copyW : Int) (acc : List Color) (y : Int) :
    (resizeRow c newW copyW acc y).length = acc.length := by
  unfold resizeRow
  generalize List.range copyW.toNat = l
  induction l generalizing acc with
  | nil => rfl
  | cons k l ih => rw [List.foldl_cons, ih]; simp [resizeCell]

theorem resizeRows_length (c : Canvas) (newW copyW : Int) (l : List Nat) (acc : List Color) :
    (l.foldl (fun a (y : Nat) => resizeRow c newW copyW a (y : Int)) acc).length
      = acc.length := by
  induction l generalizing acc with
  | nil => rfl
  | cons k l ih => rw [List.foldl_cons, ih, resizeRow_length]

/-- Whenever the product `newW * newH` is not negative and fits in `int`, `resize` returns a
buffer of the new dimensions with `newW * newH` stored colours. -/
theorem resize_some (c : Canvas) (newW newH : Int) (h : 0 ≤ newW * newH)
    (hfit : newW * newH ≤ 2147483647) :
    ∃ r : Canvas, c.resize newW newH = some r ∧ r.width = newW ∧ r.height = newH ∧
      (r.pixels.length : Int) = newW * newH := by
  have hwrap : wrap32 (newW * newH) = newW * newH :=
    wrap32_eq _ (le_trans (by decide) h) hfit
  refine ⟨_, by simp only [resize, hwrap, if_neg (not_lt.mpr h)]; rfl, rfl, rfl, ?_⟩
  simp only [resizeRows_length, List.length_replicate]
  exact Int.toNat_of_nonneg h

/-- Whenever the `int` product `newW * newH` is negative, `resize` returns no buffer. -/
theorem resize_negative_product (c : Canvas) (newW newH : Int)
    (h : wrap32 (newW * newH) < 0) : c.resize newW newH = none := by
  simp [resize, h]

/-- C19 fails for dimensions of opposite sign and for dimensions whose product does not fit
in `int`: on a 1x1 buffer `resize(-1, 1)` asks for a vector of `-1` cells and
`resize(46341, 46341)` for one of `-2147479015` cells (the `int` value of `2147488281`);
neither returns a buffer. -/
theorem resize_fails_example :
    (⟨1, 1, [Color.white]⟩ : Canvas).resize (-1) 1 = none ∧
    (¬ ∃ r : Canvas, (⟨1, 1, [Color.white]⟩ : Canvas).resize (-1) 1 = some r ∧
      r.width = -1 ∧ r.height = 1 ∧ (r.pixels.length : Int) = -1 * 1) ∧
    (⟨1, 1, [Color.white]⟩ : Canvas).resize 46341 46341 = none ∧
    ¬ ∃ r : Canvas, (⟨1, 1, [Color.white]⟩ : Canvas).resize 46341 46341 = some r ∧
      r.width = 46341 ∧ r.height = 46341 ∧ (r.pixels.length : Int) = 46341 * 46341 := by
  have h : (⟨1, 1, [Color.white]⟩ : Canvas).resize (-1) 1 = none := by decide
  have h2 : (⟨1, 1, [Color.white]⟩ : Canvas).resize 46341 46341 = none := by decide
  refine ⟨h, ?_, h2, ?_⟩
  · rintro ⟨r, hr, _⟩
    rw [h] at hr
    exact Option.noConfusion hr
  · rintro ⟨r, hr, _⟩
    rw [h2] at hr
    exact Option.noConfusion hr

/-- C19 (amended): for every buffer and all `newW`, `newH` whose product lies in
`0 .. 2147483647` (zero and both-negative values included), `resize` completes and leaves a
buffer of width `newW` and height `newH` whose storage length equals `newW * newH`; when the
`int` value of the product is negative, in particular when the product lies in
`-2147483648 .. -1` or in `2147483648 .. 4294967295`, the allocation fails and no buffer is
returned. -/
theorem resize_total_iff (c : Canvas) (newW newH : Int) :
    (0 ≤ newW * newH → newW * newH ≤ 2147483647 →
      ∃ r : Canvas, c.resize newW newH = some r ∧ r.width = newW ∧ r.height = newH ∧
        (r.pixels.length : Int) = newW * newH) ∧
    (wrap32 (newW * newH) < 0 → c.resize newW newH = none) ∧
    (-2147483648 ≤ newW * newH → newW * newH < 0 → c.resize newW newH = none) ∧
    (2147483647 < newW * newH → newW * newH < 4294967296 → c.resize newW newH = none) := by
  refine ⟨resize_some c newW newH, resize_negative_product c newW newH, ?_, ?_⟩
  · intro h1 h2
    exact resize_negative_product c newW newH (by unfold wrap32; omega)
  · intro h1 h2
    exact resize_negative_product c newW newH (by unfold wrap32; omega)

theorem resize_total_iff_witness :
    (∃ r : Canvas, (⟨1, 1, [Color.white]⟩ : Canvas).resize (-2) (-3) = some r ∧
      r.width = -2 ∧ r.height = -3 ∧ (r.pixels.length : Int) = -2 * -3) ∧
    (⟨1, 1, [Color.white]⟩ : Canvas).resize 2 (-3) = none ∧
    (⟨1, 1, [Color.white]⟩ : Canvas).resize 65536 32768 = none :=
  ⟨(resize_total_iff ⟨1, 1, [Color.white]⟩ (-2) (-3)).1 (by decide) (by decide),
    (resize_total_iff ⟨1, 1, [Color.white]⟩ 2 (-3)).2.2.1 (by decide) (by decide),
    (resize_total_iff ⟨1, 1, [Color.white]⟩ 65536 32768).2.2.2 (by decide) (by decide)⟩

/-- C20 fails when `W1 * H1` does not fit in `int`: on a 1x1 buffer the first call
`resize(46341, 46341)` returns no buffer, so there is nothing to resize back. -/
theorem resize_round_trip_overflow_example :
    (⟨1, 1, [Color.white]⟩ : Canvas).WF ∧
    (⟨1, 1, [Color.white]⟩ : Canvas).resize 46341 46341 = none ∧
    ¬ ∃ r1 r2 : Canvas, (⟨1, 1, [Color.white]⟩ : Canvas).resize 46341 46341 = some r1 ∧
      r1.resize 1 1 = some r2 := by
  have h : (⟨1, 1, [Color.white]⟩ : Canvas).resize 46341 46341 = none := by decide
  refine ⟨by decide, h, ?_⟩
  rintro ⟨r1, r2, hr, _⟩
  rw [h] at hr
  exact Option.noConfusion hr

/-- C20 (amended): on a buffer `b` of size `W0 x H0` (length invariant, `W0 * H0 ≤ 2147483647`)
and for `W1, H1 ≥ 0` with `W1 * H1 ≤ 2147483647`, `resize(W1,H1)` followed by `resize(W0,H0)`
succeeds and gives a `W0 x H0` buffer in which each cell with `x < min(W0,W1)` and
`y < min(H0,H1)` holds its colour from `b` and every other in-bounds cell is opaque white. -/
theorem resize_round_trip (b : Canvas) (W1 H1 : Int) (hwf : b.WF)
    (hfit0 : b.width * b.height ≤ 2147483647) (hW1 : 0 ≤ W1) (hH1 : 0 ≤ H1)
    (hfit1 : W1 * H1 ≤ 2147483647) :
    ∃ r1 r2 : Canvas, b.resize W1 H1 = some r1 ∧ r1.resize b.width b.height = some r2 ∧
      r2.width = b.width ∧ r2.height = b.height ∧
      ∀ x y : Int, 0 ≤ x → x < b.width → 0 ≤ y → y < b.height →
        r2.getPixel x y =
          if x < min b.width W1 ∧ y < min b.height H1 then b.getPixel x y
          else ⟨255, 255, 255, 255⟩ := by
  obtain ⟨r1, hr1, hw1, hh1, hcells1⟩ := resize_cells b W1 H1 hW1 hH1 hfit1
  have hprod : 0 ≤ b.width * b.height := by
    have h : (b.pixels.length : Int) = b.width * b.height := hwf
    rw [← h]; exact Int.natCast_nonneg _
  obtain ⟨r2, hr2, hw2, hh2, _⟩ := resize_some r1 b.width b.height hprod hfit0
  refine ⟨r1, r2, hr1, hr2, hw2, hh2, ?_⟩
  intro x y hx0 hxw hy0 hyh
  obtain ⟨r2', hr2', _, _, hcells2⟩ :=
    resize_cells r1 b.width b.height (by omega) (by omega) hfit0
  have heq : r2' = r2 := by
    rw [hr2] at hr2'
    exact (Option.some.inj hr2').symm
  subst heq
  rw [hcells2 x y hx0 hxw hy0 hyh, hw1, hh1]
  by_cases hcond : x < min b.width W1 ∧ y < min b.height H1
  · have hx1 : x < W1 := lt_of_lt_of_le hcond.1 (min_le_right _ _)
    have hy1 : y < H1 := lt_of_lt_of_le hcond.2 (min_le_right _ _)
    have hc2 : x < min W1 b.width ∧ y < min H1 b.height :=
      ⟨lt_min hx1 hxw, lt_min hy1 hyh⟩
    rw [if_pos hc2, if_pos hcond, hcells1 x y hx0 hx1 hy0 hy1, if_pos hcond]
  · rw [if_neg hcond]
    by_cases hc2 : x < min W1 b.width ∧ y < min H1 b.height
    · have hx1 : x < W1 := lt_of_lt_of_le hc2.1 (min_le_left _ _)
      have hy1 : y < H1 := lt_of_lt_of_le hc2.2 (min_le_left _ _)
      rw [if_pos hc2, hcells1 x y hx0 hx1 hy0 hy1, if_neg hcond]
    · rw [if_neg hc2]

theorem resize_round_trip_witness :
    (⟨2, 2, [⟨9, 9, 9, 9⟩, ⟨8, 8, 8, 8⟩, ⟨7, 7, 7, 7⟩, ⟨6, 6, 6, 6⟩]⟩ : Canvas).WF ∧
    ∃ r1 r2 : Canvas,
      (⟨2, 2, [⟨9, 9, 9, 9⟩, ⟨8, 8, 8, 8⟩, ⟨7, 7, 7, 7⟩, ⟨6, 6, 6, 6⟩]⟩ : Canvas).resize 1 3
        = some r1 ∧
      r1.resize 2 2 = some r2 ∧ r2.width = 2 ∧ r2.height = 2 ∧
      ∀ x y : Int, 0 ≤ x → x < 2 → 0 ≤ y → y < 2 →
        r2.getPixel x y =
          if x < min (2 : Int) 1 ∧ y < min (2 : Int) 3 then
            (⟨2, 2, [⟨9, 9, 9, 9⟩, ⟨8, 8, 8, 8⟩, ⟨7, 7, 7, 7⟩, ⟨6, 6, 6, 6⟩]⟩ : Canvas).getPixel
              x y
          else ⟨255, 255, 255, 255⟩ :=
  ⟨by decide, resize_round_trip _ 1 3 (by decide) (by decide) (by decide) (by decide)
    (by decide)⟩

end Canvas

/-! ## Startup size -/

/-- C21 fails when exactly one dimension is out of range: with `w = 0`, `h = 100` only the
width falls back to 32, and the canvas is `32 x 100`, not `32 x 32`. -/
theorem startupSize_mixed_example :
    startupSize 3 0 100 = (32, 100) ∧ startupSize 3 0 100 ≠ (32, 32) := by
  decide

/-- C21 (amended): with fewer than two arguments (`argc < 3`) the size is `32 x 32`; with two
parsed integers `w`, `h` the width is `w` when `w` lies in `[1,512]` and 32 otherwise, and
independently the height is `h` when `h` lies in `[1,512]` and 32 otherwise; hence `w x h`
when both are in range and `32 x 32` when both are out of range. -/
theorem startupSize_spec (argc w h : Int) :
    (argc < 3 → startupSize argc w h = (32, 32)) ∧
    (3 ≤ argc →
      startupSize argc w h =
        (if 1 ≤ w ∧ w ≤ 512 then w else 32, if 1 ≤ h ∧ h ≤ 512 then h else 32)) ∧
    (3 ≤ argc → 1 ≤ w → w ≤ 512 → 1 ≤ h → h ≤ 512 → startupSize argc w h = (w, h)) ∧
    (3 ≤ argc → ¬ (1 ≤ w ∧ w ≤ 512) → ¬ (1 ≤ h ∧ h ≤ 512) →
      startupSize argc w h = (32, 32)) := by
  have hgen : 3 ≤ argc → startupSize argc w h =
      (if 1 ≤ w ∧ w ≤ 512 then w else 32, if 1 ≤ h ∧ h ≤ 512 then h else 32) := by
    intro ha
    have hw : (if w < 1 ∨ w > 512 then (32 : Int) else w) = if 1 ≤ w ∧ w ≤ 512 then w else 32 := by
      split_ifs <;> first | rfl | omega
    have hh : (if h < 1 ∨ h > 512 then (32 : Int) else h) = if 1 ≤ h ∧ h ≤ 512 then h else 32 := by
      split_ifs <;> first | rfl | omega
    simp only [startupSize, ge_iff_le, ha, if_true, hw, hh]
  refine ⟨?_, hgen, ?_, ?_⟩
  · intro ha
    have : ¬ argc ≥ 3 := by omega
    simp [startupSize, this]
  · intro ha h1 h2 h3 h4
    rw [hgen ha, if_pos ⟨h1, h2⟩, if_pos ⟨h3, h4⟩]
  · intro ha hw hh
    rw [hgen ha, if_neg hw, if_neg hh]

theorem startupSize_spec_witness :
    startupSize 2 7 9 = (32, 32) ∧ startupSize 3 640 48 = (32, 48) ∧
    startupSize 3 64 48 = (64, 48) ∧ startupSize 3 0 513 = (32, 32) :=
  ⟨(startupSize_spec 2 7 9).1 (by decide),
    (startupSize_spec 3 640 48).2.1 (by decide),
    (startupSize_spec 3 64 48).2.2.1 (by decide) (by decide) (by decide) (by decide) (by decide),
    (startupSize_spec 3 0 513).2.2.2 (by decide) (by decide) (by decide)⟩

/-! ## Termination of flood fill -/

namespace Canvas

/-- For every seed and colour, `floodFill` on a buffer satisfying the length invariant returns
one buffer for every budget above the storage length, and that buffer has the same width and
height and satisfies the length invariant. -/
theorem floodFill_total (b : Canvas) (x y : Int) (n : Color) (hwf : b.WF) :
    ∃ r : Canvas, (∀ fuel, b.pixels.length < fuel → floodFill fuel b x y n = some r) ∧
      r.WF ∧ r.width = b.width ∧ r.height = b.height := by
  by_cases hin : b.inBounds x y = true
  · by_cases hne : b.getPixel x y = n
    · exact ⟨b, fun fuel _ => by simp [floodFill, hin, hne], hwf, rfl, rfl⟩
    · obtain ⟨r, hrun, hinv, _⟩ := floodFill_core b x y n hwf hin hne
      exact ⟨r, hrun, hinv.wf, hinv.width_eq, hinv.height_eq⟩
  · exact ⟨b, fun fuel _ => by simp [floodFill, hin], hwf, rfl, rfl⟩

/-- C23: on every buffer satisfying the length invariant, for every seed and every colour,
`floodFill` terminates: every budget above the storage length `W * H` of queue-loop tests is
enough for it to return (the same buffer for all such budgets). -/
theorem floodFill_terminates (b : Canvas) (x y : Int) (newColor : Color) (hwf : b.WF) :
    ∃ r : Canvas, ∀ fuel, b.pixels.length < fuel → floodFill fuel b x y newColor = some r := by
  obtain ⟨r, hrun, _⟩ := floodFill_total b x y newColor hwf
  exact ⟨r, hrun⟩

theorem floodFill_terminates_witness :
    (⟨2, 2, [Color.white, Color.white, ⟨9, 9, 9, 9⟩, Color.white]⟩ : Canvas).WF ∧
    ∃ r : Canvas, ∀ fuel,
      (⟨2, 2, [Color.white, Color.white, ⟨9, 9, 9, 9⟩, Color.white]⟩ : Canvas).pixels.length
        < fuel →
      floodFill fuel ⟨2, 2, [Color.white, Color.white, ⟨9, 9, 9, 9⟩, Color.white]⟩ 0 0
        ⟨1, 2, 3, 4⟩ = some r :=
  ⟨by decide, floodFill_terminates _ 0 0 ⟨1, 2, 3, 4⟩ (by decide)⟩

end Canvas

/-! ## Shape of the rasterised line -/

/-- Lines with `dy ≤ dx`, partial correctness: whatever `lineLoop` returns from a state with
`n` steps left in `x` and `m` in `y`, each step advances `x` by `sx` and `y` by `0` or `sy`,
and every point lies between the current point and the end point. -/
theorem lineLoop_xmajor_path (x1 y1 dx dy sx sy : Int) (hdy : 0 ≤ dy)
    (hle : dy ≤ dx) (hdx : 0 < dx) (fuel : Nat) :
    ∀ (n : Nat) (m err : Int) (pts : List Point), (n : Int) ≤ dx →
      err = dx - dy + n * dy - m * dx → -dy < 2 * err → 2 * err < 3 * dx - 2 * dy →
      lineLoop x1 y1 dx dy sx sy fuel (x1 - sx * n) (y1 - sy * m) err = some pts →
      List.Chain' (fun p q : Point => q.x = p.x + sx ∧ (q.y = p.y ∨ q.y = p.y + sy)) pts ∧
      (∀ p ∈ pts, ∃ n' m' : Int, 0 ≤ n' ∧ n' ≤ n ∧ 0 ≤ m' ∧ m' ≤ dy ∧
        p.x = x1 - sx * n' ∧ p.y = y1 - sy * m') ∧
      pts.head? = some ⟨x1 - sx * n, y1 - sy * m⟩ := by
  induction fuel with
  | zero =>
    intro n m err pts _ _ _ _ h
    simp [lineLoop] at h
  | succ fuel ih =>
    intro n m err pts hn herr hlo hhi h
    have hnd : 0 ≤ (n : Int) * dy := mul_nonneg (Int.natCast_nonneg n) hdy
    have hnd' : 0 ≤ (dx - n) * dy := mul_nonneg (by omega) hdy
    have hm0 : 0 ≤ m := by
      by_contra hc
      have h2 : 0 ≤ (-1 - m) * dx := mul_nonneg (by omega) (le_of_lt hdx)
      nlinarith
    have hmdy : m ≤ dy := by
      by_contra hc
      have h2 : 0 ≤ (m - dy - 1) * dx := mul_nonneg (by omega) (le_of_lt hdx)
      nlinarith
    by_cases hend : x1 - sx * (n : Int) = x1 ∧ y1 - sy * m = y1
    · rw [lineLoop, if_pos hend] at h
      have hp : pts = [⟨x1 - sx * n, y1 - sy * m⟩] := (Option.some.inj h).symm
      subst hp
      refine ⟨List.chain'_singleton _, ?_, rfl⟩
      intro p hp
      rw [List.mem_singleton] at hp
      subst hp
      exact ⟨n, m, Int.natCast_nonneg n, le_refl _, hm0, hmdy, rfl, rfl⟩
    · have hn1 : n ≠ 0 := by
        intro h0
        subst h0
        simp only [Nat.cast_zero, zero_mul, mul_zero, sub_zero, add_zero] at herr hend
        have hm : m = 0 := by
          by_contra hc
          have h2 : 0 ≤ (m - 1) * dx := mul_nonneg (by omega) (le_of_lt hdx)
          nlinarith
        apply hend
        rw [hm]; simp
      obtain ⟨k, rfl⟩ : ∃ k, n = k + 1 := ⟨n - 1, by omega⟩
      have hx : 2 * err > -dy := hlo
      have hxn : x1 - sx * ((k + 1 : Nat) : Int) + sx = x1 - sx * (k : Int) := by
        push_cast; ring
      push_cast at herr hn
      rw [lineLoop_succ _ _ _ _ _ _ _ _ _ _ hend] at h
      by_cases hy : 2 * err < dx
      · rw [if_pos hx, if_pos hy, if_pos hy, if_pos hx, hxn] at h
        have hym : y1 - sy * m + sy = y1 - sy * (m - 1) := by ring
        rw [hym, Option.map_eq_some'] at h
        obtain ⟨rest, hrest, hpts⟩ := h
        obtain ⟨hchain, hbox, hhead⟩ := ih k (m - 1) (err - dy + dx) rest (by omega)
          (by rw [herr]; ring) (by linarith) (by linarith) hrest
        subst hpts
        refine ⟨?_, ?_, rfl⟩
        · rw [List.chain'_cons']
          refine ⟨?_, hchain⟩
          intro q hq
          rw [hhead] at hq
          have hq' := Option.some.inj hq
          subst hq'
          exact ⟨hxn.symm, Or.inr hym.symm⟩
        · intro p hp
          rcases List.mem_cons.1 hp with hp | hp
          · subst hp
            exact ⟨((k + 1 : Nat) : Int), m, by positivity, le_refl _, hm0, hmdy, rfl, rfl⟩
          · obtain ⟨n', m', h1, h2, h3, h4, h5, h6⟩ := hbox p hp
            exact ⟨n', m', h1, by push_cast; omega, h3, h4, h5, h6⟩
      · rw [if_pos hx, if_neg hy, if_neg hy, if_pos hx, hxn, Option.map_eq_some'] at h
        obtain ⟨rest, hrest, hpts⟩ := h
        have hlt : dy < dx := by
          rcases lt_or_eq_of_le hle with h' | h'
          · exact h'
          · exfalso; linarith
        obtain ⟨hchain, hbox, hhead⟩ := ih k m (err - dy) rest (by omega)
          (by rw [herr]; ring) (by linarith) (by linarith) hrest
        subst hpts
        refine ⟨?_, ?_, rfl⟩
        · rw [List.chain'_cons']
          refine ⟨?_, hchain⟩
          intro q hq
          rw [hhead] at hq
          have hq' := Option.some.inj hq
          subst hq'
          exact ⟨hxn.symm, Or.inl rfl⟩
        · intro p hp
          rcases List.mem_cons.1 hp with hp | hp
          · subst hp
            exact ⟨((k + 1 : Nat) : Int), m, by positivity, le_refl _, hm0, hmdy, rfl, rfl⟩
          · obtain ⟨n', m', h1, h2, h3, h4, h5, h6⟩ := hbox p hp
            exact ⟨n', m', h1, by push_cast; omega, h3, h4, h5, h6⟩

/-- Lines with `dx ≤ dy`, partial correctness: whatever `lineLoop` returns from a state with
`n` steps left in `y` and `m` in `x`, each step advances `y` by `sy` and `x` by `0` or `sx`,
and every point lies between the current point and the end point. -/
theorem lineLoop_ymajor_path (x1 y1 dx dy sx sy : Int) (hdx : 0 ≤ dx)
    (hle : dx ≤ dy) (hdy : 0 < dy) (fuel : Nat) :
    ∀ (n : Nat) (m err : Int) (pts : List Point), (n : Int) ≤ dy →
      err = dx - dy + m * dy - n * dx → 2 * dx - 3 * dy < 2 * err → 2 * err < dx →
      lineLoop x1 y1 dx dy sx sy fuel (x1 - sx * m) (y1 - sy * n) err = some pts →
      List.Chain' (fun p q : Point => q.y = p.y + sy ∧ (q.x = p.x ∨ q.x = p.x + sx)) pts ∧
      (∀ p ∈ pts, ∃ n' m' : Int, 0 ≤ n' ∧ n' ≤ n ∧ 0 ≤ m' ∧ m' ≤ dx ∧
        p.x = x1 - sx * m' ∧ p.y = y1 - sy * n') ∧
      pts.head? = some ⟨x1 - sx * m, y1 - sy * n⟩ := by
  induction fuel with
  | zero =>
    intro n m err pts _ _ _ _ h
    simp [lineLoop] at h
  | succ fuel ih =>
    intro n m err pts hn herr hlo hhi h
    have hnd : 0 ≤ (n : Int) * dx := mul_nonneg (Int.natCast_nonneg n) hdx
    have hnd' : 0 ≤ (dy - n) * dx := mul_nonneg (by omega) hdx
    have hm0 : 0 ≤ m := by
      by_contra hc
      have h2 : 0 ≤ (-1 - m) * dy := mul_nonneg (by omega) (le_of_lt hdy)
      nlinarith
    have hmdx : m ≤ dx := by
      by_contra hc
      have h2 : 0 ≤ (m - dx - 1) * dy := mul_nonneg (by omega) (le_of_lt hdy)
      nlinarith
    by_cases hend : x1 - sx * m = x1 ∧ y1 - sy * (n : Int) = y1
    · rw [lineLoop, if_pos hend] at h
      have hp : pts = [⟨x1 - sx * m, y1 - sy * n⟩] := (Option.some.inj h).symm
      subst hp
      refine ⟨List.chain'_singleton _, ?_, rfl⟩
      intro p hp
      rw [List.mem_singleton] at hp
      subst hp
      exact ⟨n, m, Int.natCast_nonneg n, le_refl _, hm0, hmdx, rfl, rfl⟩
    · have hn1 : n ≠ 0 := by
        intro h0
        subst h0
        simp only [Nat.cast_zero, zero_mul, mul_zero, sub_zero, add_zero] at herr hend
        have hm : m = 0 := by
          by_contra hc
          have h2 : 0 ≤ (m - 1) * dy := mul_nonneg (by omega) (le_of_lt hdy)
          nlinarith
        apply hend
        rw [hm]; simp
      obtain ⟨k, rfl⟩ : ∃ k, n = k + 1 := ⟨n - 1, by omega⟩
      have hy : 2 * err < dx := hhi
      have hyn : y1 - sy * ((k + 1 : Nat) : Int) + sy = y1 - sy * (k : Int) := by
        push_cast; ring
      push_cast at herr hn
      rw [lineLoop_succ _ _ _ _ _ _ _ _ _ _ hend] at h
      by_cases hx : 2 * err > -dy
      · rw [if_pos hx, if_pos hy, if_pos hy, if_pos hx, hyn] at h
        have hxm : x1 - sx * m + sx = x1 - sx * (m - 1) := by ring
        rw [hxm, Option.map_eq_some'] at h
        obtain ⟨rest, hrest, hpts⟩ := h
        obtain ⟨hchain, hbox, hhead⟩ := ih k (m - 1) (err - dy + dx) rest (by omega)
          (by rw [herr]; ring) (by linarith) (by linarith) hrest
        subst hpts
        refine ⟨?_, ?_, rfl⟩
        · rw [List.chain'_cons']
          refine ⟨?_, hchain⟩
          intro q hq
          rw [hhead] at hq
          have hq' := Option.some.inj hq
          subst hq'
          exact ⟨hyn.symm, Or.inr hxm.symm⟩
        · intro p hp
          rcases List.mem_cons.1 hp with hp | hp
          · subst hp
            exact ⟨((k + 1 : Nat) : Int), m, by positivity, le_refl _, hm0, hmdx, rfl, rfl⟩
          · obtain ⟨n', m', h1, h2, h3, h4, h5, h6⟩ := hbox p hp
            exact ⟨n', m', h1, by push_cast; omega, h3, h4, h5, h6⟩
      · rw [if_neg hx, if_pos hy, if_pos hy, if_neg hx, hyn, Option.map_eq_some'] at h
        obtain ⟨rest, hrest, hpts⟩ := h
        have hlt : dx < dy := by
          rcases lt_or_eq_of_le hle with h' | h'
          · exact h'
          · exfalso; linarith
        obtain ⟨hchain, hbox, hhead⟩ := ih k m (err + dx) rest (by omega)
          (by rw [herr]; ring) (by linarith) (by linarith) hrest
        subst hpts
        refine ⟨?_, ?_, rfl⟩
        · rw [List.chain'_cons']
          refine ⟨?_, hchain⟩
          intro q hq
          rw [hhead] at hq
          have hq' := Option.some.inj hq
          subst hq'
          exact ⟨hyn.symm, Or.inl rfl⟩
        · intro p hp
          rcases List.mem_cons.1 hp with hp | hp
          · subst hp
            exact ⟨((k + 1 : Nat) : Int), m, by positivity, le_refl _, hm0, hmdx, rfl, rfl⟩
          · obtain ⟨n', m', h1, h2, h3, h4, h5, h6⟩ := hbox p hp
            exact ⟨n', m', h1, by push_cast; omega, h3, h4, h5, h6⟩

/-- A list whose consecutive points strictly advance in the integer key `f` has no repeats. -/
theorem nodup_of_chain_key (f : Point → Int) (pts : List Point)
    (h : List.Chain' (fun p q : Point => f p < f q) pts) : pts.Nodup := by
  have h1 : List.Chain' (fun a b : Int => a < b) (pts.map f) := (List.chain'_map f).2 h
  have h2 : List.Pairwise (fun a b : Int => a < b) (pts.map f) := List.chain'_iff_pairwise.1 h1
  exact List.Nodup.of_map f (h2.imp (fun hab => ne_of_lt hab))

/-- Full description of the run of `lineLoop` from the start point: termination, end points,
length, 8-connected steps, no repeated cell, and no point outside the box of the end points. -/
theorem lineLoop_path (x0 y0 x1 y1 dx dy sx sy : Int) (hsx : sx = 1 ∨ sx = -1)
    (hsy : sy = 1 ∨ sy = -1) (hdx : 0 ≤ dx) (hdy : 0 ≤ dy) (hx0 : x1 - sx * dx = x0)
    (hy0 : y1 - sy * dy = y0) :
    ∃ pts : List Point,
      (∀ fuel : Nat, max dx dy < (fuel : Int) →
        lineLoop x1 y1 dx dy sx sy fuel x0 y0 (dx - dy) = some pts) ∧
      pts.head? = some ⟨x0, y0⟩ ∧ pts.getLast? = some ⟨x1, y1⟩ ∧
      (pts.length : Int) = max dx dy + 1 ∧
      List.Chain' (fun p q : Point => |q.x - p.x| ≤ 1 ∧ |q.y - p.y| ≤ 1 ∧ p ≠ q) pts ∧
      pts.Nodup ∧
      ∀ p ∈ pts, min x0 x1 ≤ p.x ∧ p.x ≤ max x0 x1 ∧ min y0 y1 ≤ p.y ∧ p.y ≤ max y0 y1 := by
  by_cases hmajor : dy ≤ dx
  · by_cases hpos : 0 < dx
    · obtain ⟨pts, hrun, hlen, hhead, hlast⟩ :=
        lineLoop_xmajor x1 y1 dx dy sx sy hsx hdy hmajor hpos dx.toNat dy (dx - dy)
          (by rw [Int.toNat_of_nonneg hdx]; ring) (by linarith) (by linarith)
      obtain ⟨hchain, hbox, _⟩ :=
        lineLoop_xmajor_path x1 y1 dx dy sx sy hdy hmajor hpos (dx.toNat + 1) dx.toNat dy
          (dx - dy) pts (by rw [Int.toNat_of_nonneg hdx]) (by rw [Int.toNat_of_nonneg hdx]; ring)
          (by linarith) (by linarith) (hrun _ (Nat.lt_succ_self _))
      rw [Int.toNat_of_nonneg hdx, hx0, hy0] at hrun hhead
      refine ⟨pts, ?_, hhead, hlast, ?_, ?_, ?_, ?_⟩
      · intro fuel hf
        rw [max_eq_left hmajor] at hf
        exact hrun fuel (by omega)
      · rw [max_eq_left hmajor, hlen]; push_cast; rw [Int.toNat_of_nonneg hdx]
      · apply hchain.imp
        rintro p q ⟨h1, h2⟩
        refine ⟨abs_le.2 ?_, abs_le.2 ?_, ?_⟩
        · rcases hsx with h | h <;> subst h <;> constructor <;> omega
        · rcases hsy with h | h <;> subst h <;> rcases h2 with h2 | h2 <;> constructor <;> omega
        · intro hpq
          subst hpq
          rcases hsx with h | h <;> subst h <;> omega
      · apply nodup_of_chain_key (fun p => sx * p.x)
        apply hchain.imp
        rintro p q ⟨h1, _⟩
        rcases hsx with h | h <;> subst h <;> omega
      · intro p hp
        obtain ⟨n', m', h1, h2, h3, h4, h5, h6⟩ := hbox p hp
        rw [Int.toNat_of_nonneg hdx] at h2
        rcases hsx with h | h <;> subst h <;> rcases hsy with h' | h' <;> subst h' <;>
          refine ⟨?_, ?_, ?_, ?_⟩ <;> omega
    · have hdx' : dx = 0 := by omega
      have hdy' : dy = 0 := by omega
      subst hdx' hdy'
      have ex : x0 = x1 := by rw [← hx0]; ring
      have ey : y0 = y1 := by rw [← hy0]; ring
      subst ex ey
      refine ⟨[⟨x0, y0⟩], ?_, rfl, rfl, by simp, List.chain'_singleton _,
        List.nodup_singleton _, ?_⟩
      · intro fuel hf
        obtain ⟨f, rfl⟩ : ∃ f, fuel = f + 1 := ⟨fuel - 1, by simp at hf; omega⟩
        exact lineLoop_end x0 y0 _ _ _ _ f _
      · intro p hp
        rw [List.mem_singleton] at hp
        subst hp
        simp
  · have hlt : dx < dy := lt_of_not_le hmajor
    have hpos : 0 < dy := by omega
    obtain ⟨pts, hrun, hlen, hhead, hlast⟩ :=
      lineLoop_ymajor x1 y1 dx dy sx sy hsy hdx (le_of_lt hlt) hpos dy.toNat dx (dx - dy)
        (by rw [Int.toNat_of_nonneg hdy]; ring) (by linarith) (by linarith)
    obtain ⟨hchain, hbox, _⟩ :=
      lineLoop_ymajor_path x1 y1 dx dy sx sy hdx (le_of_lt hlt) hpos (dy.toNat + 1) dy.toNat dx
        (dx - dy) pts (by rw [Int.toNat_of_nonneg hdy]) (by rw [Int.toNat_of_nonneg hdy]; ring)
        (by linarith) (by linarith) (hrun _ (Nat.lt_succ_self _))
    rw [Int.toNat_of_nonneg hdy, hx0, hy0] at hrun hhead
    refine ⟨pts, ?_, hhead, hlast, ?_, ?_, ?_, ?_⟩
    · intro fuel hf
      rw [max_eq_right (le_of_lt hlt)] at hf
      exact hrun fuel (by omega)
    · rw [max_eq_right (le_of_lt hlt), hlen]; push_cast; rw [Int.toNat_of_nonneg hdy]
    · apply hchain.imp
      rintro p q ⟨h1, h2⟩
      refine ⟨abs_le.2 ?_, abs_le.2 ?_, ?_⟩
      · rcases hsx with h | h <;> subst h <;> rcases h2 with h2 | h2 <;> constructor <;> omega
      · rcases hsy with h | h <;> subst h <;> constructor <;> omega
      · intro hpq
        subst hpq
        rcases hsy with h | h <;> subst h <;> omega
    · apply nodup_of_chain_key (fun p => sy * p.y)
      apply hchain.imp
      rintro p q ⟨h1, _⟩
      rcases hsy with h | h <;> subst h <;> omega
    · intro p hp
      obtain ⟨n', m', h1, h2, h3, h4, h5, h6⟩ := hbox p hp
      rw [Int.toNat_of_nonneg hdy] at h2
      rcases hsx with h | h <;> subst h <;> rcases hsy with h' | h' <;> subst h' <;>
        refine ⟨?_, ?_, ?_, ?_⟩ <;> omega

/-- Full description of the sequence returned by `linePoints`. -/
theorem linePoints_path (x0 y0 x1 y1 : Int) :
    ∃ pts : List Point,
      (∀ fuel : Nat, max |x1 - x0| |y1 - y0| < (fuel : Int) →
        linePoints fuel x0 y0 x1 y1 = some pts) ∧
      pts.head? = some ⟨x0, y0⟩ ∧ pts.getLast? = some ⟨x1, y1⟩ ∧
      (pts.length : Int) = max |x1 - x0| |y1 - y0| + 1 ∧
      List.Chain' (fun p q : Point => |q.x - p.x| ≤ 1 ∧ |q.y - p.y| ≤ 1 ∧ p ≠ q) pts ∧
      pts.Nodup ∧
      ∀ p ∈ pts, min x0 x1 ≤ p.x ∧ p.x ≤ max x0 x1 ∧ min y0 y1 ≤ p.y ∧ p.y ≤ max y0 y1 := by
  have hsx : ((if x0 < x1 then 1 else -1 : Int) = 1 ∨ (if x0 < x1 then 1 else -1 : Int) = -1) := by
    split <;> simp
  have hsy : ((if y0 < y1 then 1 else -1 : Int) = 1 ∨ (if y0 < y1 then 1 else -1 : Int) = -1) := by
    split <;> simp
  have hx0 : x1 - (if x0 < x1 then 1 else -1 : Int) * |x1 - x0| = x0 := by
    split
    · rw [abs_of_pos (by omega)]; ring
    · rw [abs_of_nonpos (by omega)]; ring
  have hy0 : y1 - (if y0 < y1 then 1 else -1 : Int) * |y1 - y0| = y0 := by
    split
    · rw [abs_of_pos (by omega)]; ring
    · rw [abs_of_nonpos (by omega)]; ring
  exact lineLoop_path x0 y0 x1 y1 |x1 - x0| |y1 - y0| _ _ hsx hsy (abs_nonneg _) (abs_nonneg _)
    hx0 hy0

/-- C24: for all integer end points `linePoints` terminates: every budget above
`max(|x1-x0|, |y1-y0|)` iterations is enough, the loop stops exactly on `(x1,y1)`, and no
emitted point lies beyond an end point in `x` or in `y`. -/
theorem linePoints_terminates (x0 y0 x1 y1 : Int) :
    ∃ pts : List Point,
      (∀ fuel : Nat, max |x1 - x0| |y1 - y0| < (fuel : Int) →
        linePoints fuel x0 y0 x1 y1 = some pts) ∧
      pts.getLast? = some ⟨x1, y1⟩ ∧
      ∀ p ∈ pts, min x0 x1 ≤ p.x ∧ p.x ≤ max x0 x1 ∧ min y0 y1 ≤ p.y ∧ p.y ≤ max y0 y1 := by
  obtain ⟨pts, hrun, _, hlast, _, _, _, hbox⟩ := linePoints_path x0 y0 x1 y1
  exact ⟨pts, hrun, hlast, hbox⟩

namespace Canvas

end Canvas

/-! ## Queue insertions of flood fill -/

namespace Canvas

/-- Dropping the log from the instrumented neighbour test gives the plain one. -/
theorem floodVisitLog_fst (t n : Color) (st : Canvas × List Point × List Point) (p : Point) :
    ((floodVisitLog t n st p).1, (floodVisitLog t n st p).2.1) =
      floodVisit t n (st.1, st.2.1) p := by
  unfold floodVisitLog floodVisit
  split <;> rfl

theorem floodVisitsLog_fst (t n : Color) (p : Point) (ds : List (Int × Int)) :
    ∀ st : Canvas × List Point × List Point,
      (((ds.foldl (fun st d => floodVisitLog t n st ⟨p.x + d.1, p.y + d.2⟩) st).1,
        (ds.foldl (fun st d => floodVisitLog t n st ⟨p.x + d.1, p.y + d.2⟩) st).2.1) :
          Canvas × List Point) =
        ds.foldl (fun st d => floodVisit t n st ⟨p.x + d.1, p.y + d.2⟩) (st.1, st.2.1) := by
  induction ds with
  | nil => intro st; rfl
  | cons d ds ih =>
    intro st
    rw [List.foldl_cons, List.foldl_cons, ih, floodVisitLog_fst]

theorem floodExpandLog_fst (t n : Color) (c : Canvas) (q log : List Point) (p : Point) :
    ((floodExpandLog t n c q log p).1, (floodExpandLog t n c q log p).2.1) =
      floodExpand t n c q p :=
  floodVisitsLog_fst t n p floodOffsets (c, q, log)

/-- The instrumented queue loop computes the same buffer as the plain one. -/
theorem floodLoopLog_fst (t n : Color) (fuel : Nat) :
    ∀ (c : Canvas) (q log : List Point),
      (floodLoopLog t n fuel c q log).map Prod.fst = floodLoop t n fuel c q := by
  induction fuel with
  | zero => intro c q log; rfl
  | succ fuel ih =>
    intro c q log
    cases q with
    | nil => rfl
    | cons p q =>
      rw [floodLoopLog, floodLoop, ih]
      have h := floodExpandLog_fst t n c q log p
      rw [← h]

theorem floodFillLog_fst (fuel : Nat) (c : Canvas) (x y : Int) (v : Color) :
    (floodFillLog fuel c x y v).map Prod.fst = floodFill fuel c x y v := by
  unfold floodFillLog floodFill
  split
  · rfl
  · simp only
    split
    · rfl
    · exact floodLoopLog_fst _ _ fuel _ _ _

/-- One more unit of budget does not change a result of the instrumented loop. -/
theorem floodLoopLog_mono (t n : Color) (fuel : Nat) :
    ∀ (c : Canvas) (q log : List Point) (res : Canvas × List Point),
      floodLoopLog t n fuel c q log = some res →
      ∀ k : Nat, floodLoopLog t n (fuel + k) c q log = some res := by
  induction fuel with
  | zero => intro c q log res h; simp [floodLoopLog] at h
  | succ fuel ih =>
    intro c q log res h k
    have e : fuel + 1 + k = (fuel + k) + 1 := by omega
    rw [e]
    cases q with
    | nil =>
      rw [floodLoopLog] at h ⊢
      exact h
    | cons p q =>
      rw [floodLoopLog] at h ⊢
      exact ih _ _ _ res h k

theorem floodVisitLog_inv {t n : Color} (htn : t ≠ n) {K : Nat}
    (st : Canvas × List Point × List Point) (p : Point) (h : LogInv t n K st.1 st.2.2) :
    LogInv t n K (floodVisitLog t n st p).1 (floodVisitLog t n st p).2.2 := by
  obtain ⟨hwf, hnd, hlog, hK⟩ := h
  by_cases hv : st.1.inBounds p.x p.y = true ∧ st.1.getPixel p.x p.y = t
  · obtain ⟨hin, hcol⟩ := hv
    have hstate : floodVisitLog t n st p =
        (st.1.setPixel p.x p.y n, st.2.1 ++ [p], st.2.2 ++ [p]) := by
      simp [floodVisitLog, hin, hcol]
    rw [hstate]
    have hnot : p ∉ st.2.2 := by
      intro hp
      have := (hlog p hp).2
      rw [hcol] at this
      exact htn this
    refine ⟨setPixel_WF hwf _ _ _, ?_, ?_, ?_⟩
    · exact List.Nodup.append hnd (List.nodup_singleton p)
        (by
          rw [List.disjoint_left]
          intro a ha hb
          rw [List.mem_singleton] at hb
          subst hb
          exact hnot ha)
    · intro a ha
      rw [setPixel_inBounds]
      rcases List.mem_append.1 ha with ha | ha
      · refine ⟨(hlog a ha).1, ?_⟩
        by_cases he : a.x = p.x ∧ a.y = p.y
        · rw [he.1, he.2]; exact getPixel_setPixel_same hwf hin n
        · rw [getPixel_setPixel_other st.1 n he]; exact (hlog a ha).2
      · rw [List.mem_singleton] at ha
        subst ha
        exact ⟨hin, getPixel_setPixel_same hwf hin n⟩
    · have := count_setPixel hwf hin hcol htn
      simp only [List.length_append, List.length_singleton]
      omega
  · have hstate : floodVisitLog t n st p = st := by
      unfold floodVisitLog
      rw [if_neg]
      simpa using hv
    rw [hstate]
    exact ⟨hwf, hnd, hlog, hK⟩

theorem floodExpandLog_inv {t n : Color} (htn : t ≠ n) {K : Nat} (c : Canvas)
    (q log : List Point) (p : Point) (h : LogInv t n K c log) :
    LogInv t n K (floodExpandLog t n c q log p).1 (floodExpandLog t n c q log p).2.2 := by
  unfold floodExpandLog
  generalize floodOffsets = ds
  suffices ∀ st : Canvas × List Point × List Point, LogInv t n K st.1 st.2.2 →
      LogInv t n K (ds.foldl (fun st d => floodVisitLog t n st ⟨p.x + d.1, p.y + d.2⟩) st).1
        (ds.foldl (fun st d => floodVisitLog t n st ⟨p.x + d.1, p.y + d.2⟩) st).2.2
    from this (c, q, log) h
  induction ds with
  | nil => intro st hst; exact hst
  | cons d ds ih =>
    intro st hst
    exact ih _ (floodVisitLog_inv htn st _ hst)

/-- The log invariant holds for whatever the instrumented queue loop returns. -/
theorem floodLoopLog_inv {t n : Color} (htn : t ≠ n) {K : Nat} (fuel : Nat) :
    ∀ (c : Canvas) (q log : List Point) (res : Canvas × List Point), LogInv t n K c log →
      floodLoopLog t n fuel c q log = some res → LogInv t n K res.1 res.2 := by
  induction fuel with
  | zero => intro c q log res _ h; simp [floodLoopLog] at h
  | succ fuel ih =>
    intro c q log res hinv h
    cases q with
    | nil =>
      rw [floodLoopLog] at h
      rw [← Option.some.inj h]; exact hinv
    | cons p q =>
      rw [floodLoopLog] at h
      exact ih _ _ _ res (floodExpandLog_inv htn c q log p hinv) h

end Canvas

namespace Canvas

/-- C26: during a call of `floodFill` on a buffer satisfying the length invariant, the points
pushed on the queue (each push goes with the repaint of that cell; the log lists them in
order, seed first) are pairwise distinct and at most `W * H` many; the logged run returns
the same buffer as `floodFill`. -/
theorem floodFill_pushes_once (b : Canvas) (x y : Int) (newColor : Color) (hwf : b.WF) :
    ∃ (r : Canvas) (log : List Point),
      (∀ fuel, b.pixels.length < fuel → floodFillLog fuel b x y newColor = some (r, log)) ∧
      (∀ fuel, b.pixels.length < fuel → floodFill fuel b x y newColor = some r) ∧
      log.Nodup ∧ (log.length : Int) ≤ b.width * b.height := by
  have hnonneg : (0 : Int) ≤ b.width * b.height := by
    have h : (b.pixels.length : Int) = b.width * b.height := hwf
    rw [← h]; exact Int.natCast_nonneg _
  by_cases hin : b.inBounds x y = true
  · by_cases hne : b.getPixel x y = newColor
    · exact ⟨b, [], fun fuel _ => by simp [floodFillLog, hin, hne],
        fun fuel _ => by simp [floodFill, hin, hne], List.nodup_nil, by simpa using hnonneg⟩
    · obtain ⟨r, hrun, _⟩ := floodFill_total b x y newColor hwf
      have hunf : ∀ fuel, floodFillLog fuel b x y newColor =
          floodLoopLog (b.getPixel x y) newColor fuel (b.setPixel x y newColor) [⟨x, y⟩]
            [⟨x, y⟩] := by
        intro fuel
        simp only [floodFillLog, hin, Bool.not_true, Bool.false_eq_true, if_false, if_neg hne]
      have h0 := floodFillLog_fst (b.pixels.length + 1) b x y newColor
      rw [hrun _ (Nat.lt_succ_self _), Option.map_eq_some'] at h0
      obtain ⟨⟨r', log⟩, hlog0, hr'⟩ := h0
      simp only at hr'
      subst hr'
      have hinit : LogInv (b.getPixel x y) newColor (b.pixels.count (b.getPixel x y))
          (b.setPixel x y newColor) [⟨x, y⟩] := by
        refine ⟨setPixel_WF hwf _ _ _, List.nodup_singleton _, ?_, ?_⟩
        · intro p hp
          rw [List.mem_singleton] at hp
          subst hp
          exact ⟨by simpa using hin, getPixel_setPixel_same hwf hin newColor⟩
        · have := count_setPixel hwf hin rfl hne
          simp only [List.length_singleton]
          omega
      rw [hunf] at hlog0
      obtain ⟨_, hnd, _, hK⟩ := floodLoopLog_inv hne _ _ _ _ _ hinit hlog0
      refine ⟨r', log, ?_, hrun, hnd, ?_⟩
      · intro fuel hf
        obtain ⟨k, rfl⟩ : ∃ k, fuel = b.pixels.length + 1 + k :=
          ⟨fuel - (b.pixels.length + 1), by omega⟩
        rw [hunf]
        exact floodLoopLog_mono _ _ _ _ _ _ _ hlog0 k
      · have h1 := List.count_le_length (b.getPixel x y) b.pixels
        have h2 : (b.pixels.length : Int) = b.width * b.height := hwf
        simp only at hK
        omega
  · exact ⟨b, [], fun fuel _ => by simp [floodFillLog, hin],
      fun fuel _ => by simp [floodFill, hin], List.nodup_nil, by simpa using hnonneg⟩

theorem floodFill_pushes_once_witness :
    (⟨2, 2, [Color.white, Color.white, ⟨9, 9, 9, 9⟩, Color.white]⟩ : Canvas).WF ∧
    ∃ (r : Canvas) (log : List Point),
      (∀ fuel,
        (⟨2, 2, [Color.white, Color.white, ⟨9, 9, 9, 9⟩, Color.white]⟩ : Canvas).pixels.length
          < fuel →
        floodFillLog fuel ⟨2, 2, [Color.white, Color.white, ⟨9, 9, 9, 9⟩, Color.white]⟩ 0 0
          ⟨1, 2, 3, 4⟩ = some (r, log)) ∧
      (∀ fuel,
        (⟨2, 2, [Color.white, Color.white, ⟨9, 9, 9, 9⟩, Color.white]⟩ : Canvas).pixels.length
          < fuel →
        floodFill fuel ⟨2, 2, [Color.white, Color.white, ⟨9, 9, 9, 9⟩, Color.white]⟩ 0 0
          ⟨1, 2, 3, 4⟩ = some r) ∧
      log.Nodup ∧
      (log.length : Int) ≤
        (⟨2, 2, [Color.white, Color.white, ⟨9, 9, 9, 9⟩, Color.white]⟩ : Canvas).width *
        (⟨2, 2, [Color.white, Color.white, ⟨9, 9, 9, 9⟩, Color.white]⟩ : Canvas).height :=
  ⟨by decide, floodFill_pushes_once _ 0 0 ⟨1, 2, 3, 4⟩ (by decide)⟩

end Canvas

/-! ## Circle outline: symmetry and distance to the circle -/

theorem circleLoop_unfold (cx cy x y err : Int) (h : x ≥ y) :
    circleLoop cx cy x y err =
      [⟨wrap32 (cx + x), wrap32 (cy + y)⟩, ⟨wrap32 (cx - x), wrap32 (cy + y)⟩,
       ⟨wrap32 (cx + x), wrap32 (cy - y)⟩, ⟨wrap32 (cx - x), wrap32 (cy - y)⟩,
       ⟨wrap32 (cx + y), wrap32 (cy + x)⟩, ⟨wrap32 (cx - y), wrap32 (cy + x)⟩,
       ⟨wrap32 (cx + y), wrap32 (cy - x)⟩, ⟨wrap32 (cx - y), wrap32 (cy - x)⟩] ++
      (if err < 0 then
        circleLoop cx cy x (y + 1) (wrap32 (err + wrap32 (wrap32 (2 * (y + 1)) + 1)))
       else
        circleLoop cx cy (x - 1) (y + 1)
          (wrap32 (err + wrap32 (wrap32 (2 * wrap32 (y + 1 - (x - 1))) + 1)))) := by
  rw [circleLoop, if_pos h]

/-- One iteration of the circle loop when the centre is at least `r` away from both ends of
the `int` range and `0 ≤ y ≤ x ≤ r`: none of the eight coordinate sums wraps. -/
theorem circleLoop_unfold_fit (cx cy r x y err : Int) (h : x ≥ y) (hy : 0 ≤ y) (hxr : x ≤ r)
    (hx0 : -2147483648 ≤ cx - r) (hx1 : cx + r ≤ 2147483647)
    (hy0 : -2147483648 ≤ cy - r) (hy1 : cy + r ≤ 2147483647) :
    circleLoop cx cy x y err =
      [⟨cx + x, cy + y⟩, ⟨cx - x, cy + y⟩, ⟨cx + x, cy - y⟩, ⟨cx - x, cy - y⟩,
       ⟨cx + y, cy + x⟩, ⟨cx - y, cy + x⟩, ⟨cx + y, cy - x⟩, ⟨cx - y, cy - x⟩] ++
      (if err < 0 then
        circleLoop cx cy x (y + 1) (wrap32 (err + wrap32 (wrap32 (2 * (y + 1)) + 1)))
       else
        circleLoop cx cy (x - 1) (y + 1)
          (wrap32 (err + wrap32 (wrap32 (2 * wrap32 (y + 1 - (x - 1))) + 1)))) := by
  rw [circleLoop_unfold cx cy x y err h,
    wrap32_eq (cx + x) (by omega) (by omega), wrap32_eq (cx - x) (by omega) (by omega),
    wrap32_eq (cx + y) (by omega) (by omega), wrap32_eq (cx - y) (by omega) (by omega),
    wrap32_eq (cy + x) (by omega) (by omega), wrap32_eq (cy - x) (by omega) (by omega),
    wrap32_eq (cy + y) (by omega) (by omega), wrap32_eq (cy - y) (by omega) (by omega)]

theorem circleLoop_done (cx cy x y err : Int) (h : ¬ x ≥ y) :
    circleLoop cx cy x y err = [] := by
  rw [circleLoop, if_neg h]

theorem mem_block_iff (cx cy x y a b : Int) :
    (⟨cx + a, cy + b⟩ : Point) ∈
      [(⟨cx + x, cy + y⟩ : Point), ⟨cx - x, cy + y⟩, ⟨cx + x, cy - y⟩, ⟨cx - x, cy - y⟩,
       ⟨cx + y, cy + x⟩, ⟨cx - y, cy + x⟩, ⟨cx + y, cy - x⟩, ⟨cx - y, cy - x⟩] ↔
      ((a = x ∨ a = -x) ∧ (b = y ∨ b = -y)) ∨ ((a = y ∨ a = -y) ∧ (b = x ∨ b = -x)) := by
  simp only [List.mem_cons, List.mem_singleton, List.not_mem_nil, or_false, Point.mk.injEq]
  constructor
  · rintro (⟨h1, h2⟩ | ⟨h1, h2⟩ | ⟨h1, h2⟩ | ⟨h1, h2⟩ | ⟨h1, h2⟩ | ⟨h1, h2⟩ | ⟨h1, h2⟩ |
      ⟨h1, h2⟩)
    · exact Or.inl ⟨Or.inl (by omega), Or.inl (by omega)⟩
    · exact Or.inl ⟨Or.inr (by omega), Or.inl (by omega)⟩
    · exact Or.inl ⟨Or.inl (by omega), Or.inr (by omega)⟩
    · exact Or.inl ⟨Or.inr (by omega), Or.inr (by omega)⟩
    · exact Or.inr ⟨Or.inl (by omega), Or.inl (by omega)⟩
    · exact Or.inr ⟨Or.inr (by omega), Or.inl (by omega)⟩
    · exact Or.inr ⟨Or.inl (by omega), Or.inr (by omega)⟩
    · exact Or.inr ⟨Or.inr (by omega), Or.inr (by omega)⟩
  · rintro (⟨h1 | h1, h2 | h2⟩ | ⟨h1 | h1, h2 | h2⟩)
    · exact Or.inl ⟨by omega, by omega⟩
    · exact Or.inr (Or.inr (Or.inl ⟨by omega, by omega⟩))
    · exact Or.inr (Or.inl ⟨by omega, by omega⟩)
    · exact Or.inr (Or.inr (Or.inr (Or.inl ⟨by omega, by omega⟩)))
    · exact Or.inr (Or.inr (Or.inr (Or.inr (Or.inl ⟨by omega, by omega⟩))))
    · exact Or.inr (Or.inr (Or.inr (Or.inr (Or.inr (Or.inr (Or.inl ⟨by omega, by omega⟩))))))
    · exact Or.inr (Or.inr (Or.inr (Or.inr (Or.inr (Or.inl ⟨by omega, by omega⟩)))))
    · exact Or.inr (Or.inr (Or.inr (Or.inr (Or.inr (Or.inr (Or.inr ⟨by omega, by omega⟩))))))

theorem sym8_block (cx cy x y : Int) :
    Sym8 cx cy
      [⟨cx + x, cy + y⟩, ⟨cx - x, cy + y⟩, ⟨cx + x, cy - y⟩, ⟨cx - x, cy - y⟩,
       ⟨cx + y, cy + x⟩, ⟨cx - y, cy + x⟩, ⟨cx + y, cy - x⟩, ⟨cx - y, cy - x⟩] := by
  intro a b h
  rw [mem_block_iff] at h
  simp only [sub_eq_add_neg cx a, sub_eq_add_neg cx b, sub_eq_add_neg cy a,
    sub_eq_add_neg cy b]
  refine ⟨(mem_block_iff cx cy x y _ _).2 ?_, (mem_block_iff cx cy x y _ _).2 ?_,
    (mem_block_iff cx cy x y _ _).2 ?_, (mem_block_iff cx cy x y _ _).2 ?_,
    (mem_block_iff cx cy x y _ _).2 ?_, (mem_block_iff cx cy x y _ _).2 ?_,
    (mem_block_iff cx cy x y _ _).2 ?_⟩ <;> omega

theorem sym8_append (cx cy : Int) (l1 l2 : List Point) (h1 : Sym8 cx cy l1)
    (h2 : Sym8 cx cy l2) : Sym8 cx cy (l1 ++ l2) := by
  intro a b h
  rcases List.mem_append.1 h with h | h
  · obtain ⟨a1, a2, a3, a4, a5, a6, a7⟩ := h1 a b h
    exact ⟨List.mem_append_left _ a1, List.mem_append_left _ a2, List.mem_append_left _ a3,
      List.mem_append_left _ a4, List.mem_append_left _ a5, List.mem_append_left _ a6,
      List.mem_append_left _ a7⟩
  · obtain ⟨a1, a2, a3, a4, a5, a6, a7⟩ := h2 a b h
    exact ⟨List.mem_append_right _ a1, List.mem_append_right _ a2, List.mem_append_right _ a3,
      List.mem_append_right _ a4, List.mem_append_right _ a5, List.mem_append_right _ a6,
      List.mem_append_right _ a7⟩

/-- The output of the circle loop is closed under the eight reflections, from every state
with `0 ≤ y` and `x ≤ r`, when the centre is at least `r` away from both ends of the `int`
range. -/
theorem sym8_circleLoop (cx cy r : Int)
    (hx0 : -2147483648 ≤ cx - r) (hx1 : cx + r ≤ 2147483647)
    (hy0 : -2147483648 ≤ cy - r) (hy1 : cy + r ≤ 2147483647) (k : Nat) :
    ∀ x y err : Int, (x - y + 1).toNat ≤ k → 0 ≤ y → x ≤ r →
      Sym8 cx cy (circleLoop cx cy x y err) := by
  induction k with
  | zero =>
    intro x y err hk _ _
    rw [circleLoop_done cx cy x y err (by omega)]
    intro a b h
    exact absurd h (List.not_mem_nil _)
  | succ k ih =>
    intro x y err hk hy hxr
    by_cases hxy : x ≥ y
    · rw [circleLoop_unfold_fit cx cy r x y err hxy hy hxr hx0 hx1 hy0 hy1]
      apply sym8_append _ _ _ _ (sym8_block cx cy x y)
      split
      · exact ih _ _ _ (by omega) (by omega) hxr
      · exact ih _ _ _ (by omega) (by omega) (by omega)
    · rw [circleLoop_done cx cy x y err hxy]
      intro a b h
      exact absurd h (List.not_mem_nil _)

/-- Evaluation of `circlePoints(2147483647, 0, 1)`: the sum `cx + x = 2147483647 + 1` wraps to
`-2147483648`. -/
theorem circlePoints_at_int_max :
    circlePoints 2147483647 0 1 =
      [⟨-2147483648, 0⟩, ⟨2147483646, 0⟩, ⟨-2147483648, 0⟩, ⟨2147483646, 0⟩,
       ⟨2147483647, 1⟩, ⟨2147483647, 1⟩, ⟨2147483647, -1⟩, ⟨2147483647, -1⟩] := by
  have hdef : circlePoints 2147483647 0 1 = circleLoop 2147483647 0 1 0 (wrap32 (1 - 1)) := by
    simp [circlePoints]
  have herr : ¬ wrap32 (1 - 1) < 0 := by decide
  rw [hdef, circleLoop_unfold 2147483647 0 1 0 _ (by decide), if_neg herr,
    circleLoop_done 2147483647 0 (1 - 1) (0 + 1) _ (by decide)]
  decide

/-- C27 fails when a coordinate sum leaves the range of `int`: `circlePoints(2147483647, 0, 1)`
emits the wrapped point `(-2147483648, 0)` in place of the axis point `(cx + radius, cy)`, and
it contains `(cx + a, cy + b)` for `(a, b) = (-1, 0)` but not its reflection `(cx - a, cy + b)`. -/
theorem circlePoints_symmetric_overflow_example :
    (⟨-2147483648, 0⟩ : Point) ∈ circlePoints 2147483647 0 1 ∧
    (⟨2147483647 + 1, 0⟩ : Point) ∉ circlePoints 2147483647 0 1 ∧
    (⟨2147483647 + (-1), 0 + 0⟩ : Point) ∈ circlePoints 2147483647 0 1 ∧
    (⟨2147483647 - (-1), 0 + 0⟩ : Point) ∉ circlePoints 2147483647 0 1 := by
  rw [circlePoints_at_int_max]
  decide

/-- C27 (amended): for radius at least 1 and a centre at least `radius` away from both ends
of the `int` range in `x` and in `y`, the points of `circlePoints` are closed under the eight
reflections about the centre, and the four axis points at distance `radius` are emitted. -/
theorem circlePoints_symmetric (cx cy radius : Int) (hr : 1 ≤ radius)
    (hx0 : -2147483648 ≤ cx - radius) (hx1 : cx + radius ≤ 2147483647)
    (hy0 : -2147483648 ≤ cy - radius) (hy1 : cy + radius ≤ 2147483647) :
    (∀ a b : Int, (⟨cx + a, cy + b⟩ : Point) ∈ circlePoints cx cy radius →
      (⟨cx - a, cy + b⟩ : Point) ∈ circlePoints cx cy radius ∧
      (⟨cx + a, cy - b⟩ : Point) ∈ circlePoints cx cy radius ∧
      (⟨cx - a, cy - b⟩ : Point) ∈ circlePoints cx cy radius ∧
      (⟨cx + b, cy + a⟩ : Point) ∈ circlePoints cx cy radius ∧
      (⟨cx - b, cy + a⟩ : Point) ∈ circlePoints cx cy radius ∧
      (⟨cx + b, cy - a⟩ : Point) ∈ circlePoints cx cy radius ∧
      (⟨cx - b, cy - a⟩ : Point) ∈ circlePoints cx cy radius) ∧
    (⟨cx + radius, cy⟩ : Point) ∈ circlePoints cx cy radius ∧
    (⟨cx - radius, cy⟩ : Point) ∈ circlePoints cx cy radius ∧
    (⟨cx, cy + radius⟩ : Point) ∈ circlePoints cx cy radius ∧
    (⟨cx, cy - radius⟩ : Point) ∈ circlePoints cx cy radius := by
  have hdef : circlePoints cx cy radius = circleLoop cx cy radius 0 (wrap32 (1 - radius)) := by
    simp [circlePoints, not_le.mpr (show 0 < radius by omega)]
  rw [hdef]
  refine ⟨sym8_circleLoop cx cy radius hx0 hx1 hy0 hy1 _ radius 0 _ (le_refl _) (le_refl _)
    (le_refl _), ?_⟩
  rw [circleLoop_unfold_fit cx cy radius radius 0 _ (by omega) (le_refl _) (le_refl _)
    hx0 hx1 hy0 hy1]
  simp

theorem circlePoints_symmetric_witness :
    (∀ a b : Int, (⟨10 + a, 20 + b⟩ : Point) ∈ circlePoints 10 20 3 →
      (⟨10 - a, 20 + b⟩ : Point) ∈ circlePoints 10 20 3 ∧
      (⟨10 + a, 20 - b⟩ : Point) ∈ circlePoints 10 20 3 ∧
      (⟨10 - a, 20 - b⟩ : Point) ∈ circlePoints 10 20 3 ∧
      (⟨10 + b, 20 + a⟩ : Point) ∈ circlePoints 10 20 3 ∧
      (⟨10 - b, 20 + a⟩ : Point) ∈ circlePoints 10 20 3 ∧
      (⟨10 + b, 20 - a⟩ : Point) ∈ circlePoints 10 20 3 ∧
      (⟨10 - b, 20 - a⟩ : Point) ∈ circlePoints 10 20 3) ∧
    (⟨10 + 3, 20⟩ : Point) ∈ circlePoints 10 20 3 ∧
    (⟨10 - 3, 20⟩ : Point) ∈ circlePoints 10 20 3 ∧
    (⟨10, 20 + 3⟩ : Point) ∈ circlePoints 10 20 3 ∧
    (⟨10, 20 - 3⟩ : Point) ∈ circlePoints 10 20 3 :=
  circlePoints_symmetric 10 20 3 (by decide) (by decide) (by decide) (by decide) (by decide)

/-- Every point emitted by the circle loop from a state `(x, y, err)` that satisfies the
loop invariant (`err = x² - x + (y+1)² - r²`, `0 ≤ y`, `x ≤ r`, and the two bounds on `err`
while the loop continues) is within the stated distance of the circle of radius `r`, when the
centre is at least `r` away from both ends of the `int` range and `2 * r + 5` fits in `int`
(so that no update of `err` wraps). -/
theorem circleLoop_on_circle (cx cy r : Int) (hrad : r ≤ 1073741821)
    (hx0 : -2147483648 ≤ cx - r) (hx1 : cx + r ≤ 2147483647)
    (hy0 : -2147483648 ≤ cy - r) (hy1 : cy + r ≤ 2147483647) (k : Nat) :
    ∀ x y err : Int, (x - y + 1).toNat ≤ k → 0 ≤ y → x ≤ r →
      err = x * x - x + (y + 1) * (y + 1) - r * r →
      (y ≤ x → 2 * y + 1 - x - r ≤ err ∧ err < r - x + 2 * y + 1) →
      ∀ p ∈ circleLoop cx cy x y err,
        -r ≤ (p.x - cx) * (p.x - cx) + (p.y - cy) * (p.y - cy) - r * r ∧
        (p.x - cx) * (p.x - cx) + (p.y - cy) * (p.y - cy) - r * r < r ∧
        |p.x - cx| ≤ r ∧ |p.y - cy| ≤ r := by
  induction k with
  | zero =>
    intro x y err hk _ _ _ _ p hp
    rw [circleLoop_done cx cy x y err (by omega)] at hp
    exact absurd hp (List.not_mem_nil _)
  | succ k ih =>
    intro x y err hk hy0' hxr herr hJ p hp
    by_cases hxy : x ≥ y
    · obtain ⟨hlo, hhi⟩ := hJ hxy
      rw [circleLoop_unfold_fit cx cy r x y err hxy hy0' hxr hx0 hx1 hy0 hy1,
        List.mem_append] at hp
      rcases hp with hp | hp
      · have hsq : ∀ u v : Int, (u = x ∨ u = -x) → (v = y ∨ v = -y) →
            u * u + v * v - r * r = err + x - 2 * y - 1 := by
          intro u v hu hv
          rcases hu with hu | hu <;> rcases hv with hv | hv <;> subst hu hv <;> rw [herr] <;> ring
        have hcase : ((p.x - cx = x ∨ p.x - cx = -x) ∧ (p.y - cy = y ∨ p.y - cy = -y)) ∨
            ((p.x - cx = y ∨ p.x - cx = -y) ∧ (p.y - cy = x ∨ p.y - cy = -x)) := by
          have hp' : (⟨cx + (p.x - cx), cy + (p.y - cy)⟩ : Point) ∈
              [(⟨cx + x, cy + y⟩ : Point), ⟨cx - x, cy + y⟩, ⟨cx + x, cy - y⟩, ⟨cx - x, cy - y⟩,
               ⟨cx + y, cy + x⟩, ⟨cx - y, cy + x⟩, ⟨cx + y, cy - x⟩, ⟨cx - y, cy - x⟩] := by
            have e : (⟨cx + (p.x - cx), cy + (p.y - cy)⟩ : Point) = p := by
              cases p; simp
            rw [e]; exact hp
          exact (mem_block_iff cx cy x y _ _).1 hp'
        rcases hcase with ⟨hu, hv⟩ | ⟨hu, hv⟩
        · have e := hsq _ _ hu hv
          refine ⟨by rw [e]; omega, by rw [e]; omega, abs_le.2 (by omega), abs_le.2 (by omega)⟩
        · have e := hsq _ _ hv hu
          have e' : (p.x - cx) * (p.x - cx) + (p.y - cy) * (p.y - cy) - r * r =
              err + x - 2 * y - 1 := by rw [← e]; ring
          refine ⟨by rw [e']; omega, by rw [e']; omega, abs_le.2 (by omega), abs_le.2 (by omega)⟩
      · by_cases herr0 : err < 0
        · rw [if_pos herr0, wrap32_eq (2 * (y + 1)) (by omega) (by omega),
            wrap32_eq (2 * (y + 1) + 1) (by omega) (by omega),
            wrap32_eq (err + (2 * (y + 1) + 1)) (by omega) (by omega)] at hp
          exact ih x (y + 1) (err + (2 * (y + 1) + 1)) (by omega) (by omega) hxr
            (by rw [herr]; ring) (fun _ => ⟨by omega, by omega⟩) p hp
        · rw [if_neg herr0, wrap32_eq (y + 1 - (x - 1)) (by omega) (by omega),
            wrap32_eq (2 * (y + 1 - (x - 1))) (by omega) (by omega),
            wrap32_eq (2 * (y + 1 - (x - 1)) + 1) (by omega) (by omega),
            wrap32_eq (err + (2 * (y + 1 - (x - 1)) + 1)) (by omega) (by omega)] at hp
          exact ih (x - 1) (y + 1) (err + (2 * (y + 1 - (x - 1)) + 1)) (by omega) (by omega)
            (by omega) (by rw [herr]; ring) (fun _ => ⟨by omega, by omega⟩) p hp
    · rw [circleLoop_done cx cy x y err hxy] at hp
      exact absurd hp (List.not_mem_nil _)

/-- C28 fails when a coordinate sum leaves the range of `int`: `circlePoints(2147483647, 0, 1)`
emits the wrapped point `(-2147483648, 0)`, for which `dx = -4294967295` and
`dx*dx + dy*dy - r*r` is far above `r = 1`. -/
theorem circlePoints_on_circle_overflow_example :
    (⟨-2147483648, 0⟩ : Point) ∈ circlePoints 2147483647 0 1 ∧
    ¬ (((-2147483648 : Int) - 2147483647) * ((-2147483648 : Int) - 2147483647) +
        ((0 : Int) - 0) * ((0 : Int) - 0) - 1 * 1 < 1) ∧
    ¬ (|(-2147483648 : Int) - 2147483647| ≤ 1) := by
  rw [circlePoints_at_int_max]
  decide

/-- C28 (amended): for radius `1 ≤ r ≤ 1073741821` and a centre at least `r` away from both
ends of the `int` range in `x` and in `y`, every point `p` of `circlePoints(cx,cy,r)`
satisfies, with `dx = p.x - cx` and `dy = p.y - cy`, the exact integer bounds
`-r ≤ dx*dx + dy*dy - r*r < r`, and `|dx| ≤ r`, `|dy| ≤ r`. -/
theorem circlePoints_on_circle (cx cy r : Int) (hr : 1 ≤ r) (hrad : r ≤ 1073741821)
    (hx0 : -2147483648 ≤ cx - r) (hx1 : cx + r ≤ 2147483647)
    (hy0 : -2147483648 ≤ cy - r) (hy1 : cy + r ≤ 2147483647) :
    ∀ p ∈ circlePoints cx cy r,
      -r ≤ (p.x - cx) * (p.x - cx) + (p.y - cy) * (p.y - cy) - r * r ∧
      (p.x - cx) * (p.x - cx) + (p.y - cy) * (p.y - cy) - r * r < r ∧
      |p.x - cx| ≤ r ∧ |p.y - cy| ≤ r := by
  have hdef : circlePoints cx cy r = circleLoop cx cy r 0 (1 - r) := by
    simp [circlePoints, not_le.mpr (show 0 < r by omega),
      wrap32_eq (1 - r) (by omega) (by omega)]
  rw [hdef]
  exact circleLoop_on_circle cx cy r hrad hx0 hx1 hy0 hy1 _ r 0 (1 - r) (le_refl _)
    (le_refl _) (le_refl _) (by ring) (fun _ => ⟨by omega, by omega⟩)

theorem circlePoints_on_circle_witness :
    (⟨17, 20⟩ : Point) ∈ circlePoints 10 20 7 ∧
    -7 ≤ ((17 : Int) - 10) * (17 - 10) + ((20 : Int) - 20) * (20 - 20) - 7 * 7 ∧
    ((17 : Int) - 10) * (17 - 10) + ((20 : Int) - 20) * (20 - 20) - 7 * 7 < 7 ∧
    |(17 : Int) - 10| ≤ 7 ∧ |(20 : Int) - 20| ≤ 7 :=
  have hmem : (⟨17, 20⟩ : Point) ∈ circlePoints 10 20 7 := by
    have hdef : circlePoints 10 20 7 = circleLoop 10 20 7 0 (wrap32 (1 - 7)) := by
      simp [circlePoints]
    rw [hdef, circleLoop_unfold_fit 10 20 7 7 0 _ (by decide) (by decide) (by decide)
      (by decide) (by decide) (by decide) (by decide)]
    simp
  ⟨hmem, circlePoints_on_circle 10 20 7 (by decide) (by decide) (by decide) (by decide)
    (by decide) (by decide) ⟨17, 20⟩ hmem⟩

/-! ## Repeated cells in degenerate rectangles -/

/-- For normalised corners the outline sequence has no cell twice exactly when the rectangle has
two distinct rows and either two distinct columns or no interior row. -/
theorem nodup_rectOutline_iff (x0 y0 x1 y1 : Int) (hx : x0 ≤ x1) (hy : y0 ≤ y1) :
    (rectOutline x0 y0 x1 y1).Nodup ↔ y0 ≠ y1 ∧ (x0 ≠ x1 ∨ y1 - y0 = 1) := by
  constructor
  · intro h
    rw [rectOutline_eq] at h
    have hne : y0 ≠ y1 := by
      intro heq
      have h1 := (List.nodup_flatMap.1 h.of_append_left).1 0
        (List.mem_range.2 (by omega))
      simp [heq] at h1
    refine ⟨hne, ?_⟩
    by_contra hcon
    push_neg at hcon
    obtain ⟨hxe, hy1⟩ := hcon
    have h2 := (List.nodup_flatMap.1 h.of_append_right).1 0
      (List.mem_range.2 (by omega))
    simp [hxe] at h2
  · rintro ⟨hne, hor⟩
    have hylt : y0 < y1 := lt_of_le_of_ne hy hne
    by_cases hxe : x0 = x1
    · have hy1 : y1 = y0 + 1 := by omega
      subst hxe hy1
      rw [rectOutline_eq]
      have e1 : (x0 + 1 - x0).toNat = 1 := by omega
      have e2 : (y0 + 1 - (y0 + 1)).toNat = 0 := by omega
      rw [e1, e2]
      simp [List.range_succ]
    · exact nodup_rectOutline x0 y0 x1 y1 (lt_of_le_of_ne hx hxe) hylt

/-- C29 fails on degenerate rectangles: for the single point `(1,1)` the cell is emitted
twice, and on the single row from `(0,0)` to `(1,0)` both corner cells are emitted twice. -/
theorem rectPoints_duplicates_example :
    rectPoints 2 1 1 1 1 = some [⟨1, 1⟩, ⟨1, 1⟩] ∧
    (∀ fuel : Nat, 1 < fuel → rectPoints fuel 1 1 1 1 = some [⟨1, 1⟩, ⟨1, 1⟩]) ∧
    ¬ ([⟨1, 1⟩, ⟨1, 1⟩] : List Point).Nodup ∧
    rectPoints 3 0 0 1 0 = some [⟨0, 0⟩, ⟨0, 0⟩, ⟨1, 0⟩, ⟨1, 0⟩] ∧
    (∀ fuel : Nat, 2 < fuel →
      rectPoints fuel 0 0 1 0 = some [⟨0, 0⟩, ⟨0, 0⟩, ⟨1, 0⟩, ⟨1, 0⟩]) ∧
    ¬ ([⟨0, 0⟩, ⟨0, 0⟩, ⟨1, 0⟩, ⟨1, 0⟩] : List Point).Nodup := by
  refine ⟨by decide, ?_, by decide, by decide, ?_, by decide⟩
  · intro fuel hf
    rw [rectPoints_run 1 1 1 1 (by decide) fuel (by simp; omega)]
    decide
  · intro fuel hf
    rw [rectPoints_run 0 0 1 0 (by decide) fuel (by simp; omega)]
    decide

/-- C29 (amended): for corners whose coordinates keep the loop counters in the range of `int`
(`RectFits`), the sequence returned by `rectPoints` contains no cell more than once exactly
when the corners differ in `y` and either differ in `x` or are vertically adjacent
(`|y1 - y0| = 1`); in particular no cell, and no corner, is emitted twice for a
non-degenerate rectangle (`x0 ≠ x1` and `y0 ≠ y1`). -/
theorem rectPoints_nodup_iff (x0 y0 x1 y1 : Int) (hfit : RectFits x0 y0 x1 y1) :
    ∃ pts : List Point,
      (∀ fuel : Nat, |x1 - x0| + |y1 - y0| + 1 < (fuel : Int) →
        rectPoints fuel x0 y0 x1 y1 = some pts) ∧
      (pts.Nodup ↔ y0 ≠ y1 ∧ (x0 ≠ x1 ∨ |y1 - y0| = 1)) ∧
      (x0 ≠ x1 → y0 ≠ y1 → pts.Nodup) := by
  have hiff : (rectOutline (min x0 x1) (min y0 y1) (max x0 x1) (max y0 y1)).Nodup ↔
      y0 ≠ y1 ∧ (x0 ≠ x1 ∨ |y1 - y0| = 1) := by
    rw [nodup_rectOutline_iff _ _ _ _
      (le_trans (min_le_left _ _) (le_max_left _ _))
      (le_trans (min_le_left _ _) (le_max_left _ _))]
    have habs : |y1 - y0| = max y0 y1 - min y0 y1 := by
      rcases le_total y0 y1 with h | h
      · rw [min_eq_left h, max_eq_right h, abs_of_nonneg (by omega)]
      · rw [min_eq_right h, max_eq_left h, abs_of_nonpos (by omega)]; ring
    rw [habs]
    constructor
    · rintro ⟨h1, h2⟩
      refine ⟨?_, ?_⟩
      · intro h; apply h1; rw [h]; simp
      · rcases h2 with h2 | h2
        · left; intro h; apply h2; rw [h]; simp
        · right; exact h2
    · rintro ⟨h1, h2⟩
      refine ⟨?_, ?_⟩
      · intro h
        apply h1
        rcases le_total y0 y1 with h' | h'
        · rw [min_eq_left h', max_eq_right h'] at h; exact h
        · rw [min_eq_right h', max_eq_left h'] at h; exact h.symm
      · rcases h2 with h2 | h2
        · left
          intro h
          apply h2
          rcases le_total x0 x1 with h' | h'
          · rw [min_eq_left h', max_eq_right h'] at h; exact h
          · rw [min_eq_right h', max_eq_left h'] at h; exact h.symm
        · right; exact h2
  exact ⟨_, fun fuel hf => rectPoints_run x0 y0 x1 y1 hfit fuel hf, hiff,
    fun hx hy => hiff.2 ⟨hy, Or.inl hx⟩⟩

theorem rectPoints_nodup_iff_witness :
    RectFits 3 5 3 6 ∧
    ∃ pts : List Point,
      (∀ fuel : Nat, |(3 : Int) - 3| + |(6 : Int) - 5| + 1 < (fuel : Int) →
        rectPoints fuel 3 5 3 6 = some pts) ∧
      (pts.Nodup ↔ (5 : Int) ≠ 6 ∧ ((3 : Int) ≠ 3 ∨ |(6 : Int) - 5| = 1)) ∧
      ((3 : Int) ≠ 3 → (5 : Int) ≠ 6 → pts.Nodup) :=
  ⟨by decide, rectPoints_nodup_iff 3 5 3 6 (by decide)⟩

/-! ## Bounded history -/

namespace Editor

theorem redo_stacks (e : Editor) :
    e.redo.undoStack.length + e.redo.redoStack.length =
      e.undoStack.length + e.redoStack.length := by
  unfold redo
  split
  · rfl
  · rename_i top h
    have hne : e.redoStack ≠ [] := by
      intro h0; rw [h0] at h; simp at h
    have := List.length_pos.2 hne
    simp only [List.length_append, List.length_singleton, List.length_dropLast]
    omega

theorem undo_stacks (e : Editor) :
    e.undo.undoStack.length + e.undo.redoStack.length =
      e.undoStack.length + e.redoStack.length := by
  unfold undo
  split
  · rfl
  · rename_i top h
    have hne : e.undoStack ≠ [] := by
      intro h0; rw [h0] at h; simp at h
    have := List.length_pos.2 hne
    simp only [List.length_append, List.length_singleton, List.length_dropLast]
    omega

theorem pushUndo_stacks (e : Editor) (h : e.undoStack.length ≤ 100) :
    e.pushUndo.undoStack.length + e.pushUndo.redoStack.length ≤ 100 := by
  unfold pushUndo MAX_UNDO
  simp only [List.length_nil, add_zero]
  split
  · simp only [List.length_tail, List.length_append, List.length_singleton]
    omega
  · rename_i hgt
    omega

/-- C30: in every state reachable from empty stacks by `pushUndo`, `undo`, `redo` (and
arbitrary changes of the canvas in between), the undo stack and the redo stack hold at most
100 snapshots each, and at most 100 together. -/
theorem history_stays_bounded (e : Editor) (h : Reachable e) :
    e.undoStack.length ≤ 100 ∧ e.redoStack.length ≤ 100 ∧
    e.undoStack.length + e.redoStack.length ≤ 100 := by
  suffices hsum : e.undoStack.length + e.redoStack.length ≤ 100 from
    ⟨by omega, by omega, hsum⟩
  induction h with
  | init c => simp
  | edit c _ ih => exact ih
  | push _ ih => exact pushUndo_stacks _ (by omega)
  | undo _ ih => rw [undo_stacks]; exact ih
  | redo _ ih => rw [redo_stacks]; exact ih

theorem history_stays_bounded_witness :
    (undo (pushUndo ⟨⟨1, 1, [Color.white]⟩, [], []⟩)).undoStack.length ≤ 100 ∧
    (undo (pushUndo ⟨⟨1, 1, [Color.white]⟩, [], []⟩)).redoStack.length ≤ 100 ∧
    (undo (pushUndo ⟨⟨1, 1, [Color.white]⟩, [], []⟩)).undoStack.length +
      (undo (pushUndo ⟨⟨1, 1, [Color.white]⟩, [], []⟩)).redoStack.length ≤ 100 :=
  history_stays_bounded _ (Reachable.undo (Reachable.push (Reachable.init ⟨1, 1, [Color.white]⟩)))

end Editor

/-! ## Drawing a point sequence -/

namespace Canvas

end Canvas

/-! ## Undo with a stale snapshot -/

namespace Editor

end Editor

end TinyCanvas
